import Mathlib


/-!
Dancing links (`dlx.go`): a shallow embedding.

The Go program keeps a toroidal doubly linked matrix of `columnHeader` and
`node` cells.  The embedding uses a component-wise heap: a pointer is an
address (a natural number), and every struct field is one function from addresses to
values.  `&m.columns[i]` is address `i`; the cells that `AddRow` obtains from
`make([]node, nodeCount)` are the next `nodeCount` fresh addresses.

Go `int` values are modelled by `Int`.  The 64-bit wrap-around is not modelled:
the only counters are `rowCount` and `columnLen`, which move by one per call.

Every `for x != stop { ...; x = x.dir() }` loop of the source is a `ptrLoop`
with a fuel argument; running out of fuel yields `none`.
-/

namespace dlx

/-- Store `v` at address `p` of one heap component. -/
def upd {α : Type} (f : Nat → α) (p : Nat) (v : α) : Nat → α :=
  fun q => if q = p then v else f q

/-- The `matrix` struct together with the heap of `node` / `columnHeader`
cells it owns.  `columns` is `len(m.columns)`; `alloc` is the next fresh
address. -/
structure matrix where
  root : Nat
  columns : Nat
  solutionRows : List Nat
  rowCount : Int
  alloc : Nat
  rowInd : Nat → Int
  parentColumnPtr : Nat → Nat
  upPtr : Nat → Nat
  downPtr : Nat → Nat
  leftPtr : Nat → Nat
  rightPtr : Nat → Nat
  columnLen : Nat → Int
  columnInd : Nat → Int

/-- Go `func (n *node) setRowIndex(i int)`. -/
def setRowIndex (m : matrix) (e : Nat) (i : Int) : matrix :=
  { m with rowInd := upd m.rowInd e i }

/-- Go `func (n *node) setParentColumn(c2 *columnHeader)`. -/
def setParentColumn (m : matrix) (e c2 : Nat) : matrix :=
  { m with parentColumnPtr := upd m.parentColumnPtr e c2 }

/-- Go `func (n *node) setUp(e matrixElement)`. -/
def setUp (m : matrix) (n e : Nat) : matrix :=
  { m with upPtr := upd m.upPtr n e }

/-- Go `func (n *node) setDown(e matrixElement)`. -/
def setDown (m : matrix) (n e : Nat) : matrix :=
  { m with downPtr := upd m.downPtr n e }

/-- Go `func (n *node) setLeft(e matrixElement)`. -/
def setLeft (m : matrix) (n e : Nat) : matrix :=
  { m with leftPtr := upd m.leftPtr n e }

/-- Go `func (n *node) setRight(e matrixElement)`. -/
def setRight (m : matrix) (n e : Nat) : matrix :=
  { m with rightPtr := upd m.rightPtr n e }

/-- Go `func (c *columnHeader) setColumnIndex(i int)`. -/
def setColumnIndex (m : matrix) (c : Nat) (i : Int) : matrix :=
  { m with columnInd := upd m.columnInd c i }

/-- Go `func (c *columnHeader) incrementLen()`. -/
def incrementLen (m : matrix) (c : Nat) : matrix :=
  { m with columnLen := upd m.columnLen c (m.columnLen c + 1) }

/-- Go `func (c *columnHeader) decrementLen()`. -/
def decrementLen (m : matrix) (c : Nat) : matrix :=
  { m with columnLen := upd m.columnLen c (m.columnLen c - 1) }

/-- The walk `for x := start; x != stop; x = next(x) { body(x) }` over a
linked ring, on a loop state `σ`.  `next` reads the link of `x` in the state
left by the body. -/
def ptrLoop {σ : Type} (stop : Nat) (next : σ → Nat → Nat) (body : Nat → σ → Option σ) :
    Nat → Nat → σ → Option σ
  | 0, _, _ => none
  | fuel + 1, x, s =>
    if x = stop then some s
    else match body x s with
      | none => none
      | some s1 => ptrLoop stop next body fuel (next s1 x) s1

/-- The zeroed storage in which `NewMatrix` starts; every cell that is ever
reached is fully initialised by `NewMatrix` or `AddRow` before it is read. -/
def emptyMatrix (columnCount : Nat) : matrix where
  root := 0
  columns := columnCount + 1
  solutionRows := []
  rowCount := 0
  alloc := columnCount + 1
  rowInd := fun _ => 0
  parentColumnPtr := fun _ => 0
  upPtr := fun _ => 0
  downPtr := fun _ => 0
  leftPtr := fun _ => 0
  rightPtr := fun _ => 0
  columnLen := fun _ => 0
  columnInd := fun _ => 0

/-- One iteration of the loop of `NewMatrix`, for `head := &columnHeaders[i]`. -/
def newMatrixHead (columnCount : Nat) (m : matrix) (i : Nat) : matrix :=
  let head : Nat := i
  let m := setRowIndex m head (-1)
  let m := setParentColumn m head head
  let m := setUp m head head
  let m := setDown m head head
  let m := if i = 0 then setLeft m head columnCount else setLeft m head (i - 1)
  let m := if i = columnCount then setRight m head 0 else setRight m head (i + 1)
  setColumnIndex m head ((i : Int) - 1)

/-- Go `NewMatrix(columnCount)` for `columnCount ≥ 0` (a negative count panics
in `make` or at `&columnHeaders[0]`). -/
def NewMatrix (columnCount : Nat) : matrix :=
  (List.range (columnCount + 1)).foldl (newMatrixHead columnCount) (emptyMatrix columnCount)

/-- The loop `for i, c := range rowIndeces` of `AddRow`; `row` is the address
of `row[0]`.  `m.columns[c+1]` panics (`none`) when `c+1` is not an index of
`m.columns`. -/
def addRowLoop (nodeCount : Nat) (row : Nat) : Nat → List Int → matrix → Option matrix
  | _, [], m => some m
  | i, c :: cs, m =>
    if 0 ≤ c + 1 ∧ c + 1 < (m.columns : Int) then
      let currentNode : Nat := row + i
      let column : Nat := (c + 1).toNat
      let downNode := m.upPtr column
      let m := setRowIndex m currentNode m.rowCount
      let m := setParentColumn m currentNode column
      let m := incrementLen m column
      let m := setUp m currentNode downNode
      let m := setDown m currentNode column
      let m := setDown m downNode currentNode
      let m := setUp m column currentNode
      let m := if i = 0 then setLeft m currentNode (row + (nodeCount - 1))
               else setLeft m currentNode (row + (i - 1))
      let m := if i = nodeCount - 1 then setRight m currentNode row
               else setRight m currentNode (row + (i + 1))
      addRowLoop nodeCount row (i + 1) cs m
    else none

/-- Go `func (m *matrix) AddRow(rowIndeces []int) int`: the matrix after the
call and the returned row index, or `none` for a run-time panic. -/
def AddRow (m : matrix) (rowIndeces : List Int) : Option (matrix × Int) :=
  let nodeCount := rowIndeces.length
  let row := m.alloc
  match addRowLoop nodeCount row 0 rowIndeces { m with alloc := m.alloc + nodeCount } with
  | none => none
  | some m =>
    let m := { m with rowCount := m.rowCount + 1 }
    some (m, m.rowCount - 1)

/-- The body of the inner loop of `cover`: bypass `rightNode` vertically and
reduce its column length by one. -/
def coverNode (rightNode : Nat) (m : matrix) : matrix :=
  let aboveRightNode := m.upPtr rightNode
  let belowRightNode := m.downPtr rightNode
  let m := setDown m aboveRightNode belowRightNode
  let m := setUp m belowRightNode aboveRightNode
  decrementLen m (m.parentColumnPtr rightNode)

/-- The inner loop of `cover`: unlink every node to the right of `downNode`
from its column. -/
def coverRow (fuel : Nat) (downNode : Nat) (m : matrix) : Option matrix :=
  ptrLoop downNode (fun m x => m.rightPtr x) (fun rightNode m => some (coverNode rightNode m))
    fuel (m.rightPtr downNode) m

/-- The first four statements of `cover`: bypass the column in the header ring. -/
def coverHeader (column : Nat) (m : matrix) : matrix :=
  let leftColumn := m.leftPtr column
  let rightColumn := m.rightPtr column
  let m := setRight m leftColumn rightColumn
  setLeft m rightColumn leftColumn

/-- Go `func cover(column *columnHeader)`. -/
def cover (fuel : Nat) (column : Nat) (m : matrix) : Option matrix :=
  let m := coverHeader column m
  ptrLoop column (fun m x => m.downPtr x) (fun downNode m => coverRow fuel downNode m)
    fuel (m.downPtr column) m

/-- The body of the inner loop of `uncover`: put `leftNode` back into its
column and increase the column length by one. -/
def uncoverNode (leftNode : Nat) (m : matrix) : matrix :=
  let aboveLeftNode := m.upPtr leftNode
  let belowLeftNode := m.downPtr leftNode
  let m := setDown m aboveLeftNode leftNode
  let m := setUp m belowLeftNode leftNode
  incrementLen m (m.parentColumnPtr leftNode)

/-- The inner loop of `uncover`: relink every node to the left of `upNode`
into its column. -/
def uncoverRow (fuel : Nat) (upNode : Nat) (m : matrix) : Option matrix :=
  ptrLoop upNode (fun m x => m.leftPtr x) (fun leftNode m => some (uncoverNode leftNode m))
    fuel (m.leftPtr upNode) m

/-- The last four statements of `uncover`: put the column back into the header
ring. -/
def uncoverHeader (column : Nat) (m : matrix) : matrix :=
  let leftColumn := m.leftPtr column
  let rightColumn := m.rightPtr column
  let m := setRight m leftColumn column
  setLeft m rightColumn column

/-- Go `func uncover(column *columnHeader)`. -/
def uncover (fuel : Nat) (column : Nat) (m : matrix) : Option matrix :=
  match ptrLoop column (fun m x => m.upPtr x) (fun upNode m => uncoverRow fuel upNode m)
      fuel (m.upPtr column) m with
  | none => none
  | some m => some (uncoverHeader column m)

/-- A Go `map[int][]int`, as an association list with at most one entry per
key.  Go maps are unordered; the list order is the order of first insertion. -/
abbrev Solution := List (Int × List Int)

/-- Go `solution[k]` (the zero value `nil` when `k` is absent). -/
def mapGet (sol : Solution) (k : Int) : List Int :=
  match sol.find? (fun e => e.1 = k) with
  | some e => e.2
  | none => []

/-- Go `solution[k] = v`. -/
def mapSet : Solution → Int → List Int → Solution
  | [], k, v => [(k, v)]
  | e :: es, k, v => if e.1 = k then (k, v) :: es else e :: mapSet es k v

/-- The keys of a Go map. -/
def mapKeys (sol : Solution) : List Int := sol.map Prod.fst

/-- The body of `for _, rowStart := range m.solutionRows` in `getSolution`. -/
def getSolutionRow (fuel : Nat) (m : matrix) (rowStart : Nat) (solution : Solution) :
    Option Solution :=
  let rowIndex := m.rowInd rowStart
  let solution := mapSet solution rowIndex [m.columnInd (m.parentColumnPtr rowStart)]
  ptrLoop rowStart (fun _ x => m.rightPtr x)
    (fun rowNode solution =>
      some (mapSet solution rowIndex
        (mapGet solution rowIndex ++ [m.columnInd (m.parentColumnPtr rowNode)])))
    fuel (m.rightPtr rowStart) solution

/-- Go `func (m *matrix) getSolution() (solution map[int][]int)`. -/
def getSolution (fuel : Nat) (m : matrix) : Option Solution :=
  m.solutionRows.foldlM (fun solution rowStart => getSolutionRow fuel m rowStart solution) []

/-- The state of one activation of `search`: the matrix, the values sent so
far on the shared `solutions` channel (each with the matrix as it is while the
sender is suspended in that send), and the local `childSolutionFound`. -/
structure SearchState where
  m : matrix
  emitted : List (Solution × matrix)
  found : Bool

/-- The scan `for currentColumn != matrixRoot` of `search`, which picks the
left most column of minimum length; the loop state is `minColumn`. -/
def pickColumn (fuel : Nat) (m : matrix) : Option Nat :=
  let matrixRoot := m.root
  ptrLoop matrixRoot (fun _ x => m.rightPtr x)
    (fun currentColumn minColumn =>
      some (if m.columnLen (m.parentColumnPtr currentColumn)
                < m.columnLen (m.parentColumnPtr minColumn)
            then currentColumn else minColumn))
    fuel (m.rightPtr matrixRoot) (m.rightPtr matrixRoot)

/-- The loop `for rightNode != downNode { cover(rightNode.parentColumn()) }`. -/
def coverRowColumns (fuel : Nat) (downNode : Nat) (m : matrix) : Option matrix :=
  ptrLoop downNode (fun m x => m.rightPtr x)
    (fun rightNode m => cover fuel (m.parentColumnPtr rightNode) m)
    fuel (m.rightPtr downNode) m

/-- The loop `for leftNode != downNode { uncover(leftNode.parentColumn()) }`. -/
def uncoverRowColumns (fuel : Nat) (downNode : Nat) (m : matrix) : Option matrix :=
  ptrLoop downNode (fun m x => m.leftPtr x)
    (fun leftNode m => uncover fuel (m.parentColumnPtr leftNode) m)
    fuel (m.leftPtr downNode) m

/-- The body of the candidate loop `for downNode != minColumn` of `search`;
`child` is the activation started by `go m.search(solutions, childSuccessChannel)`,
whose result the parent receives from `childSuccessChannel`.  The source
advances `downNode` before it pops `solutionRows`; the pop does not touch a
link, so the body here pops before `ptrLoop` advances. -/
def searchRow (fuel : Nat) (child : matrix → Option SearchState) (downNode : Nat)
    (st : SearchState) : Option SearchState :=
  let m := st.m
  let m := { m with solutionRows := m.solutionRows ++ [downNode] }
  match coverRowColumns fuel downNode m with
  | none => none
  | some m =>
    match child m with
    | none => none
    | some child =>
      let childSolutionFound := if child.found then true else st.found
      match uncoverRowColumns fuel downNode child.m with
      | none => none
      | some m =>
        let m := { m with solutionRows := m.solutionRows.dropLast }
        some ⟨m, st.emitted ++ child.emitted, childSolutionFound⟩

/-- Go `func (m *matrix) search(solutions, solutionFound)`.  The child
goroutine runs while its parent is blocked in `<-childSuccessChannel`, so the
call is sequential: the result carries the final matrix, the values sent on
`solutions` in order, and the boolean sent last on `solutionFound`. -/
def search : Nat → matrix → Option SearchState
  | 0, _ => none
  | fuel + 1, m =>
    let matrixRoot := m.root
    if m.rightPtr matrixRoot = matrixRoot then
      match getSolution fuel m with
      | none => none
      | some solution => some ⟨m, [(solution, m)], true⟩
    else
      match pickColumn fuel m with
      | none => none
      | some minColumn =>
        match cover fuel (m.parentColumnPtr minColumn) m with
        | none => none
        | some m =>
          match ptrLoop minColumn (fun (st : SearchState) x => st.m.downPtr x)
              (searchRow fuel (search fuel)) fuel (m.downPtr minColumn) ⟨m, [], false⟩ with
          | none => none
          | some st =>
            match uncover fuel (st.m.parentColumnPtr minColumn) st.m with
            | none => none
            | some m => some ⟨m, st.emitted, st.found⟩

/-- What `Solve` hands back: the returned map and flag, and the matrix once the
search that `Solve` started has come to rest.  (`Solve` does not stop the
searching goroutines: when it returns with the first solution they are still
running, and they go on changing the matrix until they block for good.) -/
structure SolveResult where
  solution : Solution
  success : Bool
  m : matrix

/-- The matrix in which the search comes to rest when only its first solution
is ever received.  The receive releases the sending leaf, which reports `true`
to its parent blocked in `<-childSuccessChannel`, and the search runs on.  If it
finds a further solution it blocks for good in that send on `solutions`, in the
matrix of that send; `later` are the sends after the first one.  Otherwise it
runs to its end and blocks in the last send on `finished`, after the top-level
`uncover`, in the matrix `final`. -/
def restMatrix (final : matrix) (later : List (Solution × matrix)) : matrix :=
  match later with
  | (_, mAtSend) :: _ => mAtSend
  | [] => final

/-- Go `func (m *matrix) Solve() (map[int][]int, bool)`.  The `select` takes
whichever of the two unbuffered channels is sent on first.  If that is
`solutions`, `Solve` returns the map received with `true`, and nothing is
received any more: the search runs on to the state given by `restMatrix`.  If
it is `finished` (sent last, after the top-level `uncover`) with `false`,
`Solve` returns an empty map.  If it is `finished` with `true`, the source waits
on `<-solutions`, on which nothing will ever be sent (`none`). -/
def Solve (fuel : Nat) (m : matrix) : Option SolveResult :=
  match search fuel m with
  | none => none
  | some st =>
    match st.emitted with
    | (solution, _) :: later => some ⟨solution, true, restMatrix st.m later⟩
    | [] => if st.found then none else some ⟨[], false, st.m⟩

/-- What a consumer of the two channels of `SolveComplete` observes. -/
inductive Event where
  | solution (s : Solution)
  | finished (success : Bool)
  deriving DecidableEq

/-- Go `func (m *matrix) SolveComplete()`, with both channels drained: the
events in the order in which they are delivered, and the matrix afterwards. -/
def SolveComplete (fuel : Nat) (m : matrix) : Option (List Event × matrix) :=
  match search fuel m with
  | none => none
  | some st =>
    some (st.emitted.map (fun e => Event.solution e.1) ++ [Event.finished st.found], st.m)

/-- The matrix after `NewMatrix(n)` and one `AddRow` per element of `rows`. -/
def build (n : Nat) (rows : List (List Int)) : Option matrix :=
  rows.foldlM (fun m r => (AddRow m r).map Prod.fst) (NewMatrix n)

end dlx


namespace dlx

/-- A doubly linked path from `a` through the cells of `L` to `b`: each cell's
`nxt` link is the following cell and each cell's `prv` link the preceding one. -/
def Path (nxt prv : Nat → Nat) : Nat → List Nat → Nat → Prop
  | a, [], b => nxt a = b ∧ prv b = a
  | a, x :: xs, b => nxt a = x ∧ prv x = a ∧ Path nxt prv x xs b

/-- A circular doubly linked ring anchored at `h` whose other members, in `nxt`
order, are `L`. -/
def Ring (nxt prv : Nat → Nat) (h : Nat) (L : List Nat) : Prop :=
  (h :: L).Nodup ∧ Path nxt prv h L h

/-- The address `x` holds a `node` made by `AddRow` (the addresses up to `n`
hold the column headers). -/
def isNode (n : Nat) (m : matrix) (x : Nat) : Prop := n < x ∧ x < m.alloc

/-- Every node of the row of `x` sits in a column of `H`. -/
def Live (n : Nat) (m : matrix) (H : List Nat) (x : Nat) : Prop :=
  ∀ y, isNode n m y → m.rowInd y = m.rowInd x → m.parentColumnPtr y ∈ H

/-- The column index stored in the header of the column of cell `y`. -/
def colOf (m : matrix) (y : Nat) : Int := m.columnInd (m.parentColumnPtr y)

/-- The part of the structure that neither `cover` nor `uncover` changes, for a
matrix made by `NewMatrix n` and one `AddRow` per element of `rows`. -/
structure Static (n : Nat) (rows : List (List Int)) (m : matrix) : Prop where
  root_eq : m.root = 0
  columns_eq : m.columns = n + 1
  alloc_gt : n < m.alloc
  rowCount_eq : m.rowCount = rows.length
  head_par : ∀ c, c ≤ n → m.parentColumnPtr c = c
  head_ind : ∀ c, c ≤ n → m.columnInd c = (c : Int) - 1
  head_row : ∀ c, c ≤ n → m.rowInd c = -1
  node_par : ∀ x, isNode n m x → 1 ≤ m.parentColumnPtr x ∧ m.parentColumnPtr x ≤ n
  node_row : ∀ x, isNode n m x → ∃ (r : Nat) (row : List Int) (i : Nat) (R : List Nat),
    m.rowInd x = r ∧ rows[r]? = some row ∧ Ring m.rightPtr m.leftPtr x R ∧
    (∀ y, y ∈ x :: R ↔ isNode n m y ∧ m.rowInd y = r) ∧
    (x :: R).map (colOf m) = row.rotate i
  row_node : ∀ (r : Nat) (row : List Int), rows[r]? = some row → row ≠ [] →
    ∃ x, isNode n m x ∧ m.rowInd x = r
  rows_ok : ∀ row ∈ rows, row.Nodup ∧ ∀ j ∈ row, 0 ≤ j ∧ j < (n : Int)

/-- The state of the links between two activations of `search`: `H` is the
header ring read from the root, every column ring is intact with the right
length, and the ring of a column of `H` holds exactly the nodes of that column
whose rows lie inside `H`. -/
structure Inv (n : Nat) (rows : List (List Int)) (m : matrix) (H : List Nat) : Prop where
  static : Static n rows m
  hring : Ring m.rightPtr m.leftPtr 0 H
  hrange : ∀ c ∈ H, 1 ≤ c ∧ c ≤ n
  cols : ∀ c, 1 ≤ c → c ≤ n → ∃ L, Ring m.downPtr m.upPtr c L ∧
    m.columnLen c = L.length ∧ (∀ x ∈ L, isNode n m x ∧ m.parentColumnPtr x = c) ∧
    (c ∈ H → ∀ x, isNode n m x → m.parentColumnPtr x = c → Live n m H x → x ∈ L) ∧
    (c ∈ H → ∀ x ∈ L, Live n m H x)

/-- The fields that `cover` and `uncover` leave alone, between two states. -/
structure Frame (n : Nat) (m t : matrix) : Prop where
  root_eq : t.root = m.root
  columns_eq : t.columns = m.columns
  solutionRows_eq : t.solutionRows = m.solutionRows
  rowCount_eq : t.rowCount = m.rowCount
  alloc_eq : t.alloc = m.alloc
  rowInd_eq : t.rowInd = m.rowInd
  parentColumnPtr_eq : t.parentColumnPtr = m.parentColumnPtr
  columnInd_eq : t.columnInd = m.columnInd
  right_eq : ∀ x, n < x → t.rightPtr x = m.rightPtr x
  left_eq : ∀ x, n < x → t.leftPtr x = m.leftPtr x

/-- The state of the links inside `cover(c)`, after the header of `c` has been
bypassed and the nodes `Rm` have been unlinked from their columns; `Lc` is the
ring of `c` itself, which `cover(c)` does not change. -/
structure CInv (n : Nat) (rows : List (List Int)) (m : matrix) (H : List Nat) (c : Nat)
    (Lc : List Nat) (Rm : List Nat) : Prop where
  static : Static n rows m
  hring : Ring m.rightPtr m.leftPtr 0 (H.erase c)
  hnodup : H.Nodup
  hc : c ∈ H
  hrange : ∀ c ∈ H, 1 ≤ c ∧ c ≤ n
  cring : Ring m.downPtr m.upPtr c Lc
  clen : m.columnLen c = Lc.length
  cmem : ∀ x, x ∈ Lc ↔ isNode n m x ∧ m.parentColumnPtr x = c ∧ Live n m H x
  cols : ∀ d, 1 ≤ d → d ≤ n → d ≠ c → ∃ L, Ring m.downPtr m.upPtr d L ∧
    m.columnLen d = L.length ∧ (∀ x ∈ L, isNode n m x ∧ m.parentColumnPtr x = d) ∧
    (d ∈ H → ∀ x, isNode n m x → m.parentColumnPtr x = d → Live n m H x → x ∉ Rm → x ∈ L) ∧
    (d ∈ H → ∀ x ∈ L, Live n m H x ∧ x ∉ Rm)

end dlx


namespace dlx

/-- The cells met by following `nxt` from `x` until `stop` is reached. -/
def ringList (nxt : Nat → Nat) (stop : Nat) : Nat → Nat → List Nat
  | 0, _ => []
  | fuel + 1, x => if x = stop then [] else x :: ringList nxt stop fuel (nxt x)

/-- The nodes of the row of `x`, read around its horizontal ring from `x`. -/
def rowCells (m : matrix) (x : Nat) : List Nat :=
  x :: ringList m.rightPtr x m.alloc (m.rightPtr x)

/-- The nodes linked into column `c`, read down its vertical ring. -/
def colCells (m : matrix) (c : Nat) : List Nat :=
  ringList m.downPtr c m.alloc (m.downPtr c)

/-- The columns linked into the header ring, read rightwards from the root. -/
def headerCells (m : matrix) : List Nat :=
  ringList m.rightPtr m.root m.alloc (m.rightPtr m.root)

/-- The map that `getSolution` builds for the partial solution `sel`. -/
def solutionOf (m : matrix) (sel : List Nat) : Solution :=
  sel.map (fun x => (m.rowInd x, (rowCells m x).map (colOf m)))

/-- The row index of a node, as a natural number. -/
def rowNat (m : matrix) (x : Nat) : Nat := (m.rowInd x).toNat

/-- The column indices of the headers `H`. -/
def colsOf (H : List Nat) : List Int := H.map (fun (c : Nat) => (c : Int) - 1)

/-- The index sequence of the `r`-th `AddRow` call. -/
def rowAt (rows : List (List Int)) (r : Nat) : List Int := rows.getD r []

/-- `T` is an exact cover of the columns `A` by rows that lie inside `A`. -/
def Cover (rows : List (List Int)) (A : List Int) (T : Finset Nat) : Prop :=
  (∀ r ∈ T, r < rows.length ∧ ∀ j ∈ rowAt rows r, j ∈ A) ∧
  ∀ j ∈ A, ∃! r, r ∈ T ∧ j ∈ rowAt rows r

/-- Algorithm X as a relation.  `Emits rows A none E`: a search over the
uncovered columns `A` emits the row selections `E`, in order.
`Emits rows A (some L) E`: inside one activation, the candidate rows `L` tried
so far have emitted `E`.  The branching column and the order of the candidates
are left open. -/
inductive Emits (rows : List (List Int)) : List Int → Option (List Nat) → List (List Nat) → Prop
  | done : Emits rows [] none [[]]
  | branch (A : List Int) (c : Int) (L : List Nat) (E : List (List Nat)) :
      c ∈ A → L.Nodup →
      (∀ r, r ∈ L ↔ r < rows.length ∧ c ∈ rowAt rows r ∧ ∀ j ∈ rowAt rows r, j ∈ A) →
      Emits rows A (some L) E → Emits rows A none E
  | nil (A : List Int) : Emits rows A (some []) []
  | snoc (A A1 : List Int) (L : List Nat) (E : List (List Nat)) (r : Nat)
      (E1 : List (List Nat)) :
      Emits rows A (some L) E → (∀ j, j ∈ A1 ↔ j ∈ A ∧ j ∉ rowAt rows r) →
      Emits rows A1 none E1 → Emits rows A (some (L ++ [r])) (E ++ E1.map (fun t => r :: t))

end dlx

namespace dlx

/-- The header list `H` without the headers `ds`. -/
def eraseAll (H : List Nat) (ds : List Nat) : List Nat := ds.foldl List.erase H

end dlx

namespace dlx

/-- The emission `e` of a search started in the matrix `m` selects, beyond the
rows already in `m.solutionRows`, nodes of the rows `t`: it was sent when only
the root was left in the header ring, and its map is the one of the selected
rows. -/
def Emitted (n : Nat) (m : matrix) (e : Solution × matrix) (t : List Nat) : Prop :=
  e.2.rightPtr e.2.root = e.2.root ∧
  ∃ sel, e.2.solutionRows = m.solutionRows ++ sel ∧ sel.map (rowNat m) = t ∧
    (∀ x ∈ sel, isNode n m x) ∧ e.1 = solutionOf m (m.solutionRows ++ sel)

end dlx

namespace dlx

/-- The links of a matrix under construction, with every column uncovered:
the cells below `bound` are linked into their columns.  (Inside `AddRow` the
horizontal ring of the row being added is not closed yet.) -/
structure Pre (n : Nat) (m : matrix) (bound : Nat) : Prop where
  head_par : ∀ c, c ≤ n → m.parentColumnPtr c = c
  head_ind : ∀ c, c ≤ n → m.columnInd c = (c : Int) - 1
  head_row : ∀ c, c ≤ n → m.rowInd c = -1
  hring : Ring m.rightPtr m.leftPtr 0 (List.range' 1 n)
  node_par : ∀ x, n < x → x < bound → 1 ≤ m.parentColumnPtr x ∧ m.parentColumnPtr x ≤ n
  cols : ∀ c, 1 ≤ c → c ≤ n → ∃ L, Ring m.downPtr m.upPtr c L ∧ m.columnLen c = L.length ∧
    ∀ x, x ∈ L ↔ n < x ∧ x < bound ∧ m.parentColumnPtr x = c

/-- One pass of the loop of `AddRow` for the node at `x` and the header at
`col`, with the two conditionals resolved to the link values `lv` and `rv`. -/
def addRowStep (m : matrix) (x col lv rv : Nat) : matrix :=
  setRight
    (setLeft
      (setUp
        (setDown
          (setDown
            (setUp (incrementLen (setParentColumn (setRowIndex m x m.rowCount) x col) col)
              x (m.upPtr col))
            x col)
          (m.upPtr col) x)
        col x)
      x lv)
    x rv

end dlx

namespace dlx

/-- The index sequences that the specification allows as rows of a matrix with
`n` columns: non-empty, duplicate-free and within `[0, n)`. -/
def WellFormed (n : Nat) (rows : List (List Int)) : Prop :=
  ∀ r ∈ rows, r ≠ [] ∧ r.Nodup ∧ ∀ c ∈ r, 0 ≤ c ∧ c < (n : Int)

instance (n : Nat) (rows : List (List Int)) : Decidable (WellFormed n rows) := by
  unfold WellFormed; infer_instance

end dlx

namespace dlx

/-- The solutions among the events delivered by `SolveComplete`, in order. -/
def solutionsOf (evs : List Event) : List Solution :=
  evs.filterMap (fun e => match e with
    | Event.solution s => some s
    | Event.finished _ => none)

/-- The set of keys of a solution map: the selected row indices. -/
def keySet (sol : Solution) : Finset Int := (mapKeys sol).toFinset

/-- The rows `S` are an exact cover of the columns `0 .. n-1`: every column
index lies in exactly one selected row. -/
def isExactCover (n : Nat) (rows : List (List Int)) (S : Finset Nat) : Prop :=
  ∀ j ∈ Finset.range n, (S.filter (fun r => (j : Int) ∈ rowAt rows r)).card = 1

instance (n : Nat) (rows : List (List Int)) : DecidablePred (isExactCover n rows) := by
  intro S; unfold isExactCover; infer_instance

/-- Brute-force enumeration: all subsets of the added rows that are exact
covers. -/
def bruteForce (n : Nat) (rows : List (List Int)) : Finset (Finset Nat) :=
  (Finset.range rows.length).powerset.filter (isExactCover n rows)

/-- The map `sol` is an exact cover: its keys are distinct indices of added
rows, the column list stored under a key is the index sequence of that row read
around from one of its entries, and every column index lies in the index
sequence of exactly one selected row. -/
def IsExactCoverMap (n : Nat) (rows : List (List Int)) (sol : Solution) : Prop :=
  (mapKeys sol).Nodup ∧ (∀ k ∈ mapKeys sol, 0 ≤ k ∧ k < (rows.length : Int)) ∧
  (∀ kv ∈ sol, ∃ i, kv.2 = (rowAt rows kv.1.toNat).rotate i) ∧
  ∀ j : Nat, j < n → ∃! k, k ∈ mapKeys sol ∧ (j : Int) ∈ rowAt rows k.toNat

end dlx

namespace dlx

/-- The rows of the example of Knuth's paper (`TestSolve`), for 7 columns. -/
def knuthRows : List (List Int) := [[2, 4, 5], [0, 3, 6], [1, 2, 5], [0, 3], [1, 6], [3, 4, 6]]

/-- The rows of the example with two solutions (`TestSolveComplete`), for 4
columns. -/
def multiRows : List (List Int) := [[0, 1], [2, 3], [0, 1, 2], [3]]

/-- The rows of the example without a solution (`TestSolveNoSolution`), for 7
columns. -/
def noSolutionRows : List (List Int) := [[2, 4, 5], [0, 3, 6]]

end dlx


namespace dlx

/-- Index sequences that are duplicate-free and within `[0, n)`; unlike
`WellFormed`, an empty sequence is allowed. -/
def Admissible (n : Nat) (rows : List (List Int)) : Prop :=
  ∀ r ∈ rows, r.Nodup ∧ ∀ c ∈ r, 0 ≤ c ∧ c < (n : Int)

instance (n : Nat) (rows : List (List Int)) : Decidable (Admissible n rows) := by
  unfold Admissible; infer_instance

/-- The calls `cover(c1); ...; cover(ck)` for the headers `cs = [c1, ..., ck]`. -/
def coverAll (fuel : Nat) (cs : List Nat) (m : matrix) : Option matrix :=
  cs.foldlM (fun m c => cover fuel c m) m

/-- The calls `uncover(c1); ...; uncover(ck)` for the headers `cs = [c1, ..., ck]`. -/
def uncoverAll (fuel : Nat) (cs : List Nat) (m : matrix) : Option matrix :=
  cs.foldlM (fun m c => uncover fuel c m) m

/-- The columns linked into the header ring, read leftwards from the root. -/
def headerCellsLeft (m : matrix) : List Nat :=
  ringList m.leftPtr m.root m.alloc (m.leftPtr m.root)

/-- What `search` does to the matrix between the start of one activation and
the start of the child activation for the candidate row of the node `x`: the
column scan, `cover` of the column picked, the push of `x` on `solutionRows`,
and the loop covering the columns of the other nodes of the row.  The result is
the column picked and the matrix handed to the child. -/
def descendStep (fuel : Nat) (x : Nat) (m : matrix) : Option (Nat × matrix) :=
  match pickColumn fuel m with
  | none => none
  | some minColumn =>
    match cover fuel (m.parentColumnPtr minColumn) m with
    | none => none
    | some m1 =>
      match coverRowColumns fuel x { m1 with solutionRows := m1.solutionRows ++ [x] } with
      | none => none
      | some m2 => some (minColumn, m2)

/-- The path of `search` along the candidate rows of the nodes `sel`, one
activation per node: the columns picked for branching, in order, and the matrix
at the end of the path. -/
def descend (fuel : Nat) : List Nat → matrix → Option (List Nat × matrix)
  | [], m => some ([], m)
  | x :: xs, m =>
    match descendStep fuel x m with
    | none => none
    | some (minColumn, m2) =>
      match descend fuel xs m2 with
      | none => none
      | some (cols, mf) => some (minColumn :: cols, mf)

/-- The emission `e` of a search started in `m` was sent at the end of the path
of `search` along the nodes pushed beyond `m.solutionRows`, each of them a node
of the column picked for branching at its level. -/
def Traced (m : matrix) (e : Solution × matrix) : Prop :=
  ∃ sel cols, e.2.solutionRows = m.solutionRows ++ sel ∧
    List.Forall₂ (fun x c => m.parentColumnPtr x = c) sel cols ∧
    descend m.alloc sel m = some (cols, e.2)

/-- The rows with every empty index sequence replaced by one that no search
can select (its only index, `-1`, is not a column index). -/
def patchRows (rows : List (List Int)) : List (List Int) :=
  rows.map (fun r => if r = [] then [-1] else r)

/-- The rows of `TestSolveCompleteNoSolutions`, for 4 columns: one row and
three `nil` slices. -/
def nilRows : List (List Int) := [[0, 1], [], [], []]

end dlx


namespace dlx

/-! ### Heap updates -/

@[simp] theorem upd_same {α : Type} (f : Nat → α) (p : Nat) (v : α) : upd f p v p = v := by
  simp [upd]

theorem upd_other {α : Type} (f : Nat → α) {p q : Nat} (v : α) (h : q ≠ p) :
    upd f p v q = f q := by
  simp [upd, h]

@[simp] theorem upd_upd {α : Type} (f : Nat → α) (p : Nat) (v w : α) :
    upd (upd f p v) p w = upd f p w := by
  funext q; by_cases h : q = p <;> simp [upd, h]

theorem upd_self {α : Type} (f : Nat → α) (p : Nat) (v : α) (h : f p = v) : upd f p v = f := by
  funext q; by_cases hq : q = p
  · subst hq; simp [h]
  · simp [upd, hq]

/-! ### The ring walk -/

/-- Hoare-style rule for `ptrLoop`: if `Q done rem` holds initially with all of
`L` remaining, and each body step moves the head of the remaining list to the
visited list while the link of the visited cell leads to the next one, then with
enough fuel the loop returns in a state satisfying `Q L []`. -/
theorem ptrLoop_rule {σ : Type} (stop : Nat) (next : σ → Nat → Nat)
    (body : Nat → σ → Option σ) (L : List Nat) (Q : List Nat → List Nat → σ → Prop)
    (hstep : ∀ done y rem s1, done ++ y :: rem = L → Q done (y :: rem) s1 →
      y ≠ stop ∧ ∃ s2, body y s1 = some s2 ∧ next s2 y = rem.headD stop ∧
        Q (done ++ [y]) rem s2) :
    ∀ (rem done : List Nat) (fuel : Nat) (s : σ), done ++ rem = L → rem.length < fuel →
      Q done rem s →
      ∃ s', ptrLoop stop next body fuel (rem.headD stop) s = some s' ∧ Q L [] s' := by
  intro rem
  induction rem with
  | nil =>
    intro done fuel s hL hfuel hQ
    cases fuel with
    | zero => simp at hfuel
    | succ fuel =>
      refine ⟨s, ?_, ?_⟩
      · simp [ptrLoop]
      · simp at hL; subst hL; exact hQ
  | cons y rem ih =>
    intro done fuel s hL hfuel hQ
    cases fuel with
    | zero => simp at hfuel
    | succ fuel =>
      obtain ⟨hne, s2, hb, hn, hQ2⟩ := hstep done y rem s hL hQ
      have hfuel2 : rem.length < fuel := by simp at hfuel; omega
      obtain ⟨s', hs', hQ'⟩ := ih (done ++ [y]) fuel s2 (by simp [← hL]) hfuel2 hQ2
      refine ⟨s', ?_, hQ'⟩
      simp only [List.headD_cons, ptrLoop, hne, if_false, hb, hn]
      exact hs'

/-! ### Paths and rings -/

theorem Path.append {nxt prv : Nat → Nat} : ∀ {L1 : List Nat} {a y : Nat} {L2 : List Nat} {b : Nat},
    Path nxt prv a (L1 ++ y :: L2) b ↔ Path nxt prv a L1 y ∧ Path nxt prv y L2 b := by
  intro L1
  induction L1 with
  | nil => intro a y L2 b; simp [Path, and_assoc]
  | cons x xs ih => intro a y L2 b; simp [Path, ih, and_assoc]

theorem Path.next_head {nxt prv : Nat → Nat} {a b : Nat} {L : List Nat}
    (h : Path nxt prv a L b) : nxt a = L.headD b := by
  cases L with
  | nil => exact h.1
  | cons x xs => exact h.1

theorem Path.next_mid {nxt prv : Nat → Nat} {a b y : Nat} {L1 L2 : List Nat}
    (h : Path nxt prv a (L1 ++ y :: L2) b) : nxt y = L2.headD b :=
  (Path.append.1 h).2.next_head

theorem Path.prev_last {nxt prv : Nat → Nat} : ∀ {L : List Nat} {a b : Nat},
    Path nxt prv a L b → prv b = (a :: L).getLast (by simp) := by
  intro L
  induction L with
  | nil => intro a b h; exact h.2
  | cons x xs ih => intro a b h; simpa using ih h.2.2

theorem Path.prev_mid {nxt prv : Nat → Nat} {a b y : Nat} {L1 L2 : List Nat}
    (h : Path nxt prv a (L1 ++ y :: L2) b) : prv y = (a :: L1).getLast (by simp) :=
  (Path.append.1 h).1.prev_last

/-- A path only reads `nxt` at its sources and `prv` at its targets. -/
theorem Path.relink {nxt prv nxt1 prv1 : Nat → Nat} : ∀ {L : List Nat} {a b : Nat},
    Path nxt prv a L b → (∀ z ∈ a :: L, nxt1 z = nxt z) → (∀ z ∈ L ++ [b], prv1 z = prv z) →
    Path nxt1 prv1 a L b := by
  intro L
  induction L with
  | nil =>
    intro a b h hn hp
    exact ⟨by rw [hn a (by simp)]; exact h.1, by rw [hp b (by simp)]; exact h.2⟩
  | cons x xs ih =>
    intro a b h hn hp
    refine ⟨by rw [hn a (by simp)]; exact h.1, by rw [hp x (by simp)]; exact h.2.1, ?_⟩
    exact ih h.2.2 (fun z hz => hn z (List.mem_cons_of_mem _ hz))
      (fun z hz => hp z (by simp at hz ⊢; tauto))

/-- The reversed path, with the two links exchanged. -/
theorem Path.flip {nxt prv : Nat → Nat} : ∀ {L : List Nat} {a b : Nat},
    Path nxt prv a L b → Path prv nxt b L.reverse a := by
  intro L
  induction L with
  | nil => intro a b h; exact ⟨h.2, h.1⟩
  | cons x xs ih =>
    intro a b h
    rw [List.reverse_cons, Path.append]
    exact ⟨ih h.2.2, h.2.1, h.1⟩

theorem Ring.reverse {nxt prv : Nat → Nat} {h : Nat} {L : List Nat} (r : Ring nxt prv h L) :
    Ring prv nxt h L.reverse := by
  refine ⟨?_, r.2.flip⟩
  have := r.1
  simp only [List.nodup_cons, List.mem_reverse, List.nodup_reverse] at this ⊢
  exact this

theorem Ring.congr {nxt prv nxt1 prv1 : Nat → Nat} {h : Nat} {L : List Nat}
    (r : Ring nxt prv h L) (hn : ∀ z ∈ h :: L, nxt1 z = nxt z)
    (hp : ∀ z ∈ h :: L, prv1 z = prv z) : Ring nxt1 prv1 h L :=
  ⟨r.1, r.2.relink hn (fun z hz => hp z (by simp at hz ⊢; tauto))⟩

theorem getLast_mem_cons (a : Nat) (L : List Nat) : (a :: L).getLast (by simp) ∈ a :: L :=
  List.getLast_mem _

theorem headD_mem_append (L : List Nat) (b : Nat) : L.headD b ∈ L ++ [b] := by
  cases L <;> simp

/-- Unlinking `y` from a path: the predecessor and the successor of `y` bypass it. -/
theorem Path.unlink {nxt prv : Nat → Nat} {y : Nat} {L2 : List Nat} {e : Nat} :
    ∀ {L1 : List Nat} {a : Nat}, Path nxt prv a (L1 ++ y :: L2) e →
      (a :: (L1 ++ y :: L2)).Nodup → e ∉ L1 ++ y :: L2 →
      Path (upd nxt (prv y) (nxt y)) (upd prv (nxt y) (prv y)) a (L1 ++ L2) e := by
  intro L1
  induction L1 with
  | nil =>
    intro a h hnd he
    simp only [List.nil_append] at h hnd he ⊢
    obtain ⟨h1, h2, h3⟩ := h
    have ha : a ∉ y :: L2 := (List.nodup_cons.1 hnd).1
    have hnd2 : (y :: L2).Nodup := (List.nodup_cons.1 hnd).2
    cases L2 with
    | nil =>
      obtain ⟨h4, h5⟩ := h3
      refine ⟨?_, ?_⟩
      · rw [h2, h4]; simp
      · rw [h2, h4]; simp
    | cons z zs =>
      obtain ⟨h4, h5, h6⟩ := h3
      have hz : z ∉ zs := (List.nodup_cons.1 (List.nodup_cons.1 hnd2).2).1
      refine ⟨by rw [h2, h4]; simp, by rw [h2, h4]; simp, ?_⟩
      rw [h2, h4]
      refine h6.relink ?_ ?_
      · intro w hw
        apply upd_other
        rintro rfl
        exact ha (List.mem_cons_of_mem _ hw)
      · intro w hw
        apply upd_other
        rintro rfl
        simp only [List.mem_append, List.mem_singleton] at hw
        rcases hw with hw | hw
        · exact hz hw
        · exact he (by simp [hw])
  | cons w ws ih =>
    intro a h hnd he
    obtain ⟨h1, h2, h3⟩ := h
    have hnd' : (w :: (ws ++ y :: L2)).Nodup := (List.nodup_cons.1 hnd).2
    have he' : e ∉ ws ++ y :: L2 := fun hh => he (by simp at hh ⊢; tauto)
    have hprev : prv y ∈ w :: ws := by
      rw [Path.prev_mid h3]; exact getLast_mem_cons _ _
    have hnext : nxt y ∈ L2 ++ [e] := by
      rw [Path.next_mid h3]; exact headD_mem_append _ _
    have ha : a ∉ w :: (ws ++ y :: L2) := (List.nodup_cons.1 hnd).1
    refine ⟨?_, ?_, ih h3 hnd' he'⟩
    · rw [upd_other _ _ (by rintro rfl; exact ha (by simp at hprev ⊢; tauto))]; exact h1
    · rw [upd_other _ _ ?_]; exact h2
      rintro rfl
      simp only [List.mem_append, List.mem_singleton] at hnext
      rcases hnext with hh | hh
      · have := (List.nodup_cons.1 hnd').1
        exact this (by simp; tauto)
      · exact he (by simp [← hh])

theorem Ring.remove {nxt prv : Nat → Nat} {h y : Nat} {L1 L2 : List Nat}
    (r : Ring nxt prv h (L1 ++ y :: L2)) :
    Ring (upd nxt (prv y) (nxt y)) (upd prv (nxt y) (prv y)) h (L1 ++ L2) := by
  refine ⟨?_, Path.unlink r.2 r.1 (List.nodup_cons.1 r.1).1⟩
  have := r.1
  simp only [List.nodup_cons, List.mem_append, List.mem_cons, not_or, List.nodup_append,
    List.nodup_cons] at this ⊢
  aesop

/-- In a ring the two links of a member are mutually inverse at that member. -/
theorem Ring.linked {nxt prv : Nat → Nat} {h y : Nat} {L : List Nat}
    (r : Ring nxt prv h L) (hy : y ∈ L) : nxt (prv y) = y ∧ prv (nxt y) = y := by
  obtain ⟨L1, L2, rfl⟩ := List.append_of_mem hy
  obtain ⟨p1, p2⟩ := Path.append.1 r.2
  constructor
  · clear p2
    have : ∀ (L1 : List Nat) (a : Nat), Path nxt prv a L1 y → nxt (prv y) = y := by
      intro L1
      induction L1 with
      | nil => intro a h; rw [h.2]; exact h.1
      | cons x xs ih => intro a h; exact ih x h.2.2
    exact this L1 h p1
  · cases L2 with
    | nil => rw [p2.1]; exact p2.2
    | cons z zs => rw [p2.1]; exact p2.2.1

theorem Ring.linked_anchor {nxt prv : Nat → Nat} {h : Nat} {L : List Nat}
    (r : Ring nxt prv h L) : nxt (prv h) = h ∧ prv (nxt h) = h := by
  have r2 := r.2
  constructor
  · have : ∀ (L1 : List Nat) (a : Nat), Path nxt prv a L1 h → nxt (prv h) = h := by
      intro L1
      induction L1 with
      | nil => intro a h; rw [h.2]; exact h.1
      | cons x xs ih => intro a h; exact ih x h.2.2
    exact this L h r2
  · cases L with
    | nil => rw [r2.1]; exact r2.2
    | cons z zs => rw [r2.1]; exact r2.2.1

theorem Ring.next_mem {nxt prv : Nat → Nat} {h y : Nat} {L : List Nat}
    (r : Ring nxt prv h L) (hy : y ∈ h :: L) : nxt y ∈ h :: L := by
  rcases List.mem_cons.1 hy with rfl | hy
  · rw [r.2.next_head]; cases L <;> simp
  · obtain ⟨L1, L2, rfl⟩ := List.append_of_mem hy
    rw [Path.next_mid r.2]
    cases L2 <;> simp

theorem Ring.prev_mem {nxt prv : Nat → Nat} {h y : Nat} {L : List Nat}
    (r : Ring nxt prv h L) (hy : y ∈ h :: L) : prv y ∈ h :: L := by
  have := r.reverse.next_mem (y := y) (by simpa using hy)
  simpa using this

end dlx


namespace dlx

/-! ### Field stores: what each setter leaves and what it changes -/

@[simp] theorem setRowIndex_root (m : matrix) (e : Nat) (i : Int) :
    (setRowIndex m e i).root = m.root := rfl
@[simp] theorem setRowIndex_columns (m : matrix) (e : Nat) (i : Int) :
    (setRowIndex m e i).columns = m.columns := rfl
@[simp] theorem setRowIndex_solutionRows (m : matrix) (e : Nat) (i : Int) :
    (setRowIndex m e i).solutionRows = m.solutionRows := rfl
@[simp] theorem setRowIndex_rowCount (m : matrix) (e : Nat) (i : Int) :
    (setRowIndex m e i).rowCount = m.rowCount := rfl
@[simp] theorem setRowIndex_alloc (m : matrix) (e : Nat) (i : Int) :
    (setRowIndex m e i).alloc = m.alloc := rfl
@[simp] theorem setRowIndex_rowInd (m : matrix) (e : Nat) (i : Int) :
    (setRowIndex m e i).rowInd = upd m.rowInd e i := rfl
@[simp] theorem setRowIndex_parentColumnPtr (m : matrix) (e : Nat) (i : Int) :
    (setRowIndex m e i).parentColumnPtr = m.parentColumnPtr := rfl
@[simp] theorem setRowIndex_upPtr (m : matrix) (e : Nat) (i : Int) :
    (setRowIndex m e i).upPtr = m.upPtr := rfl
@[simp] theorem setRowIndex_downPtr (m : matrix) (e : Nat) (i : Int) :
    (setRowIndex m e i).downPtr = m.downPtr := rfl
@[simp] theorem setRowIndex_leftPtr (m : matrix) (e : Nat) (i : Int) :
    (setRowIndex m e i).leftPtr = m.leftPtr := rfl
@[simp] theorem setRowIndex_rightPtr (m : matrix) (e : Nat) (i : Int) :
    (setRowIndex m e i).rightPtr = m.rightPtr := rfl
@[simp] theorem setRowIndex_columnLen (m : matrix) (e : Nat) (i : Int) :
    (setRowIndex m e i).columnLen = m.columnLen := rfl
@[simp] theorem setRowIndex_columnInd (m : matrix) (e : Nat) (i : Int) :
    (setRowIndex m e i).columnInd = m.columnInd := rfl

@[simp] theorem setParentColumn_root (m : matrix) (e c2 : Nat) :
    (setParentColumn m e c2).root = m.root := rfl
@[simp] theorem setParentColumn_columns (m : matrix) (e c2 : Nat) :
    (setParentColumn m e c2).columns = m.columns := rfl
@[simp] theorem setParentColumn_solutionRows (m : matrix) (e c2 : Nat) :
    (setParentColumn m e c2).solutionRows = m.solutionRows := rfl
@[simp] theorem setParentColumn_rowCount (m : matrix) (e c2 : Nat) :
    (setParentColumn m e c2).rowCount = m.rowCount := rfl
@[simp] theorem setParentColumn_alloc (m : matrix) (e c2 : Nat) :
    (setParentColumn m e c2).alloc = m.alloc := rfl
@[simp] theorem setParentColumn_rowInd (m : matrix) (e c2 : Nat) :
    (setParentColumn m e c2).rowInd = m.rowInd := rfl
@[simp] theorem setParentColumn_parentColumnPtr (m : matrix) (e c2 : Nat) :
    (setParentColumn m e c2).parentColumnPtr = upd m.parentColumnPtr e c2 := rfl
@[simp] theorem setParentColumn_upPtr (m : matrix) (e c2 : Nat) :
    (setParentColumn m e c2).upPtr = m.upPtr := rfl
@[simp] theorem setParentColumn_downPtr (m : matrix) (e c2 : Nat) :
    (setParentColumn m e c2).downPtr = m.downPtr := rfl
@[simp] theorem setParentColumn_leftPtr (m : matrix) (e c2 : Nat) :
    (setParentColumn m e c2).leftPtr = m.leftPtr := rfl
@[simp] theorem setParentColumn_rightPtr (m : matrix) (e c2 : Nat) :
    (setParentColumn m e c2).rightPtr = m.rightPtr := rfl
@[simp] theorem setParentColumn_columnLen (m : matrix) (e c2 : Nat) :
    (setParentColumn m e c2).columnLen = m.columnLen := rfl
@[simp] theorem setParentColumn_columnInd (m : matrix) (e c2 : Nat) :
    (setParentColumn m e c2).columnInd = m.columnInd := rfl

@[simp] theorem setUp_root (m : matrix) (a e : Nat) :
    (setUp m a e).root = m.root := rfl
@[simp] theorem setUp_columns (m : matrix) (a e : Nat) :
    (setUp m a e).columns = m.columns := rfl
@[simp] theorem setUp_solutionRows (m : matrix) (a e : Nat) :
    (setUp m a e).solutionRows = m.solutionRows := rfl
@[simp] theorem setUp_rowCount (m : matrix) (a e : Nat) :
    (setUp m a e).rowCount = m.rowCount := rfl
@[simp] theorem setUp_alloc (m : matrix) (a e : Nat) :
    (setUp m a e).alloc = m.alloc := rfl
@[simp] theorem setUp_rowInd (m : matrix) (a e : Nat) :
    (setUp m a e).rowInd = m.rowInd := rfl
@[simp] theorem setUp_parentColumnPtr (m : matrix) (a e : Nat) :
    (setUp m a e).parentColumnPtr = m.parentColumnPtr := rfl
@[simp] theorem setUp_upPtr (m : matrix) (a e : Nat) :
    (setUp m a e).upPtr = upd m.upPtr a e := rfl
@[simp] theorem setUp_downPtr (m : matrix) (a e : Nat) :
    (setUp m a e).downPtr = m.downPtr := rfl
@[simp] theorem setUp_leftPtr (m : matrix) (a e : Nat) :
    (setUp m a e).leftPtr = m.leftPtr := rfl
@[simp] theorem setUp_rightPtr (m : matrix) (a e : Nat) :
    (setUp m a e).rightPtr = m.rightPtr := rfl
@[simp] theorem setUp_columnLen (m : matrix) (a e : Nat) :
    (setUp m a e).columnLen = m.columnLen := rfl
@[simp] theorem setUp_columnInd (m : matrix) (a e : Nat) :
    (setUp m a e).columnInd = m.columnInd := rfl

@[simp] theorem setDown_root (m : matrix) (a e : Nat) :
    (setDown m a e).root = m.root := rfl
@[simp] theorem setDown_columns (m : matrix) (a e : Nat) :
    (setDown m a e).columns = m.columns := rfl
@[simp] theorem setDown_solutionRows (m : matrix) (a e : Nat) :
    (setDown m a e).solutionRows = m.solutionRows := rfl
@[simp] theorem setDown_rowCount (m : matrix) (a e : Nat) :
    (setDown m a e).rowCount = m.rowCount := rfl
@[simp] theorem setDown_alloc (m : matrix) (a e : Nat) :
    (setDown m a e).alloc = m.alloc := rfl
@[simp] theorem setDown_rowInd (m : matrix) (a e : Nat) :
    (setDown m a e).rowInd = m.rowInd := rfl
@[simp] theorem setDown_parentColumnPtr (m : matrix) (a e : Nat) :
    (setDown m a e).parentColumnPtr = m.parentColumnPtr := rfl
@[simp] theorem setDown_upPtr (m : matrix) (a e : Nat) :
    (setDown m a e).upPtr = m.upPtr := rfl
@[simp] theorem setDown_downPtr (m : matrix) (a e : Nat) :
    (setDown m a e).downPtr = upd m.downPtr a e := rfl
@[simp] theorem setDown_leftPtr (m : matrix) (a e : Nat) :
    (setDown m a e).leftPtr = m.leftPtr := rfl
@[simp] theorem setDown_rightPtr (m : matrix) (a e : Nat) :
    (setDown m a e).rightPtr = m.rightPtr := rfl
@[simp] theorem setDown_columnLen (m : matrix) (a e : Nat) :
    (setDown m a e).columnLen = m.columnLen := rfl
@[simp] theorem setDown_columnInd (m : matrix) (a e : Nat) :
    (setDown m a e).columnInd = m.columnInd := rfl

@[simp] theorem setLeft_root (m : matrix) (a e : Nat) :
    (setLeft m a e).root = m.root := rfl
@[simp] theorem setLeft_columns (m : matrix) (a e : Nat) :
    (setLeft m a e).columns = m.columns := rfl
@[simp] theorem setLeft_solutionRows (m : matrix) (a e : Nat) :
    (setLeft m a e).solutionRows = m.solutionRows := rfl
@[simp] theorem setLeft_rowCount (m : matrix) (a e : Nat) :
    (setLeft m a e).rowCount = m.rowCount := rfl
@[simp] theorem setLeft_alloc (m : matrix) (a e : Nat) :
    (setLeft m a e).alloc = m.alloc := rfl
@[simp] theorem setLeft_rowInd (m : matrix) (a e : Nat) :
    (setLeft m a e).rowInd = m.rowInd := rfl
@[simp] theorem setLeft_parentColumnPtr (m : matrix) (a e : Nat) :
    (setLeft m a e).parentColumnPtr = m.parentColumnPtr := rfl
@[simp] theorem setLeft_upPtr (m : matrix) (a e : Nat) :
    (setLeft m a e).upPtr = m.upPtr := rfl
@[simp] theorem setLeft_downPtr (m : matrix) (a e : Nat) :
    (setLeft m a e).downPtr = m.downPtr := rfl
@[simp] theorem setLeft_leftPtr (m : matrix) (a e : Nat) :
    (setLeft m a e).leftPtr = upd m.leftPtr a e := rfl
@[simp] theorem setLeft_rightPtr (m : matrix) (a e : Nat) :
    (setLeft m a e).rightPtr = m.rightPtr := rfl
@[simp] theorem setLeft_columnLen (m : matrix) (a e : Nat) :
    (setLeft m a e).columnLen = m.columnLen := rfl
@[simp] theorem setLeft_columnInd (m : matrix) (a e : Nat) :
    (setLeft m a e).columnInd = m.columnInd := rfl

@[simp] theorem setRight_root (m : matrix) (a e : Nat) :
    (setRight m a e).root = m.root := rfl
@[simp] theorem setRight_columns (m : matrix) (a e : Nat) :
    (setRight m a e).columns = m.columns := rfl
@[simp] theorem setRight_solutionRows (m : matrix) (a e : Nat) :
    (setRight m a e).solutionRows = m.solutionRows := rfl
@[simp] theorem setRight_rowCount (m : matrix) (a e : Nat) :
    (setRight m a e).rowCount = m.rowCount := rfl
@[simp] theorem setRight_alloc (m : matrix) (a e : Nat) :
    (setRight m a e).alloc = m.alloc := rfl
@[simp] theorem setRight_rowInd (m : matrix) (a e : Nat) :
    (setRight m a e).rowInd = m.rowInd := rfl
@[simp] theorem setRight_parentColumnPtr (m : matrix) (a e : Nat) :
    (setRight m a e).parentColumnPtr = m.parentColumnPtr := rfl
@[simp] theorem setRight_upPtr (m : matrix) (a e : Nat) :
    (setRight m a e).upPtr = m.upPtr := rfl
@[simp] theorem setRight_downPtr (m : matrix) (a e : Nat) :
    (setRight m a e).downPtr = m.downPtr := rfl
@[simp] theorem setRight_leftPtr (m : matrix) (a e : Nat) :
    (setRight m a e).leftPtr = m.leftPtr := rfl
@[simp] theorem setRight_rightPtr (m : matrix) (a e : Nat) :
    (setRight m a e).rightPtr = upd m.rightPtr a e := rfl
@[simp] theorem setRight_columnLen (m : matrix) (a e : Nat) :
    (setRight m a e).columnLen = m.columnLen := rfl
@[simp] theorem setRight_columnInd (m : matrix) (a e : Nat) :
    (setRight m a e).columnInd = m.columnInd := rfl

@[simp] theorem setColumnIndex_root (m : matrix) (c : Nat) (i : Int) :
    (setColumnIndex m c i).root = m.root := rfl
@[simp] theorem setColumnIndex_columns (m : matrix) (c : Nat) (i : Int) :
    (setColumnIndex m c i).columns = m.columns := rfl
@[simp] theorem setColumnIndex_solutionRows (m : matrix) (c : Nat) (i : Int) :
    (setColumnIndex m c i).solutionRows = m.solutionRows := rfl
@[simp] theorem setColumnIndex_rowCount (m : matrix) (c : Nat) (i : Int) :
    (setColumnIndex m c i).rowCount = m.rowCount := rfl
@[simp] theorem setColumnIndex_alloc (m : matrix) (c : Nat) (i : Int) :
    (setColumnIndex m c i).alloc = m.alloc := rfl
@[simp] theorem setColumnIndex_rowInd (m : matrix) (c : Nat) (i : Int) :
    (setColumnIndex m c i).rowInd = m.rowInd := rfl
@[simp] theorem setColumnIndex_parentColumnPtr (m : matrix) (c : Nat) (i : Int) :
    (setColumnIndex m c i).parentColumnPtr = m.parentColumnPtr := rfl
@[simp] theorem setColumnIndex_upPtr (m : matrix) (c : Nat) (i : Int) :
    (setColumnIndex m c i).upPtr = m.upPtr := rfl
@[simp] theorem setColumnIndex_downPtr (m : matrix) (c : Nat) (i : Int) :
    (setColumnIndex m c i).downPtr = m.downPtr := rfl
@[simp] theorem setColumnIndex_leftPtr (m : matrix) (c : Nat) (i : Int) :
    (setColumnIndex m c i).leftPtr = m.leftPtr := rfl
@[simp] theorem setColumnIndex_rightPtr (m : matrix) (c : Nat) (i : Int) :
    (setColumnIndex m c i).rightPtr = m.rightPtr := rfl
@[simp] theorem setColumnIndex_columnLen (m : matrix) (c : Nat) (i : Int) :
    (setColumnIndex m c i).columnLen = m.columnLen := rfl
@[simp] theorem setColumnIndex_columnInd (m : matrix) (c : Nat) (i : Int) :
    (setColumnIndex m c i).columnInd = upd m.columnInd c i := rfl

@[simp] theorem incrementLen_root (m : matrix) (c : Nat) :
    (incrementLen m c).root = m.root := rfl
@[simp] theorem incrementLen_columns (m : matrix) (c : Nat) :
    (incrementLen m c).columns = m.columns := rfl
@[simp] theorem incrementLen_solutionRows (m : matrix) (c : Nat) :
    (incrementLen m c).solutionRows = m.solutionRows := rfl
@[simp] theorem incrementLen_rowCount (m : matrix) (c : Nat) :
    (incrementLen m c).rowCount = m.rowCount := rfl
@[simp] theorem incrementLen_alloc (m : matrix) (c : Nat) :
    (incrementLen m c).alloc = m.alloc := rfl
@[simp] theorem incrementLen_rowInd (m : matrix) (c : Nat) :
    (incrementLen m c).rowInd = m.rowInd := rfl
@[simp] theorem incrementLen_parentColumnPtr (m : matrix) (c : Nat) :
    (incrementLen m c).parentColumnPtr = m.parentColumnPtr := rfl
@[simp] theorem incrementLen_upPtr (m : matrix) (c : Nat) :
    (incrementLen m c).upPtr = m.upPtr := rfl
@[simp] theorem incrementLen_downPtr (m : matrix) (c : Nat) :
    (incrementLen m c).downPtr = m.downPtr := rfl
@[simp] theorem incrementLen_leftPtr (m : matrix) (c : Nat) :
    (incrementLen m c).leftPtr = m.leftPtr := rfl
@[simp] theorem incrementLen_rightPtr (m : matrix) (c : Nat) :
    (incrementLen m c).rightPtr = m.rightPtr := rfl
@[simp] theorem incrementLen_columnLen (m : matrix) (c : Nat) :
    (incrementLen m c).columnLen = upd m.columnLen c (m.columnLen c + 1) := rfl
@[simp] theorem incrementLen_columnInd (m : matrix) (c : Nat) :
    (incrementLen m c).columnInd = m.columnInd := rfl

@[simp] theorem decrementLen_root (m : matrix) (c : Nat) :
    (decrementLen m c).root = m.root := rfl
@[simp] theorem decrementLen_columns (m : matrix) (c : Nat) :
    (decrementLen m c).columns = m.columns := rfl
@[simp] theorem decrementLen_solutionRows (m : matrix) (c : Nat) :
    (decrementLen m c).solutionRows = m.solutionRows := rfl
@[simp] theorem decrementLen_rowCount (m : matrix) (c : Nat) :
    (decrementLen m c).rowCount = m.rowCount := rfl
@[simp] theorem decrementLen_alloc (m : matrix) (c : Nat) :
    (decrementLen m c).alloc = m.alloc := rfl
@[simp] theorem decrementLen_rowInd (m : matrix) (c : Nat) :
    (decrementLen m c).rowInd = m.rowInd := rfl
@[simp] theorem decrementLen_parentColumnPtr (m : matrix) (c : Nat) :
    (decrementLen m c).parentColumnPtr = m.parentColumnPtr := rfl
@[simp] theorem decrementLen_upPtr (m : matrix) (c : Nat) :
    (decrementLen m c).upPtr = m.upPtr := rfl
@[simp] theorem decrementLen_downPtr (m : matrix) (c : Nat) :
    (decrementLen m c).downPtr = m.downPtr := rfl
@[simp] theorem decrementLen_leftPtr (m : matrix) (c : Nat) :
    (decrementLen m c).leftPtr = m.leftPtr := rfl
@[simp] theorem decrementLen_rightPtr (m : matrix) (c : Nat) :
    (decrementLen m c).rightPtr = m.rightPtr := rfl
@[simp] theorem decrementLen_columnLen (m : matrix) (c : Nat) :
    (decrementLen m c).columnLen = upd m.columnLen c (m.columnLen c - 1) := rfl
@[simp] theorem decrementLen_columnInd (m : matrix) (c : Nat) :
    (decrementLen m c).columnInd = m.columnInd := rfl

end dlx


namespace dlx

theorem matrix_ext {m t : matrix} (h1 : t.root = m.root) (h2 : t.columns = m.columns)
    (h3 : t.solutionRows = m.solutionRows) (h4 : t.rowCount = m.rowCount)
    (h5 : t.alloc = m.alloc) (h6 : t.rowInd = m.rowInd)
    (h7 : t.parentColumnPtr = m.parentColumnPtr) (h8 : t.upPtr = m.upPtr)
    (h9 : t.downPtr = m.downPtr) (h10 : t.leftPtr = m.leftPtr) (h11 : t.rightPtr = m.rightPtr)
    (h12 : t.columnLen = m.columnLen) (h13 : t.columnInd = m.columnInd) : t = m := by
  cases m; cases t; simp_all

/-- Reversible ring walk: a forward walk over `L` whose every step is undone by
the matching step of the backward walk is undone as a whole by the backward
walk. -/
theorem ptrLoop_rev_rule {σ : Type} (stop : Nat) (next prev : σ → Nat → Nat)
    (body ubody : Nat → σ → Option σ) (L : List Nat) (Q : List Nat → List Nat → σ → Prop)
    (hstep : ∀ done y rem s1, done ++ y :: rem = L → Q done (y :: rem) s1 →
      y ≠ stop ∧ ∃ s2, body y s1 = some s2 ∧ next s2 y = rem.headD stop ∧
        Q (done ++ [y]) rem s2 ∧ ubody y s2 = some s1 ∧ prev s1 y = done.getLastD stop)
    (fuel : Nat) (s : σ) (hfuel : L.length < fuel) (h0 : Q [] L s) :
    ∃ s', ptrLoop stop next body fuel (L.headD stop) s = some s' ∧ Q L [] s' ∧
      ∀ fuel', L.length < fuel' →
        ptrLoop stop prev ubody fuel' (L.getLastD stop) s' = some s := by
  have key := ptrLoop_rule stop next body L
    (fun done rem t => Q done rem t ∧ ∀ fuel', done.length < fuel' →
      ptrLoop stop prev ubody fuel' (done.getLastD stop) t = some s) ?_ L [] fuel s rfl hfuel
      ⟨h0, ?_⟩
  · obtain ⟨s', h1, h2, h3⟩ := key
    exact ⟨s', h1, h2, h3⟩
  · intro done y rem s1 hL ⟨hQ, hU⟩
    obtain ⟨hne, s2, hb, hn, hQ2, hub, hp⟩ := hstep done y rem s1 hL hQ
    refine ⟨hne, s2, hb, hn, hQ2, ?_⟩
    intro fuel' hf
    cases fuel' with
    | zero => simp at hf
    | succ f =>
      have hf' : done.length < f := by simp at hf; omega
      simp only [List.getLastD_concat, ptrLoop, hne, if_false, hub, hp]
      exact hU f hf'
  · intro fuel' hf
    cases fuel' with
    | zero => simp at hf
    | succ f => simp [ptrLoop]

theorem getLast_cons_eq_getLastD (a : Nat) (L : List Nat) :
    (a :: L).getLast (by simp) = L.getLastD a := by
  induction L generalizing a with
  | nil => rfl
  | cons x xs ih =>
    rw [List.getLast_cons (by simp), ih x]
    cases xs <;> rfl

theorem Ring.next_anchor {nxt prv : Nat → Nat} {h : Nat} {L : List Nat}
    (r : Ring nxt prv h L) : nxt h = L.headD h := r.2.next_head

theorem Ring.prev_anchor {nxt prv : Nat → Nat} {h : Nat} {L : List Nat}
    (r : Ring nxt prv h L) : prv h = L.getLastD h := by
  rw [r.2.prev_last, getLast_cons_eq_getLastD]

theorem Ring.next_at {nxt prv : Nat → Nat} {h y : Nat} {L1 L2 : List Nat}
    (r : Ring nxt prv h (L1 ++ y :: L2)) : nxt y = L2.headD h := Path.next_mid r.2

theorem Ring.prev_at {nxt prv : Nat → Nat} {h y : Nat} {L1 L2 : List Nat}
    (r : Ring nxt prv h (L1 ++ y :: L2)) : prv y = L1.getLastD h := by
  rw [Path.prev_mid r.2, getLast_cons_eq_getLastD]

/-- A ring whose cells are all below `b` has fewer than `b` members besides the
anchor. -/
theorem Ring.length_lt {nxt prv : Nat → Nat} {h : Nat} {L : List Nat} {b : Nat}
    (r : Ring nxt prv h L) (hb : ∀ x ∈ h :: L, x < b) : L.length < b := by
  have h1 : (h :: L).toFinset ⊆ Finset.range b := by
    intro x hx
    simp only [List.mem_toFinset] at hx
    exact Finset.mem_range.2 (hb x hx)
  have h2 := Finset.card_le_card h1
  rw [List.toFinset_card_of_nodup r.1, Finset.card_range] at h2
  simp at h2
  omega

/-! ### Unlinking and relinking one node -/

@[simp] theorem coverNode_downPtr (y : Nat) (m : matrix) :
    (coverNode y m).downPtr = upd m.downPtr (m.upPtr y) (m.downPtr y) := rfl
@[simp] theorem coverNode_upPtr (y : Nat) (m : matrix) :
    (coverNode y m).upPtr = upd m.upPtr (m.downPtr y) (m.upPtr y) := rfl
@[simp] theorem coverNode_columnLen (y : Nat) (m : matrix) :
    (coverNode y m).columnLen = upd m.columnLen (m.parentColumnPtr y)
      (m.columnLen (m.parentColumnPtr y) - 1) := rfl
@[simp] theorem coverNode_rightPtr (y : Nat) (m : matrix) :
    (coverNode y m).rightPtr = m.rightPtr := rfl
@[simp] theorem coverNode_leftPtr (y : Nat) (m : matrix) :
    (coverNode y m).leftPtr = m.leftPtr := rfl
@[simp] theorem coverNode_rowInd (y : Nat) (m : matrix) :
    (coverNode y m).rowInd = m.rowInd := rfl
@[simp] theorem coverNode_parentColumnPtr (y : Nat) (m : matrix) :
    (coverNode y m).parentColumnPtr = m.parentColumnPtr := rfl
@[simp] theorem coverNode_columnInd (y : Nat) (m : matrix) :
    (coverNode y m).columnInd = m.columnInd := rfl
@[simp] theorem coverNode_alloc (y : Nat) (m : matrix) : (coverNode y m).alloc = m.alloc := rfl
@[simp] theorem coverNode_root (y : Nat) (m : matrix) : (coverNode y m).root = m.root := rfl
@[simp] theorem coverNode_columns (y : Nat) (m : matrix) :
    (coverNode y m).columns = m.columns := rfl
@[simp] theorem coverNode_rowCount (y : Nat) (m : matrix) :
    (coverNode y m).rowCount = m.rowCount := rfl
@[simp] theorem coverNode_solutionRows (y : Nat) (m : matrix) :
    (coverNode y m).solutionRows = m.solutionRows := rfl

/-- Relinking a node right after unlinking it restores the matrix, provided
the node was linked into its column. -/
theorem uncoverNode_coverNode (y : Nat) (m : matrix)
    (h1 : m.downPtr (m.upPtr y) = y) (h2 : m.upPtr (m.downPtr y) = y) :
    uncoverNode y (coverNode y m) = m := by
  have hu : (coverNode y m).upPtr y = m.upPtr y := by
    simp only [coverNode_upPtr, upd]; split <;> rfl
  have hd : (coverNode y m).downPtr y = m.downPtr y := by
    simp only [coverNode_downPtr, upd]; split <;> rfl
  apply matrix_ext <;>
    simp only [uncoverNode, incrementLen, setUp, setDown, hu, hd, coverNode_downPtr,
      coverNode_upPtr, coverNode_columnLen, coverNode_parentColumnPtr, coverNode_rightPtr,
      coverNode_leftPtr, coverNode_rowInd, coverNode_columnInd, coverNode_alloc, coverNode_root,
      coverNode_columns, coverNode_rowCount, coverNode_solutionRows, upd_upd, upd_same]
  · exact upd_self _ _ _ h2
  · exact upd_self _ _ _ h1
  · exact upd_self _ _ _ (by ring)

/-! ### Transfer of the static part -/

theorem Static.transfer {n : Nat} {rows : List (List Int)} {m t : matrix}
    (h : Static n rows m) (f : Frame n m t) : Static n rows t := by
  have hnode : ∀ x, isNode n t x ↔ isNode n m x := by
    intro x; simp [isNode, f.alloc_eq]
  have hcol : colOf t = colOf m := by
    funext y; simp [colOf, f.columnInd_eq, f.parentColumnPtr_eq]
  refine ⟨f.root_eq.trans h.root_eq, f.columns_eq.trans h.columns_eq, ?_,
    f.rowCount_eq.trans h.rowCount_eq, ?_, ?_, ?_, ?_, ?_, ?_, h.rows_ok⟩
  · rw [f.alloc_eq]; exact h.alloc_gt
  · intro c hc; rw [f.parentColumnPtr_eq]; exact h.head_par c hc
  · intro c hc; rw [f.columnInd_eq]; exact h.head_ind c hc
  · intro c hc; rw [f.rowInd_eq]; exact h.head_row c hc
  · intro x hx; rw [f.parentColumnPtr_eq]; exact h.node_par x ((hnode x).1 hx)
  · intro x hx
    have hxm := (hnode x).1 hx
    obtain ⟨r, row, i, R, h1, h2, h3, h4, h5⟩ := h.node_row x hxm
    refine ⟨r, row, i, R, by rw [f.rowInd_eq]; exact h1, h2, ?_, ?_, by rw [hcol]; exact h5⟩
    · have hgt : ∀ z ∈ x :: R, n < z := fun z hz => ((h4 z).1 hz).1.1
      exact h3.congr (fun z hz => f.right_eq z (hgt z hz)) (fun z hz => f.left_eq z (hgt z hz))
    · intro y; rw [h4 y, hnode y, f.rowInd_eq]
  · intro r row hr hne
    obtain ⟨x, hx, hxr⟩ := h.row_node r row hr hne
    exact ⟨x, (hnode x).2 hx, by rw [f.rowInd_eq]; exact hxr⟩

theorem Frame.refl (n : Nat) (m : matrix) : Frame n m m :=
  ⟨rfl, rfl, rfl, rfl, rfl, rfl, rfl, rfl, fun _ _ => rfl, fun _ _ => rfl⟩

theorem Frame.trans {n : Nat} {m t u : matrix} (f : Frame n m t) (g : Frame n t u) :
    Frame n m u :=
  ⟨g.root_eq.trans f.root_eq, g.columns_eq.trans f.columns_eq,
    g.solutionRows_eq.trans f.solutionRows_eq, g.rowCount_eq.trans f.rowCount_eq,
    g.alloc_eq.trans f.alloc_eq, g.rowInd_eq.trans f.rowInd_eq,
    g.parentColumnPtr_eq.trans f.parentColumnPtr_eq, g.columnInd_eq.trans f.columnInd_eq,
    fun x hx => (g.right_eq x hx).trans (f.right_eq x hx),
    fun x hx => (g.left_eq x hx).trans (f.left_eq x hx)⟩

theorem Frame.isNode {n : Nat} {m t : matrix} (f : Frame n m t) (x : Nat) :
    isNode n t x ↔ isNode n m x := by
  simp [dlx.isNode, f.alloc_eq]

theorem Frame.live {n : Nat} {m t : matrix} (f : Frame n m t) (H : List Nat) (x : Nat) :
    Live n t H x ↔ Live n m H x := by
  simp [Live, dlx.isNode, f.alloc_eq, f.rowInd_eq, f.parentColumnPtr_eq]

theorem Frame.coverNode (n : Nat) (y : Nat) (m : matrix) : Frame n m (coverNode y m) :=
  ⟨rfl, rfl, rfl, rfl, rfl, rfl, rfl, rfl, fun _ _ => rfl, fun _ _ => rfl⟩

end dlx


namespace dlx

/-- One step of the inner loop of `cover(c)`: a node that is still linked into
a column other than `c` is unlinked; the step is undone by `uncoverNode`. -/
theorem CInv.step {n : Nat} {rows : List (List Int)} {m : matrix} {H : List Nat} {c : Nat}
    {Lc Rm : List Nat} {y : Nat} (h : CInv n rows m H c Lc Rm) (hy : isNode n m y)
    (hd : m.parentColumnPtr y ∈ H) (hdc : m.parentColumnPtr y ≠ c) (hl : Live n m H y)
    (hr : y ∉ Rm) :
    CInv n rows (coverNode y m) H c Lc (Rm ++ [y]) ∧ uncoverNode y (coverNode y m) = m := by
  obtain ⟨hd1, hdn⟩ := h.hrange _ hd
  obtain ⟨L, hring, hlen, hmemL, hcomp, hsound⟩ := h.cols _ hd1 hdn hdc
  have hyL : y ∈ L := hcomp hd y hy rfl hl hr
  obtain ⟨L1, L2, rfl⟩ := List.append_of_mem hyL
  have hlink := hring.linked hyL
  refine ⟨?_, uncoverNode_coverNode y m hlink.1 hlink.2⟩
  have hup : m.upPtr y ∈ m.parentColumnPtr y :: (L1 ++ y :: L2) :=
    hring.prev_mem (List.mem_cons_of_mem _ hyL)
  have hdown : m.downPtr y ∈ m.parentColumnPtr y :: (L1 ++ y :: L2) :=
    hring.next_mem (List.mem_cons_of_mem _ hyL)
  have hpar : ∀ z ∈ m.parentColumnPtr y :: (L1 ++ y :: L2),
      m.parentColumnPtr z = m.parentColumnPtr y := by
    intro z hz
    rcases List.mem_cons.1 hz with rfl | hz
    · exact h.static.head_par _ hdn
    · exact (hmemL z hz).2
  have frame : ∀ (e : Nat) (L' : List Nat), e ≤ n → e ≠ m.parentColumnPtr y →
      Ring m.downPtr m.upPtr e L' → (∀ x ∈ L', m.parentColumnPtr x = e) →
      Ring (coverNode y m).downPtr (coverNode y m).upPtr e L' := by
    intro e L' hen hed hr' hp'
    have hpe : ∀ z ∈ e :: L', m.parentColumnPtr z = e := by
      intro z hz
      rcases List.mem_cons.1 hz with rfl | hz
      · exact h.static.head_par _ hen
      · exact hp' z hz
    refine hr'.congr ?_ ?_
    · intro z hz
      simp only [coverNode_downPtr]
      apply upd_other
      rintro rfl
      exact hed ((hpe _ hz).symm.trans (hpar _ hup))
    · intro z hz
      simp only [coverNode_upPtr]
      apply upd_other
      rintro rfl
      exact hed ((hpe _ hz).symm.trans (hpar _ hdown))
  have hcn := (h.hrange c h.hc).2
  refine ⟨h.static.transfer (Frame.coverNode n y m), h.hring, h.hnodup, h.hc, h.hrange,
    frame c Lc hcn (Ne.symm hdc) h.cring (fun x hx => ((h.cmem x).1 hx).2.1), ?_, h.cmem, ?_⟩
  · simp only [coverNode_columnLen]
    rw [upd_other _ _ (Ne.symm hdc)]
    exact h.clen
  · intro e he1 hen hec
    by_cases hed : e = m.parentColumnPtr y
    · subst hed
      have hnd : (L1 ++ y :: L2).Nodup := (List.nodup_cons.1 hring.1).2
      have hynot : y ∉ L1 ++ L2 := by
        have := List.nodup_middle.1 hnd
        exact (List.nodup_cons.1 this).1
      have hsub : ∀ x, x ∈ L1 ++ L2 → x ∈ L1 ++ y :: L2 := by
        intro x hx; simp at hx ⊢; tauto
      refine ⟨L1 ++ L2, hring.remove, ?_, fun x hx => hmemL x (hsub x hx), ?_, ?_⟩
      · simp only [coverNode_columnLen, upd_same, hlen]
        simp only [List.length_append, List.length_cons]
        push_cast
        ring
      · intro he x hx hpx hlx hrx
        have hxr : x ∉ Rm := fun hh => hrx (List.mem_append_left _ hh)
        have hxy : x ≠ y := fun hh => hrx (by simp [hh])
        have := hcomp he x hx hpx hlx hxr
        simp at this ⊢
        tauto
      · intro he x hx
        obtain ⟨h1, h2⟩ := hsound he x (hsub x hx)
        refine ⟨h1, ?_⟩
        intro hh
        rcases List.mem_append.1 hh with hh | hh
        · exact h2 hh
        · simp at hh; subst hh; exact hynot hx
    · obtain ⟨L', hr', hlen', hmem', hcomp', hsound'⟩ := h.cols e he1 hen hec
      refine ⟨L', frame e L' hen hed hr' (fun x hx => (hmem' x hx).2), ?_, hmem', ?_, ?_⟩
      · simp only [coverNode_columnLen]
        rw [upd_other _ _ hed]
        exact hlen'
      · intro he x hx hpx hlx hrx
        exact hcomp' he x hx hpx hlx (fun hh => hrx (List.mem_append_left _ hh))
      · intro he x hx
        obtain ⟨h1, h2⟩ := hsound' he x hx
        refine ⟨h1, ?_⟩
        intro hh
        rcases List.mem_append.1 hh with hh | hh
        · exact h2 hh
        · simp at hh; subst hh; exact hed (hmem' x hx).2.symm

end dlx


namespace dlx

/-- The row ring of a node, with the columns of its members pairwise distinct. -/
theorem Static.row_of {n : Nat} {rows : List (List Int)} {m : matrix} (h : Static n rows m)
    {x : Nat} (hx : isNode n m x) :
    ∃ R, Ring m.rightPtr m.leftPtr x R ∧
      (∀ y, y ∈ x :: R ↔ isNode n m y ∧ m.rowInd y = m.rowInd x) ∧
      ((x :: R).map m.parentColumnPtr).Nodup := by
  obtain ⟨r, row, i, R, h1, h2, h3, h4, h5⟩ := h.node_row x hx
  refine ⟨R, h3, fun y => by rw [h4 y, h1], ?_⟩
  have hrow : row ∈ rows := List.getElem?_mem h2
  have hnd : (row.rotate i).Nodup := List.nodup_rotate.2 (h.rows_ok row hrow).1
  rw [← h5] at hnd
  have : (x :: R).map (colOf m) = ((x :: R).map m.parentColumnPtr).map m.columnInd := by
    simp [colOf, List.map_map, Function.comp_def]
  rw [this] at hnd
  exact hnd.of_map _

/-- Two nodes of one row in one column are the same node. -/
theorem Static.node_inj {n : Nat} {rows : List (List Int)} {m : matrix} (h : Static n rows m)
    {x y : Nat} (hx : isNode n m x) (hy : isNode n m y) (hr : m.rowInd y = m.rowInd x)
    (hp : m.parentColumnPtr y = m.parentColumnPtr x) : y = x := by
  obtain ⟨R, _, hmem, hnd⟩ := h.row_of hx
  have hyR : y ∈ x :: R := (hmem y).2 ⟨hy, hr⟩
  have hxR : x ∈ x :: R := List.mem_cons_self _ _
  exact List.inj_on_of_nodup_map hnd hyR hxR hp

theorem coverRow_spec {n : Nat} {rows : List (List Int)} {m : matrix} {H : List Nat} {c : Nat}
    {Lc Rm : List Nat} (h : CInv n rows m H c Lc Rm) {x : Nat} (hx : isNode n m x)
    (hxc : m.parentColumnPtr x = c) (hxl : Live n m H x) {R : List Nat}
    (hR : Ring m.rightPtr m.leftPtr x R)
    (hmem : ∀ y, y ∈ x :: R ↔ isNode n m y ∧ m.rowInd y = m.rowInd x)
    (hpar : ((x :: R).map m.parentColumnPtr).Nodup) (hdisj : ∀ y ∈ R, y ∉ Rm)
    (fuel : Nat) (hf : R.length < fuel) :
    ∃ t, coverRow fuel x m = some t ∧ CInv n rows t H c Lc (Rm ++ R) ∧ Frame n m t ∧
      ∀ fuel', R.length < fuel' → uncoverRow fuel' x t = some m := by
  have hRnd : R.Nodup := (List.nodup_cons.1 hR.1).2
  have hxR : x ∉ R := (List.nodup_cons.1 hR.1).1
  have key := ptrLoop_rev_rule x (fun (m : matrix) x => m.rightPtr x)
    (fun (m : matrix) x => m.leftPtr x) (fun y m => some (coverNode y m))
    (fun y m => some (uncoverNode y m)) R
    (fun done _ t => CInv n rows t H c Lc (Rm ++ done) ∧ Frame n m t) ?_ fuel m hf
    ⟨by simpa using h, Frame.refl n m⟩
  · obtain ⟨t, h1, ⟨h2, h3⟩, h4⟩ := key
    refine ⟨t, ?_, h2, h3, ?_⟩
    · rw [coverRow, hR.next_anchor]; exact h1
    · intro fuel' hf'
      have hl : t.leftPtr x = m.leftPtr x := h3.left_eq x hx.1
      rw [uncoverRow, hl, hR.prev_anchor]
      exact h4 fuel' hf'
  · intro done y rem s1 hL ⟨hC, hF⟩
    have hyR : y ∈ R := by rw [← hL]; simp
    have hym := (hmem y).1 (List.mem_cons_of_mem _ hyR)
    have hyx : y ≠ x := fun hh => hxR (hh ▸ hyR)
    have hpy : m.parentColumnPtr y ≠ c := by
      rw [← hxc]
      intro hh
      exact hyx (h.static.node_inj hx hym.1 hym.2 hh)
    have hly : Live n m H y := fun z hz hzr => hxl z hz (hzr.trans hym.2)
    have hpH : m.parentColumnPtr y ∈ H := hxl y hym.1 hym.2
    have hyRm : y ∉ Rm ++ done := by
      intro hh
      rcases List.mem_append.1 hh with hh | hh
      · exact hdisj y hyR hh
      · rw [← hL] at hRnd
        exact List.disjoint_of_nodup_append hRnd hh (List.mem_cons_self _ _)
    have hstep := CInv.step (y := y) hC ((hF.isNode y).2 hym.1)
      (by rw [hF.parentColumnPtr_eq]; exact hpH) (by rw [hF.parentColumnPtr_eq]; exact hpy)
      ((hF.live H y).2 hly) hyRm
    refine ⟨hyx, coverNode y s1, rfl, ?_, ⟨?_, hF.trans (Frame.coverNode n y s1)⟩, ?_, ?_⟩
    · show s1.rightPtr y = _
      rw [hF.right_eq y hym.1.1]
      subst hL
      exact hR.next_at
    · simpa using hstep.1
    · show some (uncoverNode y (coverNode y s1)) = some s1
      rw [hstep.2]
    · show s1.leftPtr y = _
      rw [hF.left_eq y hym.1.1]
      subst hL
      exact hR.prev_at

end dlx


namespace dlx

@[simp] theorem coverHeader_rightPtr (c : Nat) (m : matrix) :
    (coverHeader c m).rightPtr = upd m.rightPtr (m.leftPtr c) (m.rightPtr c) := rfl
@[simp] theorem coverHeader_leftPtr (c : Nat) (m : matrix) :
    (coverHeader c m).leftPtr = upd m.leftPtr (m.rightPtr c) (m.leftPtr c) := rfl
@[simp] theorem coverHeader_downPtr (c : Nat) (m : matrix) :
    (coverHeader c m).downPtr = m.downPtr := rfl
@[simp] theorem coverHeader_upPtr (c : Nat) (m : matrix) :
    (coverHeader c m).upPtr = m.upPtr := rfl
@[simp] theorem coverHeader_columnLen (c : Nat) (m : matrix) :
    (coverHeader c m).columnLen = m.columnLen := rfl

/-- Putting the header back right after bypassing it restores the matrix,
provided the header was linked into the header ring. -/
theorem uncoverHeader_coverHeader (c : Nat) (m : matrix)
    (h1 : m.rightPtr (m.leftPtr c) = c) (h2 : m.leftPtr (m.rightPtr c) = c) :
    uncoverHeader c (coverHeader c m) = m := by
  have hl : (coverHeader c m).leftPtr c = m.leftPtr c := by
    simp only [coverHeader_leftPtr, upd]; split <;> rfl
  have hr : (coverHeader c m).rightPtr c = m.rightPtr c := by
    simp only [coverHeader_rightPtr, upd]; split <;> rfl
  apply matrix_ext <;>
    simp only [uncoverHeader, setLeft, setRight, hl, hr, coverHeader_rightPtr,
      coverHeader_leftPtr, upd_upd]
  all_goals first
    | rfl
    | exact upd_self _ _ _ h2
    | exact upd_self _ _ _ h1

theorem erase_middle {H1 H2 : List Nat} {c : Nat} (h : (H1 ++ c :: H2).Nodup) :
    (H1 ++ c :: H2).erase c = H1 ++ H2 := by
  have hc : c ∉ H1 := by
    intro hh
    exact List.disjoint_of_nodup_append h hh (List.mem_cons_self _ _)
  rw [List.erase_append_right _ hc, List.erase_cons_head]

theorem Inv.hnodup {n : Nat} {rows : List (List Int)} {m : matrix} {H : List Nat}
    (h : Inv n rows m H) : H.Nodup := (List.nodup_cons.1 h.hring.1).2

theorem Inv.header_le {n : Nat} {rows : List (List Int)} {m : matrix} {H : List Nat}
    (h : Inv n rows m H) {z : Nat} (hz : z ∈ 0 :: H) : z ≤ n := by
  rcases List.mem_cons.1 hz with rfl | hz
  · exact Nat.zero_le _
  · exact (h.hrange z hz).2

/-- The first half of `cover(c)`: the header of `c` leaves the header ring. -/
theorem Inv.coverHeader {n : Nat} {rows : List (List Int)} {m : matrix} {H : List Nat}
    (h : Inv n rows m H) {c : Nat} (hc : c ∈ H) :
    ∃ Lc, CInv n rows (coverHeader c m) H c Lc [] ∧ Frame n m (coverHeader c m) ∧
      uncoverHeader c (coverHeader c m) = m := by
  obtain ⟨hc1, hcn⟩ := h.hrange c hc
  obtain ⟨Lc, hLc, hlen, hsub, hcomp, hsound⟩ := h.cols c hc1 hcn
  have hlink := h.hring.linked hc
  have hleft : m.leftPtr c ≤ n := h.header_le (h.hring.prev_mem (List.mem_cons_of_mem _ hc))
  have hright : m.rightPtr c ≤ n := h.header_le (h.hring.next_mem (List.mem_cons_of_mem _ hc))
  have hF : Frame n m (dlx.coverHeader c m) := by
    refine ⟨rfl, rfl, rfl, rfl, rfl, rfl, rfl, rfl, ?_, ?_⟩
    · intro x hx
      simp only [coverHeader_rightPtr]
      exact upd_other _ _ (Nat.ne_of_gt (Nat.lt_of_le_of_lt hleft hx))
    · intro x hx
      simp only [coverHeader_leftPtr]
      exact upd_other _ _ (Nat.ne_of_gt (Nat.lt_of_le_of_lt hright hx))
  refine ⟨Lc, ?_, hF, uncoverHeader_coverHeader c m hlink.1 hlink.2⟩
  obtain ⟨H1, H2, rfl⟩ := List.append_of_mem hc
  refine ⟨h.static.transfer hF, ?_, h.hnodup, hc, h.hrange, hLc, hlen, ?_, ?_⟩
  · rw [erase_middle h.hnodup]
    exact h.hring.remove
  · intro x
    constructor
    · intro hx
      exact ⟨(hsub x hx).1, (hsub x hx).2, hsound hc x hx⟩
    · rintro ⟨h1, h2, h3⟩
      exact hcomp hc x h1 h2 h3
  · intro d hd1 hdn _
    obtain ⟨L, hL, hlen', hsub', hcomp', hsound'⟩ := h.cols d hd1 hdn
    refine ⟨L, hL, hlen', hsub', ?_, ?_⟩
    · intro hd x hx hp hl _
      exact hcomp' hd x hx hp hl
    · intro hd x hx
      exact ⟨hsound' hd x hx, by simp⟩

/-- The end of `cover(c)`: once every node of every row through `c` has been
unlinked, the invariant holds again for the header ring without `c`. -/
theorem CInv.finish {n : Nat} {rows : List (List Int)} {m : matrix} {H : List Nat} {c : Nat}
    {Lc Rm : List Nat} (h : CInv n rows m H c Lc Rm)
    (ha : ∀ y ∈ Rm, ∃ x ∈ Lc, m.rowInd y = m.rowInd x)
    (hb : ∀ x ∈ Lc, ∀ y, isNode n m y → m.rowInd y = m.rowInd x → y ≠ x → y ∈ Rm) :
    Inv n rows m (H.erase c) := by
  have hsubH : ∀ z, z ∈ H.erase c → z ∈ H := fun z hz => List.mem_of_mem_erase hz
  have hcne : ∀ z, z ∈ H.erase c → z ≠ c := by
    intro z hz hzc
    subst hzc
    exact (List.Nodup.not_mem_erase h.hnodup) hz
  have hlive1 : ∀ x, Live n m (H.erase c) x → Live n m H x :=
    fun x hl y hy hr => hsubH _ (hl y hy hr)
  refine ⟨h.static, h.hring, fun d hd => h.hrange d (hsubH d hd), ?_⟩
  intro d hd1 hdn
  by_cases hdc : d = c
  · subst hdc
    refine ⟨Lc, h.cring, h.clen, fun x hx => ⟨((h.cmem x).1 hx).1, ((h.cmem x).1 hx).2.1⟩, ?_, ?_⟩
    · intro hd; exact absurd rfl (hcne _ hd)
    · intro hd; exact absurd rfl (hcne _ hd)
  · obtain ⟨L, hL, hlen, hsub, hcomp, hsound⟩ := h.cols d hd1 hdn hdc
    refine ⟨L, hL, hlen, hsub, ?_, ?_⟩
    · intro hd x hx hp hl
      refine hcomp (hsubH d hd) x hx hp (hlive1 x hl) ?_
      intro hxRm
      obtain ⟨x', hx', hr'⟩ := ha x hxRm
      obtain ⟨hn', hp', _⟩ := (h.cmem x').1 hx'
      have := hl x' hn' hr'.symm
      rw [hp'] at this
      exact hcne c this rfl
    · intro hd x hx
      obtain ⟨hlx, hxRm⟩ := hsound (hsubH d hd) x hx
      intro y hy hyr
      have hyH : m.parentColumnPtr y ∈ H := hlx y hy hyr
      have hyc : m.parentColumnPtr y ≠ c := by
        intro hyc
        have hyl : Live n m H y := fun z hz hzr => hlx z hz (hzr.trans hyr)
        have hyLc : y ∈ Lc := (h.cmem y).2 ⟨hy, hyc, hyl⟩
        have hxy : x ≠ y := by
          intro hh
          subst hh
          exact hdc ((hsub x hx).2.symm.trans hyc)
        exact hxRm (hb y hyLc x (hsub x hx).1 hyr.symm hxy)
      exact (List.mem_erase_of_ne hyc).2 hyH

end dlx


namespace dlx

theorem Static.node_lt {n : Nat} {rows : List (List Int)} {m : matrix} (h : Static n rows m)
    {c : Nat} (hc : c ≤ n) : c < m.alloc := Nat.lt_of_le_of_lt hc h.alloc_gt

/-- `cover(c)` on a column of the header ring: it returns, the invariant holds
for the header ring without `c`, the ring of `c` itself is kept, and the
matching `uncover(c)` restores the matrix exactly. -/
theorem cover_spec {n : Nat} {rows : List (List Int)} {m : matrix} {H : List Nat}
    (h : Inv n rows m H) {c : Nat} (hc : c ∈ H) (fuel : Nat) (hf : m.alloc ≤ fuel) :
    ∃ t, cover fuel c m = some t ∧ Inv n rows t (H.erase c) ∧ Frame n m t ∧
      uncover fuel c t = some m ∧
      ∃ Lc, Ring t.downPtr t.upPtr c Lc ∧ (t.columnLen c = Lc.length) ∧
        ∀ x, x ∈ Lc ↔ isNode n m x ∧ m.parentColumnPtr x = c ∧ Live n m H x := by
  obtain ⟨Lc, hC0, hF0, hU0⟩ := h.coverHeader hc
  have hcn : c ≤ n := (h.hrange c hc).2
  have hLc_lt : Lc.length < fuel := by
    refine Nat.lt_of_lt_of_le (hC0.cring.length_lt (b := m.alloc) ?_) hf
    intro x hx
    rcases List.mem_cons.1 hx with rfl | hx
    · exact h.static.node_lt hcn
    · exact ((hC0.cmem x).1 hx).1.2
  have key := ptrLoop_rev_rule c (fun (m : matrix) x => m.downPtr x)
    (fun (m : matrix) x => m.upPtr x) (fun x m => coverRow fuel x m)
    (fun x m => uncoverRow fuel x m) Lc
    (fun done _ t => ∃ Rm, CInv n rows t H c Lc Rm ∧ Frame n m t ∧
      (∀ y ∈ Rm, ∃ x ∈ done, m.rowInd y = m.rowInd x) ∧
      (∀ x ∈ done, ∀ y, isNode n m y → m.rowInd y = m.rowInd x → y ≠ x → y ∈ Rm))
    ?_ fuel (coverHeader c m) hLc_lt ⟨[], hC0, hF0, by simp, by simp⟩
  · obtain ⟨t, h1, ⟨Rm, hC, hF, ha, hb⟩, h4⟩ := key
    refine ⟨t, ?_, ?_, hF, ?_, Lc, hC.cring, hC.clen, ?_⟩
    · rw [cover]
      have : (coverHeader c m).downPtr c = Lc.headD c := hC0.cring.next_anchor
      simp only [this]
      exact h1
    · refine hC.finish ?_ ?_
      · intro y hy
        obtain ⟨x, hx, hr⟩ := ha y hy
        exact ⟨x, hx, by rw [hF.rowInd_eq]; exact hr⟩
      · intro x hx y hy hr hyx
        exact hb x hx y ((hF.isNode y).1 hy) (by rw [hF.rowInd_eq] at hr; exact hr) hyx
    · rw [uncover]
      have : t.upPtr c = Lc.getLastD c := hC.cring.prev_anchor
      rw [this, h4 fuel hLc_lt]
      simp only [hU0]
    · intro x
      rw [hC.cmem x, hF.isNode x, hF.live H x, hF.parentColumnPtr_eq]
  · intro done x rem s1 hL ⟨Rm, hC, hF, ha, hb⟩
    have hxLc : x ∈ Lc := by rw [← hL]; simp
    obtain ⟨hxn, hxp, hxl⟩ := (hC.cmem x).1 hxLc
    have hxc : x ≠ c := by
      intro hh
      have := (List.nodup_cons.1 hC.cring.1).1
      exact this (hh ▸ hxLc)
    have hLnd : Lc.Nodup := (List.nodup_cons.1 hC.cring.1).2
    have hxdone : x ∉ done := by
      intro hh
      rw [← hL] at hLnd
      exact List.disjoint_of_nodup_append hLnd hh (List.mem_cons_self _ _)
    obtain ⟨R, hR, hmem, hpar⟩ := hC.static.row_of hxn
    have hdisj : ∀ y ∈ R, y ∉ Rm := by
      intro y hyR hyRm
      obtain ⟨x', hx', hr'⟩ := ha y hyRm
      have hx'Lc : x' ∈ Lc := by rw [← hL]; simp [hx']
      obtain ⟨hx'n, hx'p, _⟩ := (hC.cmem x').1 hx'Lc
      have hyr := ((hmem y).1 (List.mem_cons_of_mem _ hyR)).2
      have : x' = x := by
        refine hC.static.node_inj hxn hx'n ?_ (hx'p.trans hxp.symm)
        rw [hF.rowInd_eq] at hyr ⊢
        rw [← hr', hyr]
      exact hxdone (this ▸ hx')
    have hRlt : R.length < fuel := by
      refine Nat.lt_of_lt_of_le (hR.length_lt (b := m.alloc) ?_) hf
      intro z hz
      have := ((hmem z).1 hz).1.2
      rw [hF.alloc_eq] at this
      exact this
    obtain ⟨t', h1, hC', hF', hU'⟩ := coverRow_spec hC hxn hxp hxl hR hmem hpar hdisj fuel hRlt
    refine ⟨hxc, t', h1, ?_, ⟨Rm ++ R, hC', hF.trans hF', ?_, ?_⟩, hU' fuel hRlt, ?_⟩
    · have := hC'.cring
      rw [← hL] at this
      exact this.next_at
    · intro y hy
      rcases List.mem_append.1 hy with hy | hy
      · obtain ⟨x', hx', hr'⟩ := ha y hy
        exact ⟨x', by simp [hx'], hr'⟩
      · refine ⟨x, by simp, ?_⟩
        have := ((hmem y).1 (List.mem_cons_of_mem _ hy)).2
        rw [hF.rowInd_eq] at this
        exact this
    · intro x' hx' y hy hr hyx
      rcases List.mem_append.1 hx' with hx' | hx'
      · exact List.mem_append_left _ (hb x' hx' y hy hr hyx)
      · simp at hx'
        subst hx'
        have : y ∈ x' :: R := (hmem y).2 ⟨(hF.isNode y).2 hy, by rw [hF.rowInd_eq]; exact hr⟩
        rcases List.mem_cons.1 this with hh | hh
        · exact absurd hh hyx
        · exact List.mem_append_right _ hh
    · have := hC.cring
      rw [← hL] at this
      exact this.prev_at

end dlx


namespace dlx

/-- The header ring is empty exactly when the root is its own right neighbour. -/
theorem Inv.right_root {n : Nat} {rows : List (List Int)} {m : matrix} {H : List Nat}
    (h : Inv n rows m H) : m.rightPtr m.root = m.root ↔ H = [] := by
  rw [h.static.root_eq, h.hring.next_anchor]
  cases H with
  | nil => simp
  | cons c cs =>
    simp only [List.headD_cons, reduceCtorEq, iff_false]
    intro hc
    have := (List.nodup_cons.1 h.hring.1).1
    exact this (by simp [hc])

/-- The column scan of `search` returns a column of the header ring. -/
theorem pickColumn_spec {n : Nat} {rows : List (List Int)} {m : matrix} {H : List Nat}
    (h : Inv n rows m H) (hH : H ≠ []) (fuel : Nat) (hf : m.alloc ≤ fuel) :
    ∃ c, pickColumn fuel m = some c ∧ c ∈ H := by
  have hlt : H.length < fuel := by
    refine Nat.lt_of_lt_of_le (h.hring.length_lt (b := m.alloc) ?_) hf
    intro x hx
    exact h.static.node_lt (h.header_le hx)
  have hhead : H.headD 0 ∈ H := by
    cases H with
    | nil => exact absurd rfl hH
    | cons c cs => simp
  have key := ptrLoop_rule 0 (fun (_ : Nat) x => m.rightPtr x)
    (fun currentColumn minColumn =>
      some (if m.columnLen (m.parentColumnPtr currentColumn)
                < m.columnLen (m.parentColumnPtr minColumn)
            then currentColumn else minColumn)) H
    (fun _ _ c => c ∈ H) ?_ H [] fuel (H.headD 0) rfl hlt hhead
  · obtain ⟨c, h1, h2⟩ := key
    refine ⟨c, ?_, h2⟩
    rw [pickColumn, h.static.root_eq, h.hring.next_anchor]
    exact h1
  · intro done y rem c hL hc
    have hyH : y ∈ H := by rw [← hL]; simp
    refine ⟨?_, _, rfl, ?_, ?_⟩
    · intro hy
      have := (List.nodup_cons.1 h.hring.1).1
      exact this (hy ▸ hyH)
    · have := h.hring
      rw [← hL] at this
      exact this.next_at
    · show (if _ then y else c) ∈ H
      split
      · exact hyH
      · exact hc

/-- The invariant does not read `solutionRows`. -/
theorem Inv.setSolutionRows {n : Nat} {rows : List (List Int)} {m : matrix} {H : List Nat}
    (h : Inv n rows m H) (sel : List Nat) : Inv n rows { m with solutionRows := sel } H := by
  have hs := h.static
  exact ⟨⟨hs.root_eq, hs.columns_eq, hs.alloc_gt, hs.rowCount_eq, hs.head_par, hs.head_ind,
    hs.head_row, hs.node_par, hs.node_row, hs.row_node, hs.rows_ok⟩, h.hring, h.hrange, h.cols⟩

end dlx


namespace dlx

theorem eraseAll_nodup {H : List Nat} (ds : List Nat) (h : H.Nodup) : (eraseAll H ds).Nodup := by
  induction ds generalizing H with
  | nil => exact h
  | cons d ds ih => exact ih (h.erase d)

theorem mem_eraseAll {H : List Nat} (ds : List Nat) (h : H.Nodup) (z : Nat) :
    z ∈ eraseAll H ds ↔ z ∈ H ∧ z ∉ ds := by
  induction ds generalizing H with
  | nil => simp [eraseAll]
  | cons d ds ih =>
    show z ∈ eraseAll (H.erase d) ds ↔ _
    rw [ih (h.erase d), h.mem_erase_iff]
    simp only [List.mem_cons, not_or]
    tauto

theorem eraseAll_concat (H : List Nat) (ds : List Nat) (d : Nat) :
    eraseAll H (ds ++ [d]) = (eraseAll H ds).erase d := by
  simp [eraseAll, List.foldl_append]

/-- The loop of `search` that covers the columns of the other nodes of the row
of `x`, and the loop that uncovers them again. -/
theorem coverRowColumns_spec {n : Nat} {rows : List (List Int)} {m : matrix} {H : List Nat}
    (h : Inv n rows m H) {x : Nat} (hx : isNode n m x) {R : List Nat}
    (hR : Ring m.rightPtr m.leftPtr x R)
    (hmem : ∀ y ∈ R, isNode n m y)
    (hpar : (R.map m.parentColumnPtr).Nodup) (hin : ∀ y ∈ R, m.parentColumnPtr y ∈ H)
    (fuel : Nat) (hf : m.alloc ≤ fuel) :
    ∃ t, coverRowColumns fuel x m = some t ∧
      Inv n rows t (eraseAll H (R.map m.parentColumnPtr)) ∧ Frame n m t ∧
      uncoverRowColumns fuel x t = some m := by
  have hRlt : R.length < fuel := by
    refine Nat.lt_of_lt_of_le (hR.length_lt (b := m.alloc) ?_) hf
    intro z hz
    rcases List.mem_cons.1 hz with rfl | hz
    · exact hx.2
    · exact (hmem z hz).2
  have key := ptrLoop_rev_rule x (fun (m : matrix) x => m.rightPtr x)
    (fun (m : matrix) x => m.leftPtr x) (fun y m => cover fuel (m.parentColumnPtr y) m)
    (fun y m => uncover fuel (m.parentColumnPtr y) m) R
    (fun done _ u => Inv n rows u (eraseAll H (done.map m.parentColumnPtr)) ∧ Frame n m u)
    ?_ fuel m hRlt ⟨h, Frame.refl n m⟩
  · obtain ⟨t, h1, ⟨h2, h3⟩, h4⟩ := key
    refine ⟨t, ?_, h2, h3, ?_⟩
    · rw [coverRowColumns, hR.next_anchor]; exact h1
    · rw [uncoverRowColumns, h3.left_eq x hx.1, hR.prev_anchor]
      exact h4 fuel hRlt
  · intro done y rem u hL ⟨hI, hF⟩
    have hyR : y ∈ R := by rw [← hL]; simp
    have hyx : y ≠ x := by
      intro hh
      exact (List.nodup_cons.1 hR.1).1 (hh ▸ hyR)
    have hyn := hmem y hyR
    have hpy : u.parentColumnPtr y ∈ eraseAll H (done.map m.parentColumnPtr) := by
      rw [hF.parentColumnPtr_eq, mem_eraseAll _ h.hnodup]
      refine ⟨hin y hyR, ?_⟩
      rw [← hL] at hpar
      simp only [List.map_append, List.map_cons] at hpar
      exact fun hh => List.disjoint_of_nodup_append hpar hh (List.mem_cons_self _ _)
    obtain ⟨t', h1, h2, h3, h4, _⟩ := cover_spec hI hpy fuel (by rw [hF.alloc_eq]; exact hf)
    refine ⟨hyx, t', h1, ?_, ⟨?_, hF.trans h3⟩, ?_, ?_⟩
    · show t'.rightPtr y = _
      rw [h3.right_eq y hyn.1, hF.right_eq y hyn.1]
      subst hL
      exact hR.next_at
    · rw [List.map_append, List.map_cons, List.map_nil, eraseAll_concat]
      rw [hF.parentColumnPtr_eq] at h2
      exact h2
    · show uncover fuel (t'.parentColumnPtr y) t' = some u
      rw [h3.parentColumnPtr_eq]
      exact h4
    · show u.leftPtr y = _
      rw [hF.left_eq y hyn.1]
      subst hL
      exact hR.prev_at

end dlx


namespace dlx

theorem ringList_path {nxt prv : Nat → Nat} {h : Nat} :
    ∀ (L : List Nat) (a : Nat) (fuel : Nat), Path nxt prv a L h → h ∉ L → L.length < fuel →
      ringList nxt h fuel (nxt a) = L := by
  intro L
  induction L with
  | nil =>
    intro a fuel hp _ hf
    cases fuel with
    | zero => simp at hf
    | succ f => simp [ringList, hp.1]
  | cons x xs ih =>
    intro a fuel hp hh hf
    cases fuel with
    | zero => simp at hf
    | succ f =>
      have hxh : x ≠ h := fun e => hh (by simp [e])
      have hf' : xs.length < f := by simp at hf; omega
      rw [hp.1, ringList, if_neg hxh, ih x f hp.2.2 (fun e => hh (List.mem_cons_of_mem _ e)) hf']

/-- Walking a ring from its anchor lists its members. -/
theorem Ring.ringList_eq {nxt prv : Nat → Nat} {h : Nat} {L : List Nat} (r : Ring nxt prv h L)
    {fuel : Nat} (hf : L.length < fuel) : ringList nxt h fuel (nxt h) = L :=
  ringList_path L h fuel r.2 (List.nodup_cons.1 r.1).1 hf

theorem Ring.unique {nxt prv : Nat → Nat} {h : Nat} {L L' : List Nat} (r : Ring nxt prv h L)
    (r' : Ring nxt prv h L') : L = L' := by
  have h1 := r.ringList_eq (by omega : L.length < L.length + L'.length + 1)
  have h2 := r'.ringList_eq (by omega : L'.length < L.length + L'.length + 1)
  rw [← h1, h2]

theorem rowCells_eq {n : Nat} {m : matrix} {x : Nat} {R : List Nat} {prv : Nat → Nat}
    (hR : Ring m.rightPtr prv x R) (hx : isNode n m x) (hmem : ∀ y ∈ R, isNode n m y) :
    rowCells m x = x :: R := by
  have hlt : R.length < m.alloc := by
    refine hR.length_lt ?_
    intro z hz
    rcases List.mem_cons.1 hz with rfl | hz
    · exact hx.2
    · exact (hmem z hz).2
  rw [rowCells, hR.ringList_eq hlt]

/-! ### The solution map -/

theorem mapSet_new : ∀ (sol : Solution) (k : Int) (v : List Int), k ∉ mapKeys sol →
    mapSet sol k v = sol ++ [(k, v)] := by
  intro sol
  induction sol with
  | nil => intro k v _; rfl
  | cons e es ih =>
    intro k v hk
    simp only [mapKeys, List.map_cons, List.mem_cons, not_or] at hk
    have h1 : ¬ e.1 = k := fun hh => hk.1 hh.symm
    simp only [mapSet, if_neg h1, List.cons_append]
    rw [ih k v hk.2]

theorem mapSet_last : ∀ (sol : Solution) (k : Int) (a v : List Int), k ∉ mapKeys sol →
    mapSet (sol ++ [(k, a)]) k v = sol ++ [(k, v)] := by
  intro sol
  induction sol with
  | nil => intro k a v _; simp [mapSet]
  | cons e es ih =>
    intro k a v hk
    simp only [mapKeys, List.map_cons, List.mem_cons, not_or] at hk
    have h1 : ¬ e.1 = k := fun hh => hk.1 hh.symm
    show (if e.1 = k then (k, v) :: (es ++ [(k, a)]) else e :: mapSet (es ++ [(k, a)]) k v) = _
    rw [if_neg h1, ih k a v hk.2]
    rfl

theorem mapGet_last : ∀ (sol : Solution) (k : Int) (a : List Int), k ∉ mapKeys sol →
    mapGet (sol ++ [(k, a)]) k = a := by
  intro sol
  induction sol with
  | nil => intro k a _; simp [mapGet]
  | cons e es ih =>
    intro k a hk
    simp only [mapKeys, List.map_cons, List.mem_cons, not_or] at hk
    have h1 : ¬ e.1 = k := fun hh => hk.1 hh.symm
    have := ih k a hk.2
    simp only [mapGet, List.cons_append, List.find?_cons, h1, decide_False] at this ⊢
    exact this

theorem mapKeys_solutionOf (m : matrix) (sel : List Nat) :
    mapKeys (solutionOf m sel) = sel.map m.rowInd := by
  simp [mapKeys, solutionOf, List.map_map, Function.comp_def]

/-- One pass of the outer loop of `getSolution`, for a row whose index is not
yet a key of the map. -/
theorem getSolutionRow_spec {n : Nat} {rows : List (List Int)} {m : matrix}
    (hs : Static n rows m) {x : Nat} (hx : isNode n m x) (sol : Solution)
    (hk : m.rowInd x ∉ mapKeys sol) (fuel : Nat) (hf : m.alloc ≤ fuel) :
    getSolutionRow fuel m x sol = some (sol ++ [(m.rowInd x, (rowCells m x).map (colOf m))]) := by
  obtain ⟨R, hR, hmem, _⟩ := hs.row_of hx
  have hmem' : ∀ y ∈ R, isNode n m y := fun y hy => ((hmem y).1 (List.mem_cons_of_mem _ hy)).1
  have hRlt : R.length < fuel := by
    refine Nat.lt_of_lt_of_le (hR.length_lt (b := m.alloc) ?_) hf
    intro z hz
    exact ((hmem z).1 hz).1.2
  rw [rowCells_eq hR hx hmem']
  have key := ptrLoop_rule x (fun (_ : Solution) y => m.rightPtr y)
    (fun rowNode solution =>
      some (mapSet solution (m.rowInd x)
        (mapGet solution (m.rowInd x) ++ [m.columnInd (m.parentColumnPtr rowNode)]))) R
    (fun done _ s => s = sol ++ [(m.rowInd x, (x :: done).map (colOf m))]) ?_ R [] fuel
    (mapSet sol (m.rowInd x) [m.columnInd (m.parentColumnPtr x)]) rfl hRlt
    (by rw [mapSet_new _ _ _ hk]; rfl)
  · obtain ⟨s, h1, h2⟩ := key
    rw [getSolutionRow, hR.next_anchor, h1, h2]
  · intro done y rem s hL hs1
    have hyR : y ∈ R := by rw [← hL]; simp
    refine ⟨?_, _, rfl, ?_, ?_⟩
    · intro hh
      exact (List.nodup_cons.1 hR.1).1 (hh ▸ hyR)
    · subst hL; exact hR.next_at
    · subst hs1
      rw [mapGet_last _ _ _ hk, mapSet_last _ _ _ _ hk]
      simp [colOf]

/-- `getSolution` returns the map of the selected rows, provided they are nodes
of pairwise different rows. -/
theorem getSolution_spec {n : Nat} {rows : List (List Int)} {m : matrix}
    (hs : Static n rows m) (hsel : ∀ x ∈ m.solutionRows, isNode n m x)
    (hnd : (m.solutionRows.map m.rowInd).Nodup) (fuel : Nat) (hf : m.alloc ≤ fuel) :
    getSolution fuel m = some (solutionOf m m.solutionRows) := by
  have gen : ∀ (sel pre : List Nat), (∀ x ∈ sel, isNode n m x) →
      ((pre ++ sel).map m.rowInd).Nodup →
      sel.foldlM (fun solution rowStart => getSolutionRow fuel m rowStart solution)
        (solutionOf m pre) = some (solutionOf m (pre ++ sel)) := by
    intro sel
    induction sel with
    | nil => intro pre _ _; simp
    | cons x xs ih =>
      intro pre hn hd
      have hx := hn x (List.mem_cons_self _ _)
      have hk : m.rowInd x ∉ mapKeys (solutionOf m pre) := by
        rw [mapKeys_solutionOf]
        rw [List.map_append, List.map_cons] at hd
        exact fun hh => List.disjoint_of_nodup_append hd hh (List.mem_cons_self _ _)
      rw [List.foldlM_cons, getSolutionRow_spec hs hx _ hk fuel hf]
      have := ih (pre ++ [x]) (fun y hy => hn y (List.mem_cons_of_mem _ hy)) (by simpa using hd)
      simp only [solutionOf, List.map_append, List.map_cons, List.map_nil, List.append_assoc,
        List.singleton_append] at this ⊢
      exact this
  have := gen m.solutionRows [] hsel (by simpa using hnd)
  simpa [getSolution, solutionOf] using this

end dlx


namespace dlx

theorem mem_colsOf {H : List Nat} {j : Int} : j ∈ colsOf H ↔ ∃ c ∈ H, (c : Int) - 1 = j := by
  simp only [colsOf, List.mem_map]

theorem Static.colOf_node {n : Nat} {rows : List (List Int)} {m : matrix} (h : Static n rows m)
    {y : Nat} (hy : isNode n m y) : colOf m y = (m.parentColumnPtr y : Int) - 1 :=
  h.head_ind _ (h.node_par y hy).2

theorem Static.colOf_mem {n : Nat} {rows : List (List Int)} {m : matrix} (h : Static n rows m)
    {y : Nat} (hy : isNode n m y) (H : List Nat) :
    colOf m y ∈ colsOf H ↔ m.parentColumnPtr y ∈ H := by
  rw [h.colOf_node hy, mem_colsOf]
  constructor
  · rintro ⟨c, hc, he⟩
    have : @Eq Nat c (m.parentColumnPtr y) := by omega
    exact this ▸ hc
  · intro hh
    exact ⟨_, hh, rfl⟩

theorem rowAt_of_getElem? {rows : List (List Int)} {r : Nat} {row : List Int}
    (h : rows[r]? = some row) : rowAt rows r = row := by
  simp [rowAt, List.getD, h]

/-- The row of a node, seen from the index sequences given to `AddRow`. -/
theorem Static.row_view {n : Nat} {rows : List (List Int)} {m : matrix} (h : Static n rows m)
    {x : Nat} (hx : isNode n m x) :
    m.rowInd x = (rowNat m x : Int) ∧ rowNat m x < rows.length ∧
      ∀ j, j ∈ rowAt rows (rowNat m x) ↔
        ∃ y, isNode n m y ∧ m.rowInd y = m.rowInd x ∧ colOf m y = j := by
  obtain ⟨r, row, i, R, h1, h2, h3, h4, h5⟩ := h.node_row x hx
  have hr : rowNat m x = r := by simp [rowNat, h1]
  have hlen : r < rows.length := by
    rcases List.getElem?_eq_some_iff.1 h2 with ⟨hh, _⟩
    exact hh
  refine ⟨by rw [hr, h1], by rw [hr]; exact hlen, ?_⟩
  intro j
  rw [hr, rowAt_of_getElem? h2, ← List.mem_rotate (n := i), ← h5, List.mem_map]
  constructor
  · rintro ⟨y, hy, rfl⟩
    exact ⟨y, ((h4 y).1 hy).1, by rw [h1]; exact ((h4 y).1 hy).2, rfl⟩
  · rintro ⟨y, hy, hyr, rfl⟩
    exact ⟨y, (h4 y).2 ⟨hy, by rw [← h1]; exact hyr⟩, rfl⟩

theorem Static.rowNat_inj {n : Nat} {rows : List (List Int)} {m : matrix} (h : Static n rows m)
    {x y : Nat} (hx : isNode n m x) (hy : isNode n m y) (e : rowNat m y = rowNat m x) :
    m.rowInd y = m.rowInd x := by
  rw [(h.row_view hx).1, (h.row_view hy).1, e]

/-- A node is live exactly when its row lies inside the uncovered columns. -/
theorem Static.live_iff {n : Nat} {rows : List (List Int)} {m : matrix} (h : Static n rows m)
    {x : Nat} (hx : isNode n m x) (H : List Nat) :
    Live n m H x ↔ ∀ j ∈ rowAt rows (rowNat m x), j ∈ colsOf H := by
  obtain ⟨_, _, hv⟩ := h.row_view hx
  constructor
  · intro hl j hj
    obtain ⟨y, hy, hyr, rfl⟩ := (hv j).1 hj
    exact (h.colOf_mem hy H).2 (hl y hy hyr)
  · intro hh y hy hyr
    exact (h.colOf_mem hy H).1 (hh _ ((hv _).2 ⟨y, hy, hyr, rfl⟩))

/-- The candidate rows of a branching column, seen from the index sequences. -/
theorem Static.candidates {n : Nat} {rows : List (List Int)} {m : matrix} (h : Static n rows m)
    {H : List Nat} {c : Nat} (_ : 1 ≤ c) (_ : c ≤ n) {Lc : List Nat} (hnd : Lc.Nodup)
    (hLc : ∀ x, x ∈ Lc ↔ isNode n m x ∧ m.parentColumnPtr x = c ∧ Live n m H x) :
    (Lc.map (rowNat m)).Nodup ∧
    ∀ r, r ∈ Lc.map (rowNat m) ↔
      r < rows.length ∧ ((c : Int) - 1) ∈ rowAt rows r ∧ ∀ j ∈ rowAt rows r, j ∈ colsOf H := by
  constructor
  · refine List.Nodup.map_on ?_ hnd
    intro x hx y hy e
    obtain ⟨hxn, hxp, _⟩ := (hLc x).1 hx
    obtain ⟨hyn, hyp, _⟩ := (hLc y).1 hy
    exact (h.node_inj hyn hxn (h.rowNat_inj hyn hxn e) (hxp.trans hyp.symm))
  · intro r
    rw [List.mem_map]
    constructor
    · rintro ⟨x, hx, rfl⟩
      obtain ⟨hxn, hxp, hxl⟩ := (hLc x).1 hx
      obtain ⟨_, hlt, hv⟩ := h.row_view hxn
      refine ⟨hlt, (hv _).2 ⟨x, hxn, rfl, ?_⟩, (h.live_iff hxn H).1 hxl⟩
      rw [h.colOf_node hxn, hxp]
    · rintro ⟨hlt, hcr, hall⟩
      have hget : rows[r]? = some (rowAt rows r) := by
        simp [rowAt, List.getD, List.getElem?_eq_getElem hlt]
      have hne : rowAt rows r ≠ [] := List.ne_nil_of_mem hcr
      obtain ⟨x0, hx0, hx0r⟩ := h.row_node r _ hget hne
      have hr0 : rowNat m x0 = r := by simp [rowNat, hx0r]
      obtain ⟨_, _, hv⟩ := h.row_view hx0
      rw [hr0] at hv
      obtain ⟨y, hy, hyr, hyc⟩ := (hv _).1 hcr
      have hry : rowNat m y = r := by simp [rowNat, hyr, hx0r]
      have hpy : @Eq Nat (m.parentColumnPtr y) c := by
        rw [h.colOf_node hy] at hyc
        omega
      refine ⟨y, (hLc y).2 ⟨hy, hpy, ?_⟩, hry⟩
      rw [h.live_iff hy H, hry]
      exact hall

end dlx


namespace dlx

theorem Frame.push_stack {n : Nat} {m t : matrix} (f : Frame n m t) (S : List Nat) :
    Frame n { m with solutionRows := S } { t with solutionRows := S } :=
  ⟨f.root_eq, f.columns_eq, rfl, f.rowCount_eq, f.alloc_eq, f.rowInd_eq, f.parentColumnPtr_eq,
    f.columnInd_eq, f.right_eq, f.left_eq⟩

theorem rowCells_frame {n : Nat} {rows : List (List Int)} {m t : matrix} (hs : Static n rows m)
    (ha : t.alloc = m.alloc) (hr : ∀ x, n < x → t.rightPtr x = m.rightPtr x)
    {x : Nat} (hx : isNode n m x) : rowCells t x = rowCells m x := by
  obtain ⟨R, hR, hmem, _⟩ := hs.row_of hx
  have hmem' : ∀ y ∈ R, isNode n m y := fun y hy => ((hmem y).1 (List.mem_cons_of_mem _ hy)).1
  have hgt : ∀ z ∈ x :: R, n < z := fun z hz => ((hmem z).1 hz).1.1
  have hR' : Ring t.rightPtr m.leftPtr x R := hR.congr (fun z hz => hr z (hgt z hz)) (fun _ _ => rfl)
  rw [rowCells_eq hR hx hmem']
  have hx' : isNode n t x := by simpa [isNode, ha] using hx
  have hmem'' : ∀ y ∈ R, isNode n t y := fun y hy => by simpa [isNode, ha] using hmem' y hy
  exact rowCells_eq hR' hx' hmem''

theorem solutionOf_frame {n : Nat} {rows : List (List Int)} {m t : matrix} (hs : Static n rows m)
    (ha : t.alloc = m.alloc) (hr : ∀ x, n < x → t.rightPtr x = m.rightPtr x)
    (hri : t.rowInd = m.rowInd) (hp : t.parentColumnPtr = m.parentColumnPtr)
    (hci : t.columnInd = m.columnInd) {sel : List Nat} (hsel : ∀ x ∈ sel, isNode n m x) :
    solutionOf t sel = solutionOf m sel := by
  have hcol : colOf t = colOf m := by funext y; simp [colOf, hp, hci]
  simp only [solutionOf]
  apply List.map_congr_left
  intro x hx
  rw [rowCells_frame hs ha hr (hsel x hx), hri, hcol]

theorem eraseAll_length_le (H : List Nat) (ds : List Nat) : (eraseAll H ds).length ≤ H.length := by
  induction ds generalizing H with
  | nil => exact Nat.le_refl _
  | cons d ds ih =>
    refine Nat.le_trans (ih (H.erase d)) ?_
    rw [List.length_erase]
    split <;> omega

theorem dropLast_pop (t : matrix) (x : Nat) :
    ({ ({ t with solutionRows := t.solutionRows ++ [x] } : matrix) with
      solutionRows := (t.solutionRows ++ [x]).dropLast } : matrix) = t := by
  cases t; simp

end dlx


namespace dlx

/-- One pass of the candidate loop of `search`, given that the child activation
meets the specification of `search`. -/
theorem searchRow_spec {n : Nat} {rows : List (List Int)} {f : Nat}
    {child : matrix → Option SearchState}
    (hchild : ∀ m' H', Inv n rows m' H' →
      (∀ z ∈ m'.solutionRows, isNode n m' z ∧ m'.parentColumnPtr z ∉ H') →
      (m'.solutionRows.map m'.rowInd).Nodup → m'.alloc + H'.length < f →
      ∃ E Ts, child m' = some ⟨m', E, !E.isEmpty⟩ ∧ Emits rows (colsOf H') none Ts ∧
        List.Forall₂ (Emitted n m') E Ts)
    {m t1 : matrix} {H : List Nat} {c x : Nat}
    (hI : Inv n rows m H) (hc : c ∈ H) (hI1 : Inv n rows t1 (H.erase c)) (hF1 : Frame n m t1)
    (hx : isNode n m x) (hxp : m.parentColumnPtr x = c) (hxl : Live n m H x)
    (hsel : ∀ z ∈ m.solutionRows, isNode n m z ∧ m.parentColumnPtr z ∉ H)
    (hnd : (m.solutionRows.map m.rowInd).Nodup) (hf : m.alloc + H.length < f + 1)
    (Eacc : List (Solution × matrix)) (b : Bool) :
    ∃ E1 Ts1 A1, searchRow f child x ⟨t1, Eacc, b⟩ =
        some ⟨t1, Eacc ++ E1, if (!E1.isEmpty) = true then true else b⟩ ∧
      (∀ j, j ∈ A1 ↔ j ∈ colsOf H ∧ j ∉ rowAt rows (rowNat m x)) ∧
      Emits rows A1 none Ts1 ∧
      List.Forall₂ (Emitted n m) E1 (Ts1.map (fun t => rowNat m x :: t)) := by
  have hs := hI.static
  have hHnd := hI.hnodup
  have hI2 : Inv n rows { t1 with solutionRows := t1.solutionRows ++ [x] } (H.erase c) :=
    hI1.setSolutionRows _
  generalize hm2 : ({ t1 with solutionRows := t1.solutionRows ++ [x] } : matrix) = m2 at hI2
  have halloc2 : m2.alloc = m.alloc := by rw [← hm2]; exact hF1.alloc_eq
  have hpar2 : m2.parentColumnPtr = m.parentColumnPtr := by
    rw [← hm2]; exact hF1.parentColumnPtr_eq
  have hrow2 : m2.rowInd = m.rowInd := by rw [← hm2]; exact hF1.rowInd_eq
  have hci2 : m2.columnInd = m.columnInd := by rw [← hm2]; exact hF1.columnInd_eq
  have hright2 : ∀ z, n < z → m2.rightPtr z = m.rightPtr z := by
    rw [← hm2]; exact hF1.right_eq
  have hsr2 : m2.solutionRows = m.solutionRows ++ [x] := by
    rw [← hm2, ← hF1.solutionRows_eq]
  have hnode2 : ∀ z, isNode n m2 z ↔ isNode n m z := by
    intro z; simp [isNode, halloc2]
  have hx2 : isNode n m2 x := (hnode2 x).2 hx
  obtain ⟨R, hR, hmem, hpar⟩ := hI2.static.row_of hx2
  have hnodeR : ∀ y ∈ R, isNode n m2 y :=
    fun y hy => ((hmem y).1 (List.mem_cons_of_mem _ hy)).1
  have hparR : (R.map m2.parentColumnPtr).Nodup := by
    rw [List.map_cons] at hpar
    exact (List.nodup_cons.1 hpar).2
  have hxnotR : m2.parentColumnPtr x ∉ R.map m2.parentColumnPtr := by
    rw [List.map_cons] at hpar
    exact (List.nodup_cons.1 hpar).1
  have hcnot : c ∉ H.erase c := List.Nodup.not_mem_erase hHnd
  have hRrow : ∀ y ∈ R, isNode n m y ∧ m.rowInd y = m.rowInd x := by
    intro y hy
    obtain ⟨h1, h2⟩ := (hmem y).1 (List.mem_cons_of_mem _ hy)
    rw [hrow2] at h2
    exact ⟨(hnode2 y).1 h1, h2⟩
  have hin : ∀ y ∈ R, m2.parentColumnPtr y ∈ H.erase c := by
    intro y hy
    obtain ⟨h1, h2⟩ := hRrow y hy
    have hH : m.parentColumnPtr y ∈ H := hxl y h1 h2
    have hne : m2.parentColumnPtr y ≠ c := by
      intro hh
      apply hxnotR
      have hxy : m2.parentColumnPtr x = m2.parentColumnPtr y := by rw [hh, hpar2, hxp]
      rw [hxy]
      exact List.mem_map_of_mem _ hy
    rw [hpar2] at hne ⊢
    exact (List.mem_erase_of_ne hne).2 hH
  have hfa : m2.alloc ≤ f := by rw [halloc2]; omega
  obtain ⟨t2, hc2, hI3, hF2, hU2⟩ := coverRowColumns_spec hI2 hx2 hR hnodeR hparR hin f hfa
  have halloc3 : t2.alloc = m.alloc := hF2.alloc_eq.trans halloc2
  have hpar3 : t2.parentColumnPtr = m.parentColumnPtr := hF2.parentColumnPtr_eq.trans hpar2
  have hrow3 : t2.rowInd = m.rowInd := hF2.rowInd_eq.trans hrow2
  have hci3 : t2.columnInd = m.columnInd := hF2.columnInd_eq.trans hci2
  have hright3 : ∀ z, n < z → t2.rightPtr z = m.rightPtr z :=
    fun z hz => (hF2.right_eq z hz).trans (hright2 z hz)
  have hsr3 : t2.solutionRows = m.solutionRows ++ [x] := hF2.solutionRows_eq.trans hsr2
  have hnode3 : ∀ z, isNode n t2 z ↔ isNode n m z := by
    intro z; simp [isNode, halloc3]
  have hH2 : ∀ z, z ∈ eraseAll (H.erase c) (R.map m2.parentColumnPtr) ↔
      z ∈ H ∧ z ≠ c ∧ z ∉ R.map m.parentColumnPtr := by
    intro z
    rw [mem_eraseAll _ (hHnd.erase c), hHnd.mem_erase_iff, hpar2]
    tauto
  have hsel2 : ∀ z ∈ t2.solutionRows, isNode n t2 z ∧
      t2.parentColumnPtr z ∉ eraseAll (H.erase c) (R.map m2.parentColumnPtr) := by
    intro z hz
    rw [hsr3] at hz
    rw [hnode3, hpar3, hH2]
    rcases List.mem_append.1 hz with hz | hz
    · exact ⟨(hsel z hz).1, fun hh => (hsel z hz).2 hh.1⟩
    · simp at hz
      subst hz
      exact ⟨hx, fun hh => hh.2.1 hxp⟩
  have hnd2 : (t2.solutionRows.map t2.rowInd).Nodup := by
    rw [hsr3, hrow3, List.map_append, List.map_cons, List.map_nil]
    refine List.Nodup.append hnd (List.nodup_singleton _) ?_
    intro k hk hk'
    simp at hk'
    subst hk'
    obtain ⟨z, hz, hzr⟩ := List.mem_map.1 hk
    exact (hsel z hz).2 (hxl z (hsel z hz).1 hzr)
  have hlen : (eraseAll (H.erase c) (R.map m2.parentColumnPtr)).length + 1 ≤ H.length := by
    have h1 := eraseAll_length_le (H.erase c) (R.map m2.parentColumnPtr)
    have h2 : (H.erase c).length = H.length - 1 := List.length_erase_of_mem hc
    have h3 : 0 < H.length := List.length_pos_of_mem hc
    omega
  obtain ⟨E1, Ts1, hch, hEm, hFa⟩ := hchild t2 _ hI3 hsel2 hnd2 (by rw [halloc3]; omega)
  refine ⟨E1, Ts1, colsOf (eraseAll (H.erase c) (R.map m2.parentColumnPtr)), ?_, ?_, hEm, ?_⟩
  · have hpop : ({ m2 with solutionRows := m2.solutionRows.dropLast } : matrix) = t1 := by
      rw [← hm2]; exact dropLast_pop t1 x
    simp only [searchRow, hm2, hc2, hch, hU2, hpop]
  · obtain ⟨_, _, hv⟩ := hs.row_view hx
    intro j
    rw [mem_colsOf, mem_colsOf]
    constructor
    · rintro ⟨z, hz, rfl⟩
      obtain ⟨hzH, hzc, hzR⟩ := (hH2 z).1 hz
      refine ⟨⟨z, hzH, rfl⟩, ?_⟩
      intro hj
      obtain ⟨y, hy, hyr, hyc⟩ := (hv _).1 hj
      rw [hs.colOf_node hy] at hyc
      have hpz : @Eq Nat (m.parentColumnPtr y) z := by omega
      have hyR : y ∈ x :: R := (hmem y).2 ⟨(hnode2 y).2 hy, by rw [hrow2]; exact hyr⟩
      rcases List.mem_cons.1 hyR with hh | hh
      · subst hh
        exact hzc (hpz.symm.trans hxp)
      · exact hzR (hpz ▸ List.mem_map_of_mem _ hh)
    · rintro ⟨⟨z, hzH, rfl⟩, hj⟩
      refine ⟨z, (hH2 z).2 ⟨hzH, ?_, ?_⟩, rfl⟩
      · intro hzc
        apply hj
        refine (hv _).2 ⟨x, hx, rfl, ?_⟩
        rw [hs.colOf_node hx, hxp, hzc]
      · intro hzR
        obtain ⟨y, hy, hyp⟩ := List.mem_map.1 hzR
        obtain ⟨h1, h2⟩ := hRrow y hy
        apply hj
        refine (hv _).2 ⟨y, h1, h2, ?_⟩
        rw [hs.colOf_node h1, hyp]
  · rw [List.forall₂_map_right_iff]
    refine hFa.imp ?_
    rintro e t' ⟨he1, sel', he2, he3, he4, he5⟩
    have hrn : rowNat t2 = rowNat m := by funext z; simp [rowNat, hrow3]
    have hnodes : ∀ z ∈ m.solutionRows ++ x :: sel', isNode n m z := by
      intro z hz
      rcases List.mem_append.1 hz with hz | hz
      · exact (hsel z hz).1
      · rcases List.mem_cons.1 hz with rfl | hz
        · exact hx
        · exact (hnode3 z).1 (he4 z hz)
    have hlist : t2.solutionRows ++ sel' = m.solutionRows ++ x :: sel' := by
      rw [hsr3, List.append_assoc]; rfl
    refine ⟨he1, x :: sel', by rw [he2, hlist], ?_, ?_, ?_⟩
    · rw [List.map_cons, ← hrn, he3]
    · intro z hz
      exact hnodes z (List.mem_append_right _ hz)
    · rw [he5, hlist]
      exact solutionOf_frame hs halloc3 hright3 hrow3 hpar3 hci3 hnodes

end dlx


namespace dlx

theorem isEmpty_append_found (Eacc E1 : List (Solution × matrix)) :
    (if (!E1.isEmpty) = true then true else !Eacc.isEmpty) = !(Eacc ++ E1).isEmpty := by
  cases Eacc <;> cases E1 <;> simp

/-- The specification of `search`: started between two activations with enough
fuel, it returns, leaves the matrix exactly as it found it, reports whether it
sent a solution, and sends what Algorithm X emits. -/
theorem search_spec {n : Nat} {rows : List (List Int)} :
    ∀ (fuel : Nat) (m : matrix) (H : List Nat), Inv n rows m H →
      (∀ z ∈ m.solutionRows, isNode n m z ∧ m.parentColumnPtr z ∉ H) →
      (m.solutionRows.map m.rowInd).Nodup → m.alloc + H.length < fuel →
      ∃ E Ts, search fuel m = some ⟨m, E, !E.isEmpty⟩ ∧ Emits rows (colsOf H) none Ts ∧
        List.Forall₂ (Emitted n m) E Ts := by
  intro fuel
  induction fuel with
  | zero => intro m H _ _ _ hf; simp at hf
  | succ f ih =>
    intro m H hI hsel hnd hf
    have hs := hI.static
    have hfa : m.alloc ≤ f := by omega
    by_cases hroot : m.rightPtr m.root = m.root
    · have hH : H = [] := hI.right_root.1 hroot
      subst hH
      have hg := getSolution_spec hs (fun x hx => (hsel x hx).1) hnd f hfa
      refine ⟨[(solutionOf m m.solutionRows, m)], [[]], ?_, Emits.done, ?_⟩
      · simp [search, hroot, hg]
      · refine List.Forall₂.cons ?_ List.Forall₂.nil
        exact ⟨hroot, [], by simp, rfl, by simp, by simp⟩
    · have hH : H ≠ [] := fun hh => hroot (hI.right_root.2 hh)
      obtain ⟨c, hpick, hc⟩ := pickColumn_spec hI hH f hfa
      obtain ⟨hc1, hcn⟩ := hI.hrange c hc
      have hpc : m.parentColumnPtr c = c := hs.head_par c hcn
      obtain ⟨t1, hcov, hI1, hF1, hunc, Lc, hLc, _, hLcmem⟩ := cover_spec hI hc f hfa
      have hLclt : Lc.length < f := by
        refine Nat.lt_of_lt_of_le (hLc.length_lt (b := m.alloc) ?_) hfa
        intro x hx
        rcases List.mem_cons.1 hx with rfl | hx
        · exact hs.node_lt hcn
        · exact ((hLcmem x).1 hx).1.2
      have key := ptrLoop_rule c (fun (st : SearchState) x => st.m.downPtr x)
        (searchRow f (search f)) Lc
        (fun done _ st => st.m = t1 ∧ st.found = !st.emitted.isEmpty ∧
          ∃ Ts, Emits rows (colsOf H) (some (done.map (rowNat m))) Ts ∧
            List.Forall₂ (Emitted n m) st.emitted Ts)
        ?_ Lc [] f ⟨t1, [], false⟩ rfl hLclt ⟨rfl, rfl, [], Emits.nil _, List.Forall₂.nil⟩
      · obtain ⟨st, hloop, hst1, hst2, Ts, hEm, hFa⟩ := key
        have hcand := hs.candidates hc1 hcn (List.nodup_cons.1 hLc.1).2 hLcmem
        refine ⟨st.emitted, Ts, ?_, ?_, hFa⟩
        · have hd : t1.downPtr c = Lc.headD c := hLc.next_anchor
          have hpc1 : t1.parentColumnPtr c = c := by rw [hF1.parentColumnPtr_eq]; exact hpc
          rw [← hd] at hloop
          simp only [search, hroot, if_false, hpick, hpc, hcov, hloop, hst1, hpc1, hunc, hst2]
        · exact Emits.branch _ ((c : Int) - 1) _ _ (mem_colsOf.2 ⟨c, hc, rfl⟩) hcand.1 hcand.2 hEm
      · intro done x rem st hL ⟨hm1, hfd, Ts, hEm, hFa⟩
        have hxLc : x ∈ Lc := by rw [← hL]; simp
        obtain ⟨hxn, hxp, hxl⟩ := (hLcmem x).1 hxLc
        have hxc : x ≠ c := by
          intro hh
          exact (List.nodup_cons.1 hLc.1).1 (hh ▸ hxLc)
        obtain ⟨sm, se, sf⟩ := st
        simp only at hm1 hfd hFa
        subst hm1
        obtain ⟨E1, Ts1, A1, hrow, hA1, hEm1, hFa1⟩ :=
          @searchRow_spec _ _ _ (search f) ih _ _ _ _ _ hI hc hI1 hF1 hxn hxp hxl hsel hnd hf se sf
        refine ⟨hxc, _, hrow, ?_, rfl, ?_, Ts ++ Ts1.map (fun t => rowNat m x :: t), ?_, ?_⟩
        · show sm.downPtr x = _
          subst hL
          exact hLc.next_at
        · show (if (!E1.isEmpty) = true then true else sf) = !(se ++ E1).isEmpty
          rw [hfd]
          exact isEmpty_append_found se E1
        · rw [List.map_append, List.map_cons, List.map_nil]
          exact Emits.snoc _ A1 _ _ _ _ hEm hA1 hEm1
        · exact List.rel_append hFa hFa1

end dlx


namespace dlx

/-! ### Algorithm X emits exactly the exact covers -/

theorem Cover.add_row {rows : List (List Int)} {A A1 : List Int} {T : Finset Nat} {r : Nat}
    (h : Cover rows A1 T) (hA1 : ∀ j, j ∈ A1 ↔ j ∈ A ∧ j ∉ rowAt rows r)
    (hr : r < rows.length) (hsub : ∀ j ∈ rowAt rows r, j ∈ A) :
    Cover rows A (insert r T) := by
  constructor
  · intro r' hr'
    rcases Finset.mem_insert.1 hr' with rfl | hr'
    · exact ⟨hr, hsub⟩
    · exact ⟨(h.1 r' hr').1, fun j hj => ((hA1 j).1 ((h.1 r' hr').2 j hj)).1⟩
  · intro j hj
    by_cases hjr : j ∈ rowAt rows r
    · refine ⟨r, ⟨Finset.mem_insert_self _ _, hjr⟩, ?_⟩
      rintro r' ⟨hr', hjr'⟩
      rcases Finset.mem_insert.1 hr' with rfl | hr'
      · rfl
      · exact absurd hjr ((hA1 j).1 ((h.1 r' hr').2 j hjr')).2
    · obtain ⟨r0, ⟨hr0, hj0⟩, huniq⟩ := h.2 j ((hA1 j).2 ⟨hj, hjr⟩)
      refine ⟨r0, ⟨Finset.mem_insert_of_mem hr0, hj0⟩, ?_⟩
      rintro r' ⟨hr', hjr'⟩
      rcases Finset.mem_insert.1 hr' with rfl | hr'
      · exact absurd hjr' hjr
      · exact huniq r' ⟨hr', hjr'⟩

theorem Cover.erase {rows : List (List Int)} {A A1 : List Int} {T : Finset Nat} {r : Nat}
    (h : Cover rows A T) (hA1 : ∀ j, j ∈ A1 ↔ j ∈ A ∧ j ∉ rowAt rows r) (hr : r ∈ T) :
    Cover rows A1 (T.erase r) := by
  constructor
  · intro r' hr'
    obtain ⟨hne, hr'T⟩ := Finset.mem_erase.1 hr'
    refine ⟨(h.1 r' hr'T).1, fun j hj => (hA1 j).2 ⟨(h.1 r' hr'T).2 j hj, ?_⟩⟩
    intro hjr
    obtain ⟨r0, _, huniq⟩ := h.2 j ((h.1 r' hr'T).2 j hj)
    exact hne ((huniq r' ⟨hr'T, hj⟩).trans (huniq r ⟨hr, hjr⟩).symm)
  · intro j hj
    obtain ⟨hjA, hjr⟩ := (hA1 j).1 hj
    obtain ⟨r0, ⟨hr0, hj0⟩, huniq⟩ := h.2 j hjA
    have hne : r0 ≠ r := by
      rintro rfl
      exact hjr hj0
    refine ⟨r0, ⟨Finset.mem_erase.2 ⟨hne, hr0⟩, hj0⟩, ?_⟩
    rintro r' ⟨hr', hjr'⟩
    exact huniq r' ⟨(Finset.mem_erase.1 hr').2, hjr'⟩

/-- What a full search emits (`P`), and what the candidates tried so far have
emitted (`PL`). -/
theorem Emits.spec {rows : List (List Int)} (hne : ∀ row ∈ rows, row ≠ []) :
    ∀ {A : List Int} {o : Option (List Nat)} {E : List (List Nat)}, Emits rows A o E →
      (o = none →
        (∀ t ∈ E, t.Nodup ∧ Cover rows A t.toFinset) ∧
        (∀ T, Cover rows A T → ∃ t ∈ E, t.toFinset = T) ∧
        E.Pairwise (fun t t' => t.toFinset ≠ t'.toFinset)) ∧
      (∀ L, o = some L → ∀ c, c ∈ A → L.Nodup →
        (∀ r ∈ L, r < rows.length ∧ c ∈ rowAt rows r ∧ ∀ j ∈ rowAt rows r, j ∈ A) →
        (∀ t ∈ E, t.Nodup ∧ Cover rows A t.toFinset ∧ ∃ r ∈ L, r ∈ t) ∧
        (∀ T, Cover rows A T → (∃ r ∈ L, r ∈ T) → ∃ t ∈ E, t.toFinset = T) ∧
        E.Pairwise (fun t t' => t.toFinset ≠ t'.toFinset)) := by
  intro A o E h
  induction h with
  | done =>
    refine ⟨fun _ => ⟨?_, ?_, ?_⟩, fun L hL => by cases hL⟩
    · intro t ht
      simp at ht
      subst ht
      exact ⟨List.nodup_nil, by simp [Cover]⟩
    · intro T hT
      refine ⟨[], by simp, ?_⟩
      symm
      apply Finset.eq_empty_of_forall_not_mem
      intro r hr
      obtain ⟨hlt, hsub⟩ := hT.1 r hr
      have hmem : rowAt rows r ∈ rows := by
        simp [rowAt, List.getD, List.getElem?_eq_getElem hlt]
      have := hne _ hmem
      obtain ⟨j, hj⟩ := List.exists_mem_of_ne_nil _ this
      exact absurd (hsub j hj) (by simp)
    · simp
  | branch A c L E hcA hnd hL _ ih =>
    refine ⟨fun _ => ?_, fun L' hL' => by cases hL'⟩
    obtain ⟨h1, h2, h3⟩ := ih.2 L rfl c hcA hnd (fun r hr => (hL r).1 hr)
    refine ⟨fun t ht => ⟨(h1 t ht).1, (h1 t ht).2.1⟩, ?_, h3⟩
    intro T hT
    refine h2 T hT ?_
    obtain ⟨r, ⟨hr, hcr⟩, _⟩ := hT.2 c hcA
    exact ⟨r, (hL r).2 ⟨(hT.1 r hr).1, hcr, (hT.1 r hr).2⟩, hr⟩
  | nil A =>
    refine ⟨fun h => (by cases h), fun L hL c _ _ _ => ?_⟩
    cases hL
    exact ⟨by simp, by simp, by simp⟩
  | snoc A A1 L E r E1 _ hA1 _ ihL ih1 =>
    refine ⟨fun h => (by cases h), fun L' hL' c hcA hnd hall => ?_⟩
    cases hL'
    have hndL : L.Nodup := (List.nodup_append.1 hnd).1
    have hrL : r ∉ L := fun hh => List.disjoint_of_nodup_append hnd hh (by simp)
    obtain ⟨hrlt, hcr, hrsub⟩ := hall r (by simp)
    obtain ⟨g1, g2, g3⟩ := ihL.2 L rfl c hcA hndL (fun r' hr' => hall r' (by simp [hr']))
    obtain ⟨k1, k2, k3⟩ := ih1.1 rfl
    have hcA1 : c ∉ A1 := fun hh => ((hA1 c).1 hh).2 hcr
    have hrt : ∀ t ∈ E1, r ∉ t := by
      intro t ht hrt
      have := ((k1 t ht).2.1 r (List.mem_toFinset.2 hrt)).2 c hcr
      exact hcA1 this
    refine ⟨?_, ?_, ?_⟩
    · intro t ht
      rcases List.mem_append.1 ht with ht | ht
      · obtain ⟨a1, a2, r', hr', hr't⟩ := g1 t ht
        exact ⟨a1, a2, r', by simp [hr'], hr't⟩
      · obtain ⟨t', ht', rfl⟩ := List.mem_map.1 ht
        refine ⟨List.nodup_cons.2 ⟨hrt t' ht', (k1 t' ht').1⟩, ?_, r, by simp, by simp⟩
        rw [List.toFinset_cons]
        exact (k1 t' ht').2.add_row hA1 hrlt hrsub
    · rintro T hT ⟨r', hr', hr'T⟩
      rcases List.mem_append.1 hr' with hr' | hr'
      · obtain ⟨t, ht, htT⟩ := g2 T hT ⟨r', hr', hr'T⟩
        exact ⟨t, List.mem_append_left _ ht, htT⟩
      · simp at hr'
        subst hr'
        obtain ⟨t', ht', htT⟩ := k2 _ (hT.erase hA1 hr'T)
        refine ⟨r' :: t', List.mem_append_right _ (List.mem_map_of_mem _ ht'), ?_⟩
        rw [List.toFinset_cons, htT, Finset.insert_erase hr'T]
    · rw [List.pairwise_append]
      refine ⟨g3, ?_, ?_⟩
      · rw [List.pairwise_map]
        refine k3.imp_of_mem ?_
        intro t t' ht ht' hne' heq
        apply hne'
        rw [List.toFinset_cons, List.toFinset_cons] at heq
        have h1 : r ∉ t.toFinset := fun hh => hrt t ht (List.mem_toFinset.1 hh)
        have h2 : r ∉ t'.toFinset := fun hh => hrt t' ht' (List.mem_toFinset.1 hh)
        rw [← Finset.erase_insert h1, ← Finset.erase_insert h2, heq]
      · intro a ha b hb heq
        obtain ⟨t', _, rfl⟩ := List.mem_map.1 hb
        obtain ⟨_, hcov, r', hr', hr'a⟩ := g1 a ha
        have hra : r ∈ a.toFinset := by rw [heq]; simp
        obtain ⟨hr'lt, hcr', _⟩ := hall r' (by simp [hr'])
        obtain ⟨r0, _, huniq⟩ := hcov.2 c hcA
        have e1 := huniq r ⟨hra, hcr⟩
        have e2 := huniq r' ⟨List.mem_toFinset.2 hr'a, hcr'⟩
        exact hrL ((e1.trans e2.symm) ▸ hr')

end dlx


namespace dlx

/-! ### `NewMatrix` -/

theorem fold_field {α : Type} (g : matrix → Nat → matrix) (p : matrix → Nat → α) (v : Nat → α)
    (hp : ∀ m i, p (g m i) = upd (p m) i (v i)) :
    ∀ (l : List Nat) (m0 : matrix),
      p (l.foldl g m0) = fun a => if a ∈ l then v a else p m0 a := by
  intro l
  induction l with
  | nil => intro m0; simp
  | cons i l ih =>
    intro m0
    rw [List.foldl_cons, ih, hp]
    funext a
    by_cases hal : a ∈ l <;> by_cases hai : a = i <;> simp [upd, hal, hai]

theorem fold_const {α : Type} (g : matrix → Nat → matrix) (q : matrix → α)
    (hq : ∀ m i, q (g m i) = q m) : ∀ (l : List Nat) (m0 : matrix), q (l.foldl g m0) = q m0 := by
  intro l
  induction l with
  | nil => intro m0; rfl
  | cons i l ih => intro m0; rw [List.foldl_cons, ih, hq]

/-- One iteration of the loop of `NewMatrix` as a chain of field stores. -/
theorem newMatrixHead_eq (n : Nat) (m : matrix) (i : Nat) :
    newMatrixHead n m i =
      setColumnIndex
        (setRight
          (setLeft (setDown (setUp (setParentColumn (setRowIndex m i (-1)) i i) i i) i i) i
            (if i = 0 then n else i - 1))
          i (if i = n then 0 else i + 1))
        i ((i : Int) - 1) := by
  unfold newMatrixHead
  by_cases h0 : i = 0
  · by_cases hn : i = n
    · simp only [if_pos h0, if_pos hn]
    · simp only [if_pos h0, if_neg hn]
  · by_cases hn : i = n
    · simp only [if_neg h0, if_pos hn]
    · simp only [if_neg h0, if_neg hn]

theorem newMatrixHead_fields (n : Nat) (m : matrix) (i : Nat) :
    (newMatrixHead n m i).rightPtr = upd m.rightPtr i (if i = n then 0 else i + 1) ∧
    (newMatrixHead n m i).leftPtr = upd m.leftPtr i (if i = 0 then n else i - 1) ∧
    (newMatrixHead n m i).upPtr = upd m.upPtr i i ∧
    (newMatrixHead n m i).downPtr = upd m.downPtr i i ∧
    (newMatrixHead n m i).parentColumnPtr = upd m.parentColumnPtr i i ∧
    (newMatrixHead n m i).rowInd = upd m.rowInd i (-1) ∧
    (newMatrixHead n m i).columnInd = upd m.columnInd i ((i : Int) - 1) ∧
    (newMatrixHead n m i).columnLen = m.columnLen ∧
    (newMatrixHead n m i).root = m.root ∧ (newMatrixHead n m i).columns = m.columns ∧
    (newMatrixHead n m i).alloc = m.alloc ∧ (newMatrixHead n m i).rowCount = m.rowCount ∧
    (newMatrixHead n m i).solutionRows = m.solutionRows := by
  rw [newMatrixHead_eq]
  simp only [setColumnIndex_rightPtr, setRight_rightPtr, setLeft_rightPtr, setDown_rightPtr,
    setUp_rightPtr, setParentColumn_rightPtr, setRowIndex_rightPtr,
    setColumnIndex_leftPtr, setRight_leftPtr, setLeft_leftPtr, setDown_leftPtr,
    setUp_leftPtr, setParentColumn_leftPtr, setRowIndex_leftPtr,
    setColumnIndex_upPtr, setRight_upPtr, setLeft_upPtr, setDown_upPtr,
    setUp_upPtr, setParentColumn_upPtr, setRowIndex_upPtr,
    setColumnIndex_downPtr, setRight_downPtr, setLeft_downPtr, setDown_downPtr,
    setUp_downPtr, setParentColumn_downPtr, setRowIndex_downPtr,
    setColumnIndex_parentColumnPtr, setRight_parentColumnPtr, setLeft_parentColumnPtr,
    setDown_parentColumnPtr, setUp_parentColumnPtr, setParentColumn_parentColumnPtr,
    setRowIndex_parentColumnPtr,
    setColumnIndex_rowInd, setRight_rowInd, setLeft_rowInd, setDown_rowInd,
    setUp_rowInd, setParentColumn_rowInd, setRowIndex_rowInd,
    setColumnIndex_columnInd, setRight_columnInd, setLeft_columnInd, setDown_columnInd,
    setUp_columnInd, setParentColumn_columnInd, setRowIndex_columnInd,
    setColumnIndex_columnLen, setRight_columnLen, setLeft_columnLen, setDown_columnLen,
    setUp_columnLen, setParentColumn_columnLen, setRowIndex_columnLen,
    setColumnIndex_root, setRight_root, setLeft_root, setDown_root,
    setUp_root, setParentColumn_root, setRowIndex_root,
    setColumnIndex_columns, setRight_columns, setLeft_columns, setDown_columns,
    setUp_columns, setParentColumn_columns, setRowIndex_columns,
    setColumnIndex_alloc, setRight_alloc, setLeft_alloc, setDown_alloc,
    setUp_alloc, setParentColumn_alloc, setRowIndex_alloc,
    setColumnIndex_rowCount, setRight_rowCount, setLeft_rowCount, setDown_rowCount,
    setUp_rowCount, setParentColumn_rowCount, setRowIndex_rowCount,
    setColumnIndex_solutionRows, setRight_solutionRows, setLeft_solutionRows,
    setDown_solutionRows, setUp_solutionRows, setParentColumn_solutionRows,
    setRowIndex_solutionRows, and_self]

/-- The closed form of `NewMatrix`. -/
theorem NewMatrix_fields (n : Nat) :
    (NewMatrix n).rightPtr = (fun a => if a ∈ List.range (n + 1) then
        (if a = n then 0 else a + 1) else 0) ∧
    (NewMatrix n).leftPtr = (fun a => if a ∈ List.range (n + 1) then
        (if a = 0 then n else a - 1) else 0) ∧
    (NewMatrix n).upPtr = (fun a => if a ∈ List.range (n + 1) then a else 0) ∧
    (NewMatrix n).downPtr = (fun a => if a ∈ List.range (n + 1) then a else 0) ∧
    (NewMatrix n).parentColumnPtr = (fun a => if a ∈ List.range (n + 1) then a else 0) ∧
    (NewMatrix n).rowInd = (fun a => if a ∈ List.range (n + 1) then -1 else 0) ∧
    (NewMatrix n).columnInd = (fun a => if a ∈ List.range (n + 1) then (a : Int) - 1 else 0) ∧
    (NewMatrix n).columnLen = (fun _ => 0) ∧
    (NewMatrix n).root = 0 ∧ (NewMatrix n).columns = n + 1 ∧
    (NewMatrix n).alloc = n + 1 ∧ (NewMatrix n).rowCount = 0 ∧
    (NewMatrix n).solutionRows = [] := by
  have hf := newMatrixHead_fields n
  refine ⟨?_, ?_, ?_, ?_, ?_, ?_, ?_, ?_, ?_, ?_, ?_, ?_, ?_⟩
  · exact fold_field (newMatrixHead n) (fun m => m.rightPtr) _ (fun m i => (hf m i).1) _ _
  · exact fold_field (newMatrixHead n) (fun m => m.leftPtr) _ (fun m i => (hf m i).2.1) _ _
  · exact fold_field (newMatrixHead n) (fun m => m.upPtr) _ (fun m i => (hf m i).2.2.1) _ _
  · exact fold_field (newMatrixHead n) (fun m => m.downPtr) _ (fun m i => (hf m i).2.2.2.1) _ _
  · exact fold_field (newMatrixHead n) (fun m => m.parentColumnPtr) _
      (fun m i => (hf m i).2.2.2.2.1) _ _
  · exact fold_field (newMatrixHead n) (fun m => m.rowInd) (fun _ => -1)
      (fun m i => (hf m i).2.2.2.2.2.1) _ _
  · exact fold_field (newMatrixHead n) (fun m => m.columnInd) (fun a => (a : Int) - 1)
      (fun m i => (hf m i).2.2.2.2.2.2.1) _ _
  · exact fold_const (newMatrixHead n) (fun m => m.columnLen)
      (fun m i => (hf m i).2.2.2.2.2.2.2.1) _ _
  · exact fold_const (newMatrixHead n) (fun m => m.root)
      (fun m i => (hf m i).2.2.2.2.2.2.2.2.1) _ _
  · exact fold_const (newMatrixHead n) (fun m => m.columns)
      (fun m i => (hf m i).2.2.2.2.2.2.2.2.2.1) _ _
  · exact fold_const (newMatrixHead n) (fun m => m.alloc)
      (fun m i => (hf m i).2.2.2.2.2.2.2.2.2.2.1) _ _
  · exact fold_const (newMatrixHead n) (fun m => m.rowCount)
      (fun m i => (hf m i).2.2.2.2.2.2.2.2.2.2.2.1) _ _
  · exact fold_const (newMatrixHead n) (fun m => m.solutionRows)
      (fun m i => (hf m i).2.2.2.2.2.2.2.2.2.2.2.2) _ _

/-- A run of consecutive addresses linked forwards and backwards is a path. -/
theorem Path.range {nxt prv : Nat → Nat} : ∀ (k a b : Nat),
    (∀ t, t < k → nxt (a + t) = a + t + 1 ∧ prv (a + t + 1) = a + t) →
    nxt (a + k) = b → prv b = a + k → Path nxt prv a (List.range' (a + 1) k) b := by
  intro k
  induction k with
  | zero => intro a b _ h1 h2; exact ⟨by simpa using h1, by simpa using h2⟩
  | succ k ih =>
    intro a b h h1 h2
    rw [List.range'_succ]
    refine ⟨by simpa using (h 0 (by omega)).1, by simpa using (h 0 (by omega)).2, ?_⟩
    refine ih (a + 1) b ?_ ?_ ?_
    · intro t ht
      have := h (t + 1) (by omega)
      have e1 : a + 1 + t = a + (t + 1) := by omega
      rw [e1]
      exact this
    · have e1 : a + 1 + k = a + (k + 1) := by omega
      rw [e1]; exact h1
    · rw [h2]; omega

theorem NewMatrix_pre (n : Nat) : Pre n (NewMatrix n) (n + 1) := by
  obtain ⟨hr, hl, hu, hd, hp, hri, hci, hcl, _, _, _, _, _⟩ := NewMatrix_fields n
  have hmem : ∀ c, c ≤ n → c ∈ List.range (n + 1) := fun c hc => List.mem_range.2 (by omega)
  refine ⟨?_, ?_, ?_, ?_, ?_, ?_⟩
  · intro c hc; rw [hp]; simp [hmem c hc]
  · intro c hc; rw [hci]; simp [hmem c hc]
  · intro c hc; rw [hri]; simp [hmem c hc]
  · refine ⟨?_, ?_⟩
    · rw [List.nodup_cons]
      refine ⟨?_, List.nodup_range' 1 n⟩
      simp only [List.mem_range'_1]
      omega
    · have := @Path.range (NewMatrix n).rightPtr (NewMatrix n).leftPtr n 0 0 ?_ ?_ ?_
      · simpa using this
      · intro t ht
        rw [hr, hl]
        have h1 : 0 + t ∈ List.range (n + 1) := hmem _ (by omega)
        have h2 : 0 + t + 1 ∈ List.range (n + 1) := hmem _ (by omega)
        simp only [h1, h2, if_true]
        constructor
        · rw [if_neg (by omega)]
        · rw [if_neg (by omega)]; omega
      · rw [hr]; simp
      · rw [hl]; simp
  · intro x h1 h2; omega
  · intro c hc1 hcn
    refine ⟨[], ⟨by simp, ?_, ?_⟩, ?_, ?_⟩
    · rw [hd]; simp [hmem c hcn]
    · rw [hu]; simp [hmem c hcn]
    · rw [hcl]; simp
    · intro x; simp; omega

end dlx


namespace dlx

/-! ### `AddRow` -/

theorem Path.retarget {nxt prv : Nat → Nat} {x e e1 : Nat} (hxe : x ≠ e) :
    ∀ (L : List Nat) (a0 : Nat), Path nxt prv a0 L e → (a0 :: L).Nodup → x ∉ a0 :: L → e ∉ L →
      Path (upd (upd nxt x e1) ((a0 :: L).getLast (by simp)) x)
        (upd (upd prv x ((a0 :: L).getLast (by simp))) e x) a0 L x := by
  intro L
  induction L with
  | nil =>
    intro a0 _ _ hx _
    refine ⟨by simp, ?_⟩
    rw [upd_other _ _ hxe]
    simp
  | cons y ys ih =>
    intro a0 hp hnd hx he
    obtain ⟨h1, h2, h3⟩ := hp
    have hnd' : (y :: ys).Nodup := (List.nodup_cons.1 hnd).2
    have ha0 : a0 ∉ y :: ys := (List.nodup_cons.1 hnd).1
    have hlast : (a0 :: y :: ys).getLast (by simp) = (y :: ys).getLast (by simp) :=
      List.getLast_cons (by simp)
    have hlm : (y :: ys).getLast (by simp) ∈ y :: ys := List.getLast_mem _
    simp only [hlast]
    refine ⟨?_, ?_, ?_⟩
    · rw [upd_other _ _ (by rintro rfl; exact ha0 hlm),
        upd_other _ _ (by rintro rfl; exact hx (by simp))]
      exact h1
    · rw [upd_other _ _ (by rintro rfl; exact he (by simp)),
        upd_other _ _ (by rintro rfl; exact hx (by simp))]
      exact h2
    · exact ih y h3 hnd' (fun hh => hx (List.mem_cons_of_mem _ hh))
        (fun hh => he (List.mem_cons_of_mem _ hh))

/-- Linking a fresh cell `x` in as the last member of a ring. -/
theorem Ring.insert {nxt prv : Nat → Nat} {h x : Nat} {L : List Nat} (r : Ring nxt prv h L)
    (hx : x ∉ h :: L) :
    Ring (upd (upd nxt x h) (prv h) x) (upd (upd prv x (prv h)) h x) h (L ++ [x]) := by
  have hxh : x ≠ h := fun e => hx (by simp [e])
  have hlast : prv h = (h :: L).getLast (by simp) := r.2.prev_last
  have hlm : (h :: L).getLast (by simp) ∈ h :: L := List.getLast_mem _
  refine ⟨?_, ?_⟩
  · have hnd := List.nodup_cons.1 r.1
    rw [List.nodup_cons]
    refine ⟨?_, ?_⟩
    · intro hh
      rcases List.mem_append.1 hh with hh | hh
      · exact hnd.1 hh
      · simp at hh; exact hxh hh.symm
    · refine List.Nodup.append hnd.2 (List.nodup_singleton x) ?_
      intro a ha hb
      simp at hb
      subst hb
      exact hx (List.mem_cons_of_mem _ ha)
  · rw [Path.append]
    refine ⟨?_, ?_, by simp⟩
    · rw [hlast]
      exact Path.retarget hxh L h r.2 r.1 hx (List.nodup_cons.1 r.1).1
    · rw [upd_other _ _ (by rw [hlast]; rintro rfl; exact hx hlm)]
      simp

theorem addRowStep_fields (m : matrix) (x col lv rv : Nat) :
    (addRowStep m x col lv rv).rowInd = upd m.rowInd x m.rowCount ∧
    (addRowStep m x col lv rv).parentColumnPtr = upd m.parentColumnPtr x col ∧
    (addRowStep m x col lv rv).columnLen = upd m.columnLen col (m.columnLen col + 1) ∧
    (addRowStep m x col lv rv).upPtr = upd (upd m.upPtr x (m.upPtr col)) col x ∧
    (addRowStep m x col lv rv).downPtr = upd (upd m.downPtr x col) (m.upPtr col) x ∧
    (addRowStep m x col lv rv).leftPtr = upd m.leftPtr x lv ∧
    (addRowStep m x col lv rv).rightPtr = upd m.rightPtr x rv ∧
    (addRowStep m x col lv rv).columnInd = m.columnInd ∧
    (addRowStep m x col lv rv).root = m.root ∧
    (addRowStep m x col lv rv).columns = m.columns ∧
    (addRowStep m x col lv rv).alloc = m.alloc ∧
    (addRowStep m x col lv rv).rowCount = m.rowCount ∧
    (addRowStep m x col lv rv).solutionRows = m.solutionRows := by
  simp [addRowStep]

/-- One pass of the loop of `AddRow` as a chain of field stores. -/
theorem addRowLoop_cons (k row i : Nat) (c : Int) (cs : List Int) (m : matrix) :
    addRowLoop k row i (c :: cs) m =
      if 0 ≤ c + 1 ∧ c + 1 < (m.columns : Int) then
        addRowLoop k row (i + 1) cs
          (addRowStep m (row + i) (c + 1).toNat
            (if i = 0 then row + (k - 1) else row + (i - 1))
            (if i = k - 1 then row else row + (i + 1)))
      else none := by
  rw [addRowLoop]
  by_cases hc : 0 ≤ c + 1 ∧ c + 1 < (m.columns : Int)
  · by_cases h0 : i = 0
    · by_cases hk : i = k - 1
      · simp only [if_pos hc, if_pos h0, if_pos hk]; rfl
      · simp only [if_pos hc, if_pos h0, if_neg hk]; rfl
    · by_cases hk : i = k - 1
      · simp only [if_pos hc, if_neg h0, if_pos hk]; rfl
      · simp only [if_pos hc, if_neg h0, if_neg hk]; rfl
  · simp only [if_neg hc]

/-- Linking one new node into its column keeps the construction invariant. -/
theorem Pre.link_cell {n : Nat} {m : matrix} {b : Nat} (h : Pre n m b) (hb : n < b) {col : Nat}
    (hc1 : 1 ≤ col) (hcn : col ≤ n) (lv rv : Nat) :
    Pre n (addRowStep m b col lv rv) (b + 1) := by
  obtain ⟨f1, f2, f3, f4, f5, f6, f7, f8, _, _, _, _, _⟩ := addRowStep_fields m b col lv rv
  have hne : ∀ c, c ≤ n → c ≠ b := fun c hc => by omega
  refine ⟨?_, ?_, ?_, ?_, ?_, ?_⟩
  · intro c hc
    rw [f2, upd_other _ _ (hne c hc)]
    exact h.head_par c hc
  · intro c hc
    rw [f8]
    exact h.head_ind c hc
  · intro c hc
    rw [f1, upd_other _ _ (hne c hc)]
    exact h.head_row c hc
  · refine h.hring.congr ?_ ?_
    · intro z hz
      rw [f7]
      apply upd_other
      have : z ≤ n := by
        rcases List.mem_cons.1 hz with rfl | hz
        · omega
        · have := List.mem_range'_1.1 hz; omega
      omega
    · intro z hz
      rw [f6]
      apply upd_other
      have : z ≤ n := by
        rcases List.mem_cons.1 hz with rfl | hz
        · omega
        · have := List.mem_range'_1.1 hz; omega
      omega
  · intro x hx1 hx2
    rw [f2]
    by_cases hxb : x = b
    · subst hxb; simp; exact ⟨hc1, hcn⟩
    · rw [upd_other _ _ hxb]
      exact h.node_par x hx1 (by omega)
  · intro c hc1' hcn'
    obtain ⟨Lc, hLc, hlenc, hmemc⟩ := h.cols col hc1 hcn
    have hbLc : b ∉ col :: Lc := by
      intro hh
      rcases List.mem_cons.1 hh with hh | hh
      · omega
      · have := ((hmemc b).1 hh).2.1; omega
    by_cases hcc : c = col
    · subst hcc
      refine ⟨Lc ++ [b], ?_, ?_, ?_⟩
      · rw [f5, f4]
        exact hLc.insert hbLc
      · rw [f3]
        simp [hlenc]
      · intro x
        rw [f2]
        simp only [List.mem_append, List.mem_singleton, hmemc x]
        by_cases hxb : x = b
        · subst hxb; simp; omega
        · rw [upd_other _ _ hxb]
          constructor
          · rintro (⟨h1, h2, h3⟩ | h1)
            · exact ⟨h1, by omega, h3⟩
            · exact absurd h1 hxb
          · rintro ⟨h1, h2, h3⟩
            exact Or.inl ⟨h1, by omega, h3⟩
    · obtain ⟨L, hL, hlen, hmem⟩ := h.cols c hc1' hcn'
      have hparL : ∀ z ∈ c :: L, m.parentColumnPtr z = c := by
        intro z hz
        rcases List.mem_cons.1 hz with rfl | hz
        · exact h.head_par _ hcn'
        · exact ((hmem z).1 hz).2.2
      have hparLc : ∀ z ∈ col :: Lc, m.parentColumnPtr z = col := by
        intro z hz
        rcases List.mem_cons.1 hz with rfl | hz
        · exact h.head_par _ hcn
        · exact ((hmemc z).1 hz).2.2
      have hup : m.upPtr col ∈ col :: Lc := hLc.prev_mem (List.mem_cons_self _ _)
      have hzb : ∀ z ∈ c :: L, z ≠ b := by
        intro z hz
        rcases List.mem_cons.1 hz with rfl | hz
        · omega
        · have := ((hmem z).1 hz).2.1; omega
      refine ⟨L, hL.congr ?_ ?_, ?_, ?_⟩
      · intro z hz
        rw [f5, upd_other _ _ ?_, upd_other _ _ (hzb z hz)]
        rintro rfl
        exact hcc ((hparL _ hz).symm.trans (hparLc _ hup))
      · intro z hz
        rw [f4, upd_other _ _ ?_, upd_other _ _ (hzb z hz)]
        rintro rfl
        exact hcc ((hparL _ hz).symm.trans (h.head_par _ hcn))
      · rw [f3, upd_other _ _ hcc]
        exact hlen
      · intro x
        rw [f2, hmem x]
        by_cases hxb : x = b
        · subst hxb
          simp only [upd_same]
          constructor
          · rintro ⟨_, h2, _⟩; omega
          · rintro ⟨_, _, h3⟩; exact absurd h3.symm hcc
        · rw [upd_other _ _ hxb]
          constructor
          · rintro ⟨h1, h2, h3⟩; exact ⟨h1, by omega, h3⟩
          · rintro ⟨h1, h2, h3⟩; exact ⟨h1, by omega, h3⟩

end dlx


namespace dlx

/-- The loop of `AddRow`: with in-range indices it does not panic, links every
new node into its column, and leaves the older cells alone. -/
theorem addRowLoop_spec {n k base : Nat} (hbase : n < base) :
    ∀ (cs : List Int) (i : Nat) (m : matrix), Pre n m (base + i) → m.columns = n + 1 →
      (∀ c ∈ cs, 0 ≤ c ∧ c < (n : Int)) → i + cs.length = k →
      ∃ m', addRowLoop k base i cs m = some m' ∧ Pre n m' (base + k) ∧
        m'.root = m.root ∧ m'.columns = m.columns ∧ m'.alloc = m.alloc ∧
        m'.rowCount = m.rowCount ∧ m'.solutionRows = m.solutionRows ∧
        m'.columnInd = m.columnInd ∧
        (∀ a, a < base + i → m'.rowInd a = m.rowInd a ∧
          m'.parentColumnPtr a = m.parentColumnPtr a ∧ m'.leftPtr a = m.leftPtr a ∧
          m'.rightPtr a = m.rightPtr a) ∧
        (∀ j (hj : j < cs.length), m'.rowInd (base + i + j) = m.rowCount ∧
          m'.parentColumnPtr (base + i + j) = (cs[j] + 1).toNat ∧
          m'.leftPtr (base + i + j) = (if i + j = 0 then base + (k - 1) else base + (i + j - 1)) ∧
          m'.rightPtr (base + i + j) = (if i + j = k - 1 then base else base + (i + j + 1))) := by
  intro cs
  induction cs with
  | nil =>
    intro i m hP _ _ hk
    simp at hk
    subst hk
    exact ⟨m, rfl, hP, rfl, rfl, rfl, rfl, rfl, rfl, fun _ _ => ⟨rfl, rfl, rfl, rfl⟩,
      fun j hj => by simp at hj⟩
  | cons c cs ih =>
    intro i m hP hcol hcs hk
    obtain ⟨hc0, hcn⟩ := hcs c (List.mem_cons_self _ _)
    have hcond : 0 ≤ c + 1 ∧ c + 1 < (m.columns : Int) := by
      rw [hcol]; push_cast; omega
    have hcol1 : 1 ≤ (c + 1).toNat := by omega
    have hcoln : (c + 1).toNat ≤ n := by omega
    rw [addRowLoop_cons, if_pos hcond]
    generalize hlv : (if i = 0 then base + (k - 1) else base + (i - 1)) = lv
    generalize hrv : (if i = k - 1 then base else base + (i + 1)) = rv
    have hP1 := hP.link_cell (by omega) hcol1 hcoln lv rv
    obtain ⟨f1, f2, _, _, _, f6, f7, f8, f9, f10, f11, f12, f13⟩ :=
      addRowStep_fields m (base + i) (c + 1).toNat lv rv
    simp only [List.length_cons] at hk
    obtain ⟨m', h1, h2, g1, g2, g3, g4, g5, g6, g7, g8⟩ :=
      ih (i + 1) (addRowStep m (base + i) (c + 1).toNat lv rv) hP1 (f10.trans hcol)
        (fun c' hc' => hcs c' (List.mem_cons_of_mem _ hc')) (by omega)
    refine ⟨m', h1, h2, g1.trans f9, g2.trans f10, g3.trans f11, g4.trans f12, g5.trans f13,
      g6.trans f8, ?_, ?_⟩
    · intro a ha
      obtain ⟨e1, e2, e3, e4⟩ := g7 a (by omega)
      have hne : a ≠ base + i := by omega
      rw [e1, e2, e3, e4, f1, f2, f6, f7]
      exact ⟨upd_other _ _ hne, upd_other _ _ hne, upd_other _ _ hne, upd_other _ _ hne⟩
    · intro j hj
      cases j with
      | zero =>
        obtain ⟨e1, e2, e3, e4⟩ := g7 (base + i) (by omega)
        simp only [Nat.add_zero, List.getElem_cons_zero]
        rw [e1, e2, e3, e4, f1, f2, f6, f7]
        simp only [upd_same]
        refine ⟨?_, ?_, ?_, ?_⟩
        · trivial
        · trivial
        · exact hlv.symm
        · exact hrv.symm
      | succ j =>
        simp only [List.length_cons] at hj
        obtain ⟨e1, e2, e3, e4⟩ := g8 j (by omega)
        have ea : base + i + (j + 1) = base + (i + 1) + j := by omega
        have eb : i + (j + 1) = i + 1 + j := by omega
        simp only [List.getElem_cons_succ]
        rw [ea, eb, e1, e2, e3, e4, f12]
        exact ⟨rfl, rfl, rfl, rfl⟩

/-- Before the search starts every column is uncovered, so the invariant is the
construction invariant up to the allocation pointer. -/
theorem Inv.toPre {n : Nat} {rows : List (List Int)} {m : matrix}
    (h : Inv n rows m (List.range' 1 n)) : Pre n m m.alloc := by
  have hs := h.static
  refine ⟨hs.head_par, hs.head_ind, hs.head_row, h.hring, fun x h1 h2 => hs.node_par x ⟨h1, h2⟩,
    ?_⟩
  intro c hc1 hcn
  have hcH : c ∈ List.range' 1 n := List.mem_range'_1.2 (by omega)
  obtain ⟨L, hL, hlen, hsub, hcomp, _⟩ := h.cols c hc1 hcn
  refine ⟨L, hL, hlen, ?_⟩
  intro x
  constructor
  · intro hx
    exact ⟨(hsub x hx).1.1, (hsub x hx).1.2, (hsub x hx).2⟩
  · rintro ⟨h1, h2, h3⟩
    refine hcomp hcH x ⟨h1, h2⟩ h3 ?_
    intro y hy _
    have := hs.node_par y hy
    exact List.mem_range'_1.2 (by omega)

/-- Rotating a ring: any member can serve as the anchor. -/
theorem Ring.rotate {nxt prv : Nat → Nat} {h y : Nat} {L1 L2 : List Nat}
    (r : Ring nxt prv h (L1 ++ y :: L2)) : Ring nxt prv y (L2 ++ h :: L1) := by
  obtain ⟨p1, p2⟩ := Path.append.1 r.2
  refine ⟨?_, Path.append.2 ⟨p2, p1⟩⟩
  have hperm : (y :: (L2 ++ h :: L1)).Perm (h :: (L1 ++ y :: L2)) := by
    have h1 : (y :: (L2 ++ h :: L1)).Perm (h :: L1 ++ y :: L2) := by
      have : (y :: L2 ++ h :: L1).Perm (h :: L1 ++ y :: L2) := List.perm_append_comm
      simpa using this
    simpa using h1
  exact hperm.nodup_iff.2 r.1

end dlx


namespace dlx

/-- The horizontal ring of a freshly added row, read from any of its nodes. -/
theorem new_row_ring {nxt prv : Nat → Nat} {base k : Nat}
    (hn : ∀ j, j < k → nxt (base + j) = if j = k - 1 then base else base + (j + 1))
    (hp : ∀ j, j < k → prv (base + j) = if j = 0 then base + (k - 1) else base + (j - 1)) :
    ∀ j, j < k →
      Ring nxt prv (base + j) (List.range' (base + j + 1) (k - j - 1) ++ List.range' base j) := by
  intro j hj
  have hk : 1 ≤ k := by omega
  have hbase : Ring nxt prv base (List.range' (base + 1) (k - 1)) := by
    refine ⟨?_, Path.range (k - 1) base base ?_ ?_ ?_⟩
    · have : base :: List.range' (base + 1) (k - 1) = List.range' base k := by
        rw [← List.range'_succ]
        congr 1
        omega
      rw [this]
      exact List.nodup_range' base k
    · intro t ht
      constructor
      · rw [hn t (by omega), if_neg (by omega)]
        omega
      · have := hp (t + 1) (by omega)
        rw [if_neg (by omega)] at this
        have e : base + t + 1 = base + (t + 1) := by omega
        rw [e, this]
        congr 1
    · rw [hn (k - 1) (by omega), if_pos rfl]
    · have := hp 0 (by omega)
      rw [if_pos rfl] at this
      simpa using this
  cases j with
  | zero => simpa using hbase
  | succ j =>
    have hsplit : List.range' (base + 1) (k - 1) =
        List.range' (base + 1) j ++ (base + (j + 1)) :: List.range' (base + (j + 1) + 1) (k - (j + 1) - 1) := by
      have hA : k - 1 = (k - (j + 1) - 1 + 1) + j := by omega
      have e1 : base + 1 + j = base + (j + 1) := by omega
      rw [hA, ← List.range'_append_1 (base + 1) j (k - (j + 1) - 1 + 1), List.range'_succ, e1]
    rw [hsplit] at hbase
    have := hbase.rotate
    have e : base :: List.range' (base + 1) j = List.range' base (j + 1) := by
      rw [← List.range'_succ]
    rw [e] at this
    exact this

theorem map_range'_getElem (g : Nat → Int) (r : List Int) (base : Nat)
    (hg : ∀ j (hj : j < r.length), g (base + j) = r[j]) :
    ∀ t len, t + len ≤ r.length →
      (List.range' (base + t) len).map g = (r.drop t).take len := by
  intro t len hle
  apply List.ext_getElem
  · simp; omega
  · intro i h1 h2
    simp only [List.getElem_map, List.getElem_range'_1, List.getElem_take, List.getElem_drop]
    have hlt : t + i < r.length := by simp at h1; omega
    have e : base + t + i = base + (t + i) := by omega
    rw [e, hg (t + i) hlt]

end dlx


namespace dlx

/-- `AddRow` with a duplicate-free, in-range index sequence: it returns the
next row index and keeps the invariant, now for one more row. -/
theorem AddRow_spec {n : Nat} {rows : List (List Int)} {m : matrix}
    (h : Inv n rows m (List.range' 1 n)) {r : List Int} (hnd : r.Nodup)
    (hrg : ∀ c ∈ r, 0 ≤ c ∧ c < (n : Int)) :
    ∃ m', AddRow m r = some (m', (rows.length : Int)) ∧
      Inv n (rows ++ [r]) m' (List.range' 1 n) ∧ m'.solutionRows = m.solutionRows := by
  have hs := h.static
  have hP := h.toPre
  have hP0 : Pre n { m with alloc := m.alloc + r.length } (m.alloc + 0) :=
    ⟨hP.head_par, hP.head_ind, hP.head_row, hP.hring, hP.node_par, hP.cols⟩
  obtain ⟨m1, h1, hP1, g1, g2, g3, g4, g5, g6, g7, g8⟩ :=
    addRowLoop_spec (k := r.length) hs.alloc_gt r 0 _ hP0 hs.columns_eq hrg (by simp)
  have hrc : m1.rowCount = (rows.length : Int) := g4.trans hs.rowCount_eq
  refine ⟨{ m1 with rowCount := m1.rowCount + 1 }, ?_, ?_, g5⟩
  · simp only [AddRow, h1, hrc]
    simp
  -- the fields of the result, in terms of `m`
  generalize hm' : ({ m1 with rowCount := m1.rowCount + 1 } : matrix) = m'
  have F1 : m'.alloc = m.alloc + r.length := by rw [← hm']; exact g3
  have F2 : ∀ a, a < m.alloc → m'.rowInd a = m.rowInd a ∧
      m'.parentColumnPtr a = m.parentColumnPtr a ∧ m'.leftPtr a = m.leftPtr a ∧
      m'.rightPtr a = m.rightPtr a := by
    intro a ha; rw [← hm']; exact g7 a (by omega)
  have F3 : ∀ j (hj : j < r.length), m'.rowInd (m.alloc + j) = (rows.length : Int) ∧
      m'.parentColumnPtr (m.alloc + j) = (r[j] + 1).toNat ∧
      m'.leftPtr (m.alloc + j) = (if j = 0 then m.alloc + (r.length - 1) else m.alloc + (j - 1)) ∧
      m'.rightPtr (m.alloc + j) = (if j = r.length - 1 then m.alloc else m.alloc + (j + 1)) := by
    intro j hj
    have := g8 j hj
    simp only [Nat.add_zero, Nat.zero_add] at this
    rw [← hm']
    exact ⟨this.1.trans hs.rowCount_eq, this.2.1, this.2.2.1, this.2.2.2⟩
  have F4 : m'.columnInd = m.columnInd := by rw [← hm']; exact g6
  have hP' : Pre n m' (m.alloc + r.length) := by
    rw [← hm']
    exact ⟨hP1.head_par, hP1.head_ind, hP1.head_row, hP1.hring, hP1.node_par, hP1.cols⟩
  have hroot : m'.root = 0 := by rw [← hm']; exact g1.trans hs.root_eq
  have hcols : m'.columns = n + 1 := by rw [← hm']; exact g2.trans hs.columns_eq
  have hrcount : m'.rowCount = ((rows ++ [r]).length : Int) := by
    rw [← hm']
    show m1.rowCount + 1 = _
    rw [hrc]; simp
  clear hm' h1 hP1 g1 g2 g3 g4 g5 g6 g7 g8 hrc hP0
  have hnode : ∀ x, isNode n m' x ↔ isNode n m x ∨ ∃ j, j < r.length ∧ x = m.alloc + j := by
    intro x
    simp only [isNode, F1]
    constructor
    · rintro ⟨h1, h2⟩
      by_cases hx : x < m.alloc
      · exact Or.inl ⟨h1, hx⟩
      · exact Or.inr ⟨x - m.alloc, by omega, by omega⟩
    · rintro (⟨h1, h2⟩ | ⟨j, hj, rfl⟩)
      · exact ⟨h1, by omega⟩
      · have := hs.alloc_gt
        exact ⟨by omega, by omega⟩
  have hcolOld : ∀ a, isNode n m a → colOf m' a = colOf m a := by
    intro a ha
    simp only [colOf, F4, (F2 a ha.2).2.1]
  have hcolNew : ∀ j (hj : j < r.length), colOf m' (m.alloc + j) = r[j] := by
    intro j hj
    obtain ⟨hc0, hcn⟩ := hrg r[j] (List.getElem_mem _)
    simp only [colOf, (F3 j hj).2.1]
    rw [hP'.head_ind _ (by omega)]
    omega
  have hrowOld : ∀ x, isNode n m x → ∃ r0 : Nat, m.rowInd x = r0 ∧ r0 < rows.length := by
    intro x hx
    obtain ⟨r0, row, i, R, e1, e2, _⟩ := hs.node_row x hx
    exact ⟨r0, e1, (List.getElem?_eq_some_iff.1 e2).1⟩
  have hstatic : Static n (rows ++ [r]) m' := by
    refine ⟨hroot, hcols, by rw [F1]; have := hs.alloc_gt; omega, hrcount, hP'.head_par,
      hP'.head_ind, hP'.head_row, ?_, ?_, ?_, ?_⟩
    · intro x hx
      exact hP'.node_par x hx.1 (by rw [← F1]; exact hx.2)
    · intro x hx
      rcases (hnode x).1 hx with hold | ⟨j, hj, rfl⟩
      · obtain ⟨r0, row, i, R, e1, e2, e3, e4, e5⟩ := hs.node_row x hold
        have hr0 : r0 < rows.length := (List.getElem?_eq_some_iff.1 e2).1
        have hold' : ∀ z ∈ x :: R, isNode n m z := fun z hz => ((e4 z).1 hz).1
        refine ⟨r0, row, i, R, ?_, ?_, ?_, ?_, ?_⟩
        · rw [(F2 x hold.2).1]; exact e1
        · rw [List.getElem?_append_left hr0]; exact e2
        · exact e3.congr (fun z hz => (F2 z (hold' z hz).2).2.2.2)
            (fun z hz => (F2 z (hold' z hz).2).2.2.1)
        · intro y
          rw [e4 y, hnode y]
          constructor
          · rintro ⟨hy, hyr⟩
            exact ⟨Or.inl hy, by rw [(F2 y hy.2).1]; exact hyr⟩
          · rintro ⟨hy | ⟨j, hj, rfl⟩, hyr⟩
            · exact ⟨hy, by rw [← (F2 y hy.2).1]; exact hyr⟩
            · rw [(F3 j hj).1] at hyr
              have : rows.length = r0 := by exact_mod_cast hyr
              omega
        · rw [← e5]
          exact List.map_congr_left (fun z hz => hcolOld z (hold' z hz))
      · have hring := @new_row_ring m'.rightPtr m'.leftPtr m.alloc
          r.length (fun j hj => (F3 j hj).2.2.2) (fun j hj => (F3 j hj).2.2.1) j hj
        refine ⟨rows.length, r, j, _, (F3 j hj).1, List.getElem?_concat_length _ _, hring, ?_, ?_⟩
        · intro y
          rw [hnode y]
          have hmemy : y ∈ (m.alloc + j) ::
              (List.range' (m.alloc + j + 1) (r.length - j - 1) ++ List.range' m.alloc j) ↔
              m.alloc ≤ y ∧ y < m.alloc + r.length := by
            simp only [List.mem_cons, List.mem_append, List.mem_range'_1]
            omega
          rw [hmemy]
          constructor
          · rintro ⟨h1, h2⟩
            have hj' : y - m.alloc < r.length := by omega
            have hy : y = m.alloc + (y - m.alloc) := by omega
            refine ⟨Or.inr ⟨y - m.alloc, hj', hy⟩, ?_⟩
            rw [hy]
            exact (F3 _ hj').1
          · rintro ⟨hy | ⟨j', hj', rfl⟩, hyr⟩
            · obtain ⟨r0, e1, e2⟩ := hrowOld y hy
              rw [(F2 y hy.2).1, e1] at hyr
              have : r0 = rows.length := by exact_mod_cast hyr
              omega
            · omega
        · have e1 : (m.alloc + j) :: (List.range' (m.alloc + j + 1) (r.length - j - 1) ++
              List.range' m.alloc j) =
              List.range' (m.alloc + j) (r.length - j) ++ List.range' (m.alloc + 0) j := by
            have : r.length - j = (r.length - j - 1) + 1 := by omega
            rw [this, List.range'_succ]
            simp
          rw [e1, List.map_append, map_range'_getElem (colOf m') r m.alloc hcolNew j _ (by omega),
            map_range'_getElem (colOf m') r m.alloc hcolNew 0 _ (by omega),
            List.rotate_eq_drop_append_take (by omega)]
          simp
    · intro r0 row hr0 hne
      by_cases hlt : r0 < rows.length
      · rw [List.getElem?_append_left hlt] at hr0
        obtain ⟨x, hx, hxr⟩ := hs.row_node r0 row hr0 hne
        exact ⟨x, (hnode x).2 (Or.inl hx), by rw [(F2 x hx.2).1]; exact hxr⟩
      · have hlen : r0 < (rows ++ [r]).length := (List.getElem?_eq_some_iff.1 hr0).1
        simp at hlen
        have e : r0 = rows.length := by omega
        subst e
        rw [List.getElem?_concat_length] at hr0
        cases hr0
        have hk := List.length_pos.2 hne
        refine ⟨m.alloc + 0, (hnode _).2 (Or.inr ⟨0, hk, rfl⟩), (F3 0 hk).1⟩
    · intro row hrow
      rcases List.mem_append.1 hrow with hrow | hrow
      · exact hs.rows_ok row hrow
      · simp at hrow
        subst hrow
        exact ⟨hnd, hrg⟩
  refine ⟨hstatic, hP'.hring, fun c hc => by have := List.mem_range'_1.1 hc; omega, ?_⟩
  intro c hc1 hcn
  obtain ⟨L, hL, hlen, hmem⟩ := hP'.cols c hc1 hcn
  have hlive : ∀ x, Live n m' (List.range' 1 n) x := by
    intro x y hy _
    have := hstatic.node_par y hy
    exact List.mem_range'_1.2 (by omega)
  refine ⟨L, hL, hlen, ?_, ?_, fun _ x _ => hlive x⟩
  · intro x hx
    obtain ⟨h1, h2, h3⟩ := (hmem x).1 hx
    exact ⟨⟨h1, by rw [F1]; exact h2⟩, h3⟩
  · intro _ x hx hp _
    exact (hmem x).2 ⟨hx.1, by rw [← F1]; exact hx.2, hp⟩

end dlx


namespace dlx

theorem NewMatrix_inv (n : Nat) :
    Inv n [] (NewMatrix n) (List.range' 1 n) ∧ (NewMatrix n).solutionRows = [] := by
  have hP := NewMatrix_pre n
  obtain ⟨_, _, _, _, _, _, _, _, hroot, hcols, halloc, hrc, hsr⟩ := NewMatrix_fields n
  have hnode : ∀ x, ¬ isNode n (NewMatrix n) x := by
    intro x hx
    have := hx.2
    rw [halloc] at this
    have := hx.1
    omega
  refine ⟨⟨⟨hroot, hcols, by rw [halloc]; omega, by rw [hrc]; rfl, hP.head_par, hP.head_ind,
    hP.head_row, fun x hx => absurd hx (hnode x), fun x hx => absurd hx (hnode x), ?_, ?_⟩,
    hP.hring, fun c hc => by have := List.mem_range'_1.1 hc; omega, ?_⟩, hsr⟩
  · intro r row hr; simp at hr
  · intro row hrow; simp at hrow
  · intro c hc1 hcn
    obtain ⟨L, hL, hlen, hmem⟩ := hP.cols c hc1 hcn
    refine ⟨L, hL, hlen, ?_, ?_, ?_⟩
    · intro x hx
      obtain ⟨h1, h2, h3⟩ := (hmem x).1 hx
      exact ⟨⟨h1, by rw [halloc]; exact h2⟩, h3⟩
    · intro _ x hx; exact absurd hx (hnode x)
    · intro _ x hx
      obtain ⟨h1, h2, _⟩ := (hmem x).1 hx
      exact absurd ⟨h1, by rw [halloc]; exact h2⟩ (hnode x)

theorem build_fold {n : Nat} : ∀ (rows1 rows0 : List (List Int)) (m : matrix),
    Inv n rows0 m (List.range' 1 n) → WellFormed n rows1 →
    ∃ m', rows1.foldlM (fun m r => (AddRow m r).map Prod.fst) m = some m' ∧
      Inv n (rows0 ++ rows1) m' (List.range' 1 n) ∧ m'.solutionRows = m.solutionRows := by
  intro rows1
  induction rows1 with
  | nil => intro rows0 m h _; exact ⟨m, rfl, by simpa using h, rfl⟩
  | cons r rs ih =>
    intro rows0 m h hwf
    obtain ⟨_, hnd, hrg⟩ := hwf r (List.mem_cons_self _ _)
    obtain ⟨m1, h1, h2, h3⟩ := AddRow_spec h hnd hrg
    obtain ⟨m', g1, g2, g3⟩ := ih (rows0 ++ [r]) m1 h2 (fun r' hr' => hwf r' (List.mem_cons_of_mem _ hr'))
    refine ⟨m', ?_, by simpa using g2, g3.trans h3⟩
    rw [List.foldlM_cons, h1]
    exact g1

/-- A matrix built from well-formed rows exists and satisfies the invariant with
every column uncovered and an empty partial solution. -/
theorem build_spec {n : Nat} {rows : List (List Int)} (hwf : WellFormed n rows) :
    ∃ m, build n rows = some m ∧ Inv n rows m (List.range' 1 n) ∧ m.solutionRows = [] := by
  obtain ⟨h0, hs0⟩ := NewMatrix_inv n
  obtain ⟨m, h1, h2, h3⟩ := build_fold rows [] (NewMatrix n) h0 hwf
  exact ⟨m, h1, by simpa using h2, h3.trans hs0⟩

/-- The search on a freshly built matrix. -/
theorem search_built {n : Nat} {rows : List (List Int)} {m : matrix}
    (h : Inv n rows m (List.range' 1 n)) (hsr : m.solutionRows = []) (fuel : Nat)
    (hf : 2 * m.alloc ≤ fuel) :
    ∃ E Ts, search fuel m = some ⟨m, E, !E.isEmpty⟩ ∧
      Emits rows (colsOf (List.range' 1 n)) none Ts ∧ List.Forall₂ (Emitted n m) E Ts := by
  refine search_spec fuel m _ h ?_ ?_ ?_
  · intro z hz; rw [hsr] at hz; simp at hz
  · rw [hsr]; simp
  · have := h.static.alloc_gt
    simp only [List.length_range']
    omega

end dlx


namespace dlx

/-! ### More fuel never changes a result -/

theorem ptrLoop_mono {σ : Type} (stop : Nat) (next : σ → Nat → Nat)
    (body body1 : Nat → σ → Option σ)
    (hb : ∀ y s s1, body y s = some s1 → body1 y s = some s1) :
    ∀ (f f1 : Nat) (x : Nat) (s r : σ), f ≤ f1 → ptrLoop stop next body f x s = some r →
      ptrLoop stop next body1 f1 x s = some r := by
  intro f
  induction f with
  | zero => intro f1 x s r _ h; simp [ptrLoop] at h
  | succ f ih =>
    intro f1 x s r hle h
    cases f1 with
    | zero => omega
    | succ f1 =>
      rw [ptrLoop] at h ⊢
      by_cases hx : x = stop
      · rw [if_pos hx] at h ⊢; exact h
      · rw [if_neg hx] at h ⊢
        cases hbx : body x s with
        | none => rw [hbx] at h; simp at h
        | some s1 =>
          rw [hbx] at h
          rw [hb x s s1 hbx]
          exact ih f1 _ _ _ (by omega) h

theorem coverRow_mono {f f1 : Nat} (hle : f ≤ f1) {x : Nat} {m r : matrix}
    (h : coverRow f x m = some r) : coverRow f1 x m = some r :=
  ptrLoop_mono _ _ _ _ (fun _ _ _ e => e) f f1 _ _ _ hle h

theorem uncoverRow_mono {f f1 : Nat} (hle : f ≤ f1) {x : Nat} {m r : matrix}
    (h : uncoverRow f x m = some r) : uncoverRow f1 x m = some r :=
  ptrLoop_mono _ _ _ _ (fun _ _ _ e => e) f f1 _ _ _ hle h

theorem cover_mono {f f1 : Nat} (hle : f ≤ f1) {c : Nat} {m r : matrix}
    (h : cover f c m = some r) : cover f1 c m = some r :=
  ptrLoop_mono _ _ _ _ (fun _ _ _ e => coverRow_mono hle e) f f1 _ _ _ hle h

theorem uncover_mono {f f1 : Nat} (hle : f ≤ f1) {c : Nat} {m r : matrix}
    (h : uncover f c m = some r) : uncover f1 c m = some r := by
  rw [uncover] at h ⊢
  cases hl : ptrLoop c (fun m x => m.upPtr x) (fun upNode m => uncoverRow f upNode m) f
      (m.upPtr c) m with
  | none => rw [hl] at h; simp at h
  | some t =>
    rw [hl] at h
    rw [ptrLoop_mono _ _ _ _ (fun _ _ _ e => uncoverRow_mono hle e) f f1 _ _ _ hle hl]
    exact h

theorem coverRowColumns_mono {f f1 : Nat} (hle : f ≤ f1) {x : Nat} {m r : matrix}
    (h : coverRowColumns f x m = some r) : coverRowColumns f1 x m = some r :=
  ptrLoop_mono _ _ _ _ (fun _ _ _ e => cover_mono hle e) f f1 _ _ _ hle h

theorem uncoverRowColumns_mono {f f1 : Nat} (hle : f ≤ f1) {x : Nat} {m r : matrix}
    (h : uncoverRowColumns f x m = some r) : uncoverRowColumns f1 x m = some r :=
  ptrLoop_mono _ _ _ _ (fun _ _ _ e => uncover_mono hle e) f f1 _ _ _ hle h

theorem pickColumn_mono {f f1 : Nat} (hle : f ≤ f1) {m : matrix} {r : Nat}
    (h : pickColumn f m = some r) : pickColumn f1 m = some r :=
  ptrLoop_mono _ _ _ _ (fun _ _ _ e => e) f f1 _ _ _ hle h

theorem getSolutionRow_mono {f f1 : Nat} (hle : f ≤ f1) {m : matrix} {x : Nat}
    {s r : Solution} (h : getSolutionRow f m x s = some r) :
    getSolutionRow f1 m x s = some r :=
  ptrLoop_mono _ _ _ _ (fun _ _ _ e => e) f f1 _ _ _ hle h

theorem getSolution_mono {f f1 : Nat} (hle : f ≤ f1) {m : matrix} {r : Solution}
    (h : getSolution f m = some r) : getSolution f1 m = some r := by
  rw [getSolution] at h ⊢
  generalize m.solutionRows = sel at h ⊢
  generalize ([] : Solution) = acc at h ⊢
  induction sel generalizing acc with
  | nil => exact h
  | cons x xs ih =>
    rw [List.foldlM_cons] at h ⊢
    cases hx : getSolutionRow f m x acc with
    | none => rw [hx] at h; simp at h
    | some s1 =>
      rw [hx] at h
      rw [getSolutionRow_mono hle hx]
      exact ih _ h

theorem searchRow_mono {f f1 : Nat} (hle : f ≤ f1) {child child1 : matrix → Option SearchState}
    (hc : ∀ m r, child m = some r → child1 m = some r) {x : Nat} {st r : SearchState}
    (h : searchRow f child x st = some r) : searchRow f1 child1 x st = some r := by
  rw [searchRow] at h ⊢
  try simp only at h ⊢
  cases h1 : coverRowColumns f x { st.m with solutionRows := st.m.solutionRows ++ [x] } with
  | none => rw [h1] at h; simp at h
  | some m1 =>
    rw [h1] at h
    rw [coverRowColumns_mono hle h1]
    try simp only at h ⊢
    cases h2 : child m1 with
    | none => rw [h2] at h; simp at h
    | some ch =>
      rw [h2] at h
      rw [hc _ _ h2]
      try simp only at h ⊢
      cases h3 : uncoverRowColumns f x ch.m with
      | none => rw [h3] at h; simp at h
      | some m2 =>
        rw [h3] at h
        rw [uncoverRowColumns_mono hle h3]
        exact h

theorem search_mono : ∀ (f f1 : Nat) (m : matrix) (r : SearchState), f ≤ f1 →
    search f m = some r → search f1 m = some r := by
  intro f
  induction f with
  | zero => intro f1 m r _ h; simp [search] at h
  | succ f ih =>
    intro f1 m r hle h
    cases f1 with
    | zero => omega
    | succ f1 =>
      have hle' : f ≤ f1 := by omega
      rw [search] at h ⊢
      try simp only at h ⊢
      by_cases hroot : m.rightPtr m.root = m.root
      · rw [if_pos hroot] at h ⊢
        cases hg : getSolution f m with
        | none => rw [hg] at h; simp at h
        | some s =>
          rw [hg] at h
          rw [getSolution_mono hle' hg]
          exact h
      · rw [if_neg hroot] at h ⊢
        cases hp : pickColumn f m with
        | none => rw [hp] at h; simp at h
        | some c =>
          rw [hp] at h
          rw [pickColumn_mono hle' hp]
          try simp only at h ⊢
          cases hcv : cover f (m.parentColumnPtr c) m with
          | none => rw [hcv] at h; simp at h
          | some m1 =>
            rw [hcv] at h
            rw [cover_mono hle' hcv]
            try simp only at h ⊢
            cases hl : ptrLoop c (fun (st : SearchState) x => st.m.downPtr x)
                (searchRow f (search f)) f (m1.downPtr c) ⟨m1, [], false⟩ with
            | none => rw [hl] at h; simp at h
            | some st =>
              rw [hl] at h
              rw [ptrLoop_mono _ _ _ _
                (fun _ _ _ e => searchRow_mono hle' (fun m r e' => ih f1 m r hle' e') e)
                f f1 _ _ _ hle' hl]
              try simp only at h ⊢
              cases hu : uncover f (st.m.parentColumnPtr c) st.m with
              | none => rw [hu] at h; simp at h
              | some m2 =>
                rw [hu] at h
                rw [uncover_mono hle' hu]
                exact h

theorem Solve_mono {f f1 : Nat} (hle : f ≤ f1) {m : matrix} {r : SolveResult}
    (h : Solve f m = some r) : Solve f1 m = some r := by
  rw [Solve] at h ⊢
  cases hs : search f m with
  | none => rw [hs] at h; simp at h
  | some st =>
    rw [hs] at h
    rw [search_mono f f1 m st hle hs]
    exact h

theorem SolveComplete_mono {f f1 : Nat} (hle : f ≤ f1) {m : matrix} {r : List Event × matrix}
    (h : SolveComplete f m = some r) : SolveComplete f1 m = some r := by
  rw [SolveComplete] at h ⊢
  cases hs : search f m with
  | none => rw [hs] at h; simp at h
  | some st =>
    rw [hs] at h
    rw [search_mono f f1 m st hle hs]
    exact h

end dlx


namespace dlx

theorem mem_colsOf_all {n : Nat} {j : Int} :
    j ∈ colsOf (List.range' 1 n) ↔ 0 ≤ j ∧ j < (n : Int) := by
  rw [mem_colsOf]
  constructor
  · rintro ⟨c, hc, rfl⟩
    have := List.mem_range'_1.1 hc
    omega
  · rintro ⟨h1, h2⟩
    exact ⟨(j + 1).toNat, List.mem_range'_1.2 (by omega), by omega⟩

theorem rowAt_mem {rows : List (List Int)} {r : Nat} (h : r < rows.length) :
    rowAt rows r ∈ rows := by
  simp [rowAt, List.getD, List.getElem?_eq_getElem h]

theorem rowAt_nil {rows : List (List Int)} {r : Nat} (h : rows.length ≤ r) :
    rowAt rows r = [] := by
  simp [rowAt, List.getD, List.getElem?_eq_none h]

/-- On the full column set, the exact covers of the search are the ones found
by brute-force enumeration. -/
theorem cover_iff_bruteForce {n : Nat} {rows : List (List Int)} (hwf : WellFormed n rows)
    (T : Finset Nat) : Cover rows (colsOf (List.range' 1 n)) T ↔ T ∈ bruteForce n rows := by
  simp only [bruteForce, Finset.mem_filter, Finset.mem_powerset]
  constructor
  · rintro ⟨h1, h2⟩
    refine ⟨fun r hr => Finset.mem_range.2 (h1 r hr).1, ?_⟩
    intro j hj
    obtain ⟨r, ⟨hr, hjr⟩, huniq⟩ := h2 (j : Int) (mem_colsOf_all.2 ⟨by omega, by
      have := Finset.mem_range.1 hj; omega⟩)
    rw [Finset.card_eq_one]
    refine ⟨r, ?_⟩
    ext r'
    simp only [Finset.mem_filter, Finset.mem_singleton]
    constructor
    · intro hr'; exact huniq r' hr'
    · rintro rfl; exact ⟨hr, hjr⟩
  · rintro ⟨h1, h2⟩
    refine ⟨?_, ?_⟩
    · intro r hr
      have hlt : r < rows.length := Finset.mem_range.1 (h1 hr)
      refine ⟨hlt, fun j hj => mem_colsOf_all.2 ((hwf _ (rowAt_mem hlt)).2.2 j hj)⟩
    · intro j hj
      obtain ⟨hj0, hjn⟩ := mem_colsOf_all.1 hj
      have hjj : ((j.toNat : Nat) : Int) = j := by omega
      have := h2 j.toNat (Finset.mem_range.2 (by omega))
      rw [hjj, Finset.card_eq_one] at this
      obtain ⟨r, hr⟩ := this
      have hmem : ∀ r', r' ∈ T ∧ j ∈ rowAt rows r' ↔ r' = r := by
        intro r'
        have := Finset.ext_iff.1 hr r'
        simpa using this
      exact ⟨r, (hmem r).2 rfl, fun r' hr' => (hmem r').1 hr'⟩

theorem solutionsOf_events (E : List (Solution × matrix)) (b : Bool) :
    solutionsOf (E.map (fun e => Event.solution e.1) ++ [Event.finished b]) = E.map Prod.fst := by
  induction E with
  | nil => rfl
  | cons e es ih =>
    simp only [solutionsOf, List.map_cons, List.cons_append, List.filterMap_cons] at ih ⊢
    rw [ih]

/-- The keys of an emitted map are the selected row indices. -/
theorem Static.row_value {n : Nat} {rows : List (List Int)} {m : matrix} (h : Static n rows m)
    {x : Nat} (hx : isNode n m x) :
    ∃ i, (rowCells m x).map (colOf m) = (rowAt rows (m.rowInd x).toNat).rotate i := by
  obtain ⟨r, row, i, R, h1, h2, h3, h4, h5⟩ := h.node_row x hx
  refine ⟨i, ?_⟩
  rw [rowCells_eq h3 hx (fun y hy => ((h4 y).1 (List.mem_cons_of_mem _ hy)).1), h5, h1,
    Int.toNat_natCast, rowAt_of_getElem? h2]

theorem Emitted.keys {n : Nat} {rows : List (List Int)} {m : matrix} (hs : Static n rows m)
    (hsr : m.solutionRows = []) {e : Solution × matrix} {t : List Nat} (h : Emitted n m e t) :
    mapKeys e.1 = t.map (fun (r : Nat) => (r : Int)) ∧ e.2.rightPtr e.2.root = e.2.root ∧
      ∀ kv ∈ e.1, ∃ i, kv.2 = (rowAt rows kv.1.toNat).rotate i := by
  obtain ⟨h1, sel, _, h3, h4, h5⟩ := h
  refine ⟨?_, h1, ?_⟩
  · rw [h5, hsr, List.nil_append, mapKeys_solutionOf, ← h3, List.map_map]
    apply List.map_congr_left
    intro x hx
    exact (hs.row_view (h4 x hx)).1
  · intro kv hkv
    rw [h5, hsr, List.nil_append, solutionOf] at hkv
    obtain ⟨x, hx, rfl⟩ := List.mem_map.1 hkv
    exact hs.row_value (h4 x hx)

/-- Everything the search on a freshly built matrix does, in one statement. -/
theorem search_summary {n : Nat} {rows : List (List Int)} (hwf : WellFormed n rows) :
    ∃ m, build n rows = some m ∧ Inv n rows m (List.range' 1 n) ∧ m.solutionRows = [] ∧
      ∀ fuel, 2 * m.alloc ≤ fuel → ∃ E Ts, search fuel m = some ⟨m, E, !E.isEmpty⟩ ∧
        List.Forall₂ (fun (e : Solution × matrix) (t : List Nat) => mapKeys e.1 = t.map (fun (r : Nat) => (r : Int)) ∧
          e.2.rightPtr e.2.root = e.2.root ∧
          ∀ kv ∈ e.1, ∃ i, kv.2 = (rowAt rows kv.1.toNat).rotate i) E Ts ∧
        (∀ t ∈ Ts, t.Nodup ∧ t.toFinset ∈ bruteForce n rows) ∧
        (∀ T ∈ bruteForce n rows, ∃ t ∈ Ts, t.toFinset = T) ∧
        Ts.Pairwise (fun t t' => t.toFinset ≠ t'.toFinset) := by
  obtain ⟨m, hb, hI, hsr⟩ := build_spec hwf
  refine ⟨m, hb, hI, hsr, ?_⟩
  intro fuel hf
  obtain ⟨E, Ts, h1, h2, h3⟩ := search_built hI hsr fuel hf
  obtain ⟨k1, k2, k3⟩ := (Emits.spec (fun row hrow => (hwf row hrow).1) h2).1 rfl
  refine ⟨E, Ts, h1, h3.imp (fun e t h => h.keys hI.static hsr), ?_, ?_, k3⟩
  · intro t ht
    exact ⟨(k1 t ht).1, (cover_iff_bruteForce hwf _).1 (k1 t ht).2⟩
  · intro T hT
    exact k2 T ((cover_iff_bruteForce hwf _).2 hT)

end dlx


namespace dlx

theorem ringList_stop (nxt : Nat → Nat) (stop fuel : Nat) : ringList nxt stop fuel stop = [] := by
  cases fuel <;> simp [ringList]

theorem forall₂_map_eq {α β γ : Type} {f : α → γ} {g : β → γ} {l1 : List α} {l2 : List β}
    (h : List.Forall₂ (fun a b => f a = g b) l1 l2) : l1.map f = l2.map g := by
  induction h with
  | nil => rfl
  | cons hab _ ih => simp [hab, ih]

theorem toFinset_map_cast (t : List Nat) :
    (t.map (fun (r : Nat) => (r : Int))).toFinset = t.toFinset.image (fun (r : Nat) => (r : Int)) := by
  ext k; simp

theorem cast_injective : Function.Injective (fun (r : Nat) => (r : Int)) :=
  fun a b h => by simpa using h

/-- A map whose keys are the rows of a brute-force exact cover is an exact
cover map. -/
theorem exactCoverMap_of {n : Nat} {rows : List (List Int)} {sol : Solution} {t : List Nat}
    (hk : mapKeys sol = t.map (fun (r : Nat) => (r : Int))) (hnd : t.Nodup)
    (hbf : t.toFinset ∈ bruteForce n rows)
    (hv : ∀ kv ∈ sol, ∃ i, kv.2 = (rowAt rows kv.1.toNat).rotate i) :
    IsExactCoverMap n rows sol := by
  simp only [bruteForce, Finset.mem_filter, Finset.mem_powerset] at hbf
  obtain ⟨hsub, hcov⟩ := hbf
  refine ⟨?_, ?_, hv, ?_⟩
  · rw [hk]; exact hnd.map cast_injective
  · intro k hkm
    rw [hk] at hkm
    obtain ⟨r, hr, rfl⟩ := List.mem_map.1 hkm
    have := Finset.mem_range.1 (hsub (List.mem_toFinset.2 hr))
    constructor
    · exact Int.natCast_nonneg r
    · exact_mod_cast this
  · intro j hj
    have := hcov j (Finset.mem_range.2 hj)
    rw [Finset.card_eq_one] at this
    obtain ⟨r, hr⟩ := this
    have hmem : ∀ r', r' ∈ t ∧ (j : Int) ∈ rowAt rows r' ↔ r' = r := by
      intro r'
      have := Finset.ext_iff.1 hr r'
      simpa using this
    refine ⟨(r : Int), ⟨?_, ?_⟩, ?_⟩
    · rw [hk]; exact List.mem_map.2 ⟨r, ((hmem r).2 rfl).1, rfl⟩
    · simpa using ((hmem r).2 rfl).2
    · rintro k ⟨hk1, hk2⟩
      rw [hk] at hk1
      obtain ⟨r', hr', rfl⟩ := List.mem_map.1 hk1
      have : r' = r := (hmem r').1 ⟨hr', by simpa using hk2⟩
      rw [this]

theorem SolveComplete_of_search {fuel : Nat} {m mf : matrix} {E : List (Solution × matrix)}
    {b : Bool} (h : search fuel m = some ⟨mf, E, b⟩) :
    SolveComplete fuel m =
      some ((E.map Prod.fst).map Event.solution ++ [Event.finished b], mf) := by
  simp [SolveComplete, h, List.map_map, Function.comp_def]

theorem solutionsOf_map (sols : List Solution) (b : Bool) :
    solutionsOf (sols.map Event.solution ++ [Event.finished b]) = sols := by
  induction sols with
  | nil => rfl
  | cons e es ih =>
    simp only [solutionsOf, List.map_cons, List.cons_append, List.filterMap_cons] at ih ⊢
    rw [ih]

theorem Solve_of_search_nil {fuel : Nat} {m mf : matrix}
    (h : search fuel m = some ⟨mf, [], false⟩) : Solve fuel m = some ⟨[], false, mf⟩ := by
  simp [Solve, h]

theorem Solve_of_search_cons {fuel : Nat} {m mf : matrix} {e : Solution × matrix}
    {es : List (Solution × matrix)} {b : Bool} (h : search fuel m = some ⟨mf, e :: es, b⟩) :
    Solve fuel m = some ⟨e.1, true, restMatrix mf es⟩ := by
  simp [Solve, h]

/-- No exact cover exists exactly when the search emits nothing. -/
theorem emits_nil_iff {n : Nat} {rows : List (List Int)} {Ts : List (List Nat)}
    (h1 : ∀ t ∈ Ts, t.Nodup ∧ t.toFinset ∈ bruteForce n rows)
    (h2 : ∀ T ∈ bruteForce n rows, ∃ t ∈ Ts, t.toFinset = T) :
    Ts = [] ↔ ¬ ∃ S, S ⊆ Finset.range rows.length ∧ isExactCover n rows S := by
  constructor
  · rintro rfl ⟨S, hS, hc⟩
    obtain ⟨t, ht, _⟩ := h2 S (by simp [bruteForce, hS, hc])
    simp at ht
  · intro hno
    cases Ts with
    | nil => rfl
    | cons t ts =>
      exfalso
      have := (h1 t (by simp)).2
      simp only [bruteForce, Finset.mem_filter, Finset.mem_powerset] at this
      exact hno ⟨_, this.1, this.2⟩

theorem forall₂_mem_left {α β : Type} {R : α → β → Prop} {l1 : List α} {l2 : List β}
    (h : List.Forall₂ R l1 l2) {a : α} (ha : a ∈ l1) : ∃ b, b ∈ l2 ∧ R a b := by
  induction h with
  | nil => simp at ha
  | cons hab _ ih =>
    rcases List.mem_cons.1 ha with rfl | ha
    · exact ⟨_, List.mem_cons_self _ _, hab⟩
    · obtain ⟨b, hb, hr⟩ := ih ha
      exact ⟨b, List.mem_cons_of_mem _ hb, hr⟩

/-- The search emits as many row selections as there are exact covers. -/
theorem emits_length {n : Nat} {rows : List (List Int)} {Ts : List (List Nat)}
    (h1 : ∀ t ∈ Ts, t.Nodup ∧ t.toFinset ∈ bruteForce n rows)
    (h2 : ∀ T ∈ bruteForce n rows, ∃ t ∈ Ts, t.toFinset = T)
    (h3 : Ts.Pairwise (fun t t' => t.toFinset ≠ t'.toFinset)) :
    Ts.length = (bruteForce n rows).card := by
  have hnd : (Ts.map List.toFinset).Nodup := by
    rw [List.Nodup, List.pairwise_map]
    exact h3
  have hset : (Ts.map List.toFinset).toFinset = bruteForce n rows := by
    ext T
    simp only [List.mem_toFinset, List.mem_map]
    constructor
    · rintro ⟨t, ht, rfl⟩
      exact (h1 t ht).2
    · intro hT
      obtain ⟨t, ht, rfl⟩ := h2 T hT
      exact ⟨t, ht, rfl⟩
  rw [← hset, List.toFinset_card_of_nodup hnd, List.length_map]

/-- Without columns there is no well-formed row. -/
theorem wellFormed_zero {rows : List (List Int)} (h : WellFormed 0 rows) : rows = [] := by
  cases rows with
  | nil => rfl
  | cons r rs =>
    obtain ⟨h1, _, h3⟩ := h r (List.mem_cons_self _ _)
    cases r with
    | nil => exact absurd rfl h1
    | cons c cs =>
      have := h3 c (List.mem_cons_self _ _)
      simp only [Nat.cast_zero] at this
      omega

/-- Without columns the empty selection is the only exact cover. -/
theorem bruteForce_card_zero {rows : List (List Int)} (h : WellFormed 0 rows) :
    (bruteForce 0 rows).card ≤ 1 := by
  rw [wellFormed_zero h]
  refine le_trans (Finset.card_le_card (Finset.filter_subset _ _)) ?_
  simp

end dlx


namespace dlx

/-- C1 (soundness).  For every matrix built by `NewMatrix n` and `AddRow` calls
with non-empty, duplicate-free, in-range index sequences, the build succeeds
and, with enough fuel, both `SolveComplete` and `Solve` return; every solution
delivered by `SolveComplete`, and the one returned by `Solve` with
`success = true`, is an exact cover: its keys are distinct indices of added
rows, the column list stored under a key is the index sequence of that row read
around from one of its entries, and every column index `0 .. n-1` lies in the
index sequence of exactly one selected row. -/
theorem soundness (n : Nat) (rows : List (List Int)) (hwf : WellFormed n rows) :
    ∃ m, build n rows = some m ∧ ∀ fuel, 2 * m.alloc ≤ fuel →
      ∃ evs mf res, SolveComplete fuel m = some (evs, mf) ∧ Solve fuel m = some res ∧
        (∀ sol ∈ solutionsOf evs, IsExactCoverMap n rows sol) ∧
        (res.success = true → IsExactCoverMap n rows res.solution) := by
  obtain ⟨m, hb, _, _, hall⟩ := search_summary hwf
  refine ⟨m, hb, fun fuel hf => ?_⟩
  obtain ⟨E, Ts, h1, h2, h3, _, _⟩ := hall fuel hf
  have hsound : ∀ e ∈ E, IsExactCoverMap n rows e.1 := by
    intro e he
    obtain ⟨t, ht, hk, _, hv⟩ := forall₂_mem_left h2 he
    exact exactCoverMap_of hk (h3 t ht).1 (h3 t ht).2 hv
  cases E with
  | nil =>
    refine ⟨_, _, _, SolveComplete_of_search h1, Solve_of_search_nil h1, ?_, ?_⟩
    · intro sol hsol; simp [solutionsOf] at hsol
    · intro hh; simp at hh
  | cons e es =>
    refine ⟨_, _, _, SolveComplete_of_search h1, Solve_of_search_cons h1, ?_, ?_⟩
    · intro sol hsol
      rw [solutionsOf_map] at hsol
      obtain ⟨e', he', rfl⟩ := List.mem_map.1 hsol
      exact hsound e' he'
    · intro _
      exact hsound e (List.mem_cons_self _ _)

/-- C2 (completeness).  For every well-formed matrix, `SolveComplete` run to
exhaustion delivers every exact cover exactly once: the key sets of the
delivered maps are pairwise different, each map has distinct keys, and the set
of the key sets is the set found by brute-force enumeration over all subsets of
the added rows. -/
theorem completeness (n : Nat) (rows : List (List Int)) (hwf : WellFormed n rows) :
    ∃ m, build n rows = some m ∧ ∀ fuel, 2 * m.alloc ≤ fuel →
      ∃ evs mf, SolveComplete fuel m = some (evs, mf) ∧
        (∀ sol ∈ solutionsOf evs, (mapKeys sol).Nodup) ∧
        ((solutionsOf evs).map keySet).Nodup ∧
        ((solutionsOf evs).map keySet).toFinset =
          (bruteForce n rows).image (fun S => S.image (fun (r : Nat) => (r : Int))) := by
  obtain ⟨m, hb, _, _, hall⟩ := search_summary hwf
  refine ⟨m, hb, fun fuel hf => ?_⟩
  obtain ⟨E, Ts, h1, h2, h3, h4, h5⟩ := hall fuel hf
  have hkeys : (E.map Prod.fst).map keySet =
      Ts.map (fun t => t.toFinset.image (fun (r : Nat) => (r : Int))) := by
    rw [List.map_map]
    refine forall₂_map_eq (h2.imp ?_)
    intro e t he
    simp only [Function.comp, keySet, he.1, toFinset_map_cast]
  refine ⟨_, _, SolveComplete_of_search h1, ?_, ?_, ?_⟩
  · intro sol hsol
    rw [solutionsOf_map] at hsol
    obtain ⟨e, he, rfl⟩ := List.mem_map.1 hsol
    obtain ⟨t, ht, hk, _⟩ := forall₂_mem_left h2 he
    rw [hk]
    exact (h3 t ht).1.map cast_injective
  · rw [solutionsOf_map, hkeys, List.Nodup, List.pairwise_map]
    refine h5.imp ?_
    intro t t' hne heq
    exact hne (Finset.image_injective cast_injective heq)
  · rw [solutionsOf_map, hkeys]
    ext S
    simp only [List.mem_toFinset, List.mem_map, Finset.mem_image]
    constructor
    · rintro ⟨t, ht, rfl⟩
      exact ⟨t.toFinset, (h3 t ht).2, rfl⟩
    · rintro ⟨T, hT, rfl⟩
      obtain ⟨t, ht, rfl⟩ := h4 T hT
      exact ⟨t, ht, rfl⟩

/-- C3 (no-solution detection).  For every well-formed matrix `Solve` returns,
with `success = false` exactly when no subset of the added rows is an exact
cover of the columns `0 .. n-1`; and whenever `success = false` the returned
map is empty. -/
theorem solve_no_solution (n : Nat) (rows : List (List Int)) (hwf : WellFormed n rows) :
    ∃ m, build n rows = some m ∧ ∀ fuel, 2 * m.alloc ≤ fuel →
      ∃ res, Solve fuel m = some res ∧
        (res.success = false ↔
          ¬ ∃ S, S ⊆ Finset.range rows.length ∧ isExactCover n rows S) ∧
        (res.success = false → res.solution = []) := by
  obtain ⟨m, hb, _, _, hall⟩ := search_summary hwf
  refine ⟨m, hb, fun fuel hf => ?_⟩
  obtain ⟨E, Ts, h1, h2, h3, h4, _⟩ := hall fuel hf
  have hnil := emits_nil_iff h3 h4
  cases E with
  | nil =>
    cases h2
    exact ⟨_, Solve_of_search_nil h1, ⟨fun _ => hnil.1 rfl, fun _ => rfl⟩, fun _ => rfl⟩
  | cons e es =>
    cases h2 with
    | cons hab htl =>
      refine ⟨_, Solve_of_search_cons h1, ⟨fun hh => by simp at hh, fun hno => ?_⟩,
        fun hh => by simp at hh⟩
      have := hnil.2 hno
      simp at this

/-- C4 (first-solution mode agrees with all-solutions mode).  For every
well-formed matrix both calls return, and when some exact cover exists `Solve`
returns `success = true` with the first map that `SolveComplete` delivers. -/
theorem solve_first_of_complete (n : Nat) (rows : List (List Int)) (hwf : WellFormed n rows) :
    ∃ m, build n rows = some m ∧ ∀ fuel, 2 * m.alloc ≤ fuel →
      ∃ res evs mf, Solve fuel m = some res ∧ SolveComplete fuel m = some (evs, mf) ∧
        ((∃ S, S ⊆ Finset.range rows.length ∧ isExactCover n rows S) →
          res.success = true ∧ (solutionsOf evs).head? = some res.solution) := by
  obtain ⟨m, hb, _, _, hall⟩ := search_summary hwf
  refine ⟨m, hb, fun fuel hf => ?_⟩
  obtain ⟨E, Ts, h1, h2, h3, h4, _⟩ := hall fuel hf
  have hnil := emits_nil_iff h3 h4
  cases E with
  | nil =>
    cases h2
    exact ⟨_, _, _, Solve_of_search_nil h1, SolveComplete_of_search h1,
      fun hex => absurd hex (hnil.1 rfl)⟩
  | cons e es =>
    refine ⟨_, _, _, Solve_of_search_cons h1, SolveComplete_of_search h1, fun _ => ⟨rfl, ?_⟩⟩
    rw [solutionsOf_map]
    rfl

/-- C5 (terminal flag of `SolveComplete`).  For every well-formed matrix the
events delivered are the solutions followed by one final boolean, which is
`true` exactly when at least one solution was delivered; a matrix without an
exact cover yields no solution and `false`. -/
theorem solveComplete_flag (n : Nat) (rows : List (List Int)) (hwf : WellFormed n rows) :
    ∃ m, build n rows = some m ∧ ∀ fuel, 2 * m.alloc ≤ fuel →
      ∃ sols b mf,
        SolveComplete fuel m = some (sols.map Event.solution ++ [Event.finished b], mf) ∧
        (b = true ↔ sols ≠ []) ∧
        ((¬ ∃ S, S ⊆ Finset.range rows.length ∧ isExactCover n rows S) →
          sols = [] ∧ b = false) := by
  obtain ⟨m, hb, _, _, hall⟩ := search_summary hwf
  refine ⟨m, hb, fun fuel hf => ?_⟩
  obtain ⟨E, Ts, h1, h2, h3, h4, _⟩ := hall fuel hf
  have hnil := emits_nil_iff h3 h4
  refine ⟨_, _, _, SolveComplete_of_search h1, ?_, ?_⟩
  · cases E <;> simp
  · intro hno
    have hTs := hnil.2 hno
    subst hTs
    cases h2
    exact ⟨rfl, rfl⟩

/-- C6 (structure restored after an exhaustive search).  For every well-formed
matrix, the matrix that `SolveComplete` leaves behind once the final boolean is
delivered is the matrix it started from: the header ring, every link, every
column length and the (empty) partial-solution stack are unchanged. -/
theorem solveComplete_restores (n : Nat) (rows : List (List Int)) (hwf : WellFormed n rows) :
    ∃ m, build n rows = some m ∧ m.solutionRows = [] ∧ ∀ fuel, 2 * m.alloc ≤ fuel →
      ∃ evs, SolveComplete fuel m = some (evs, m) := by
  obtain ⟨m, hb, _, hsr, hall⟩ := search_summary hwf
  refine ⟨m, hb, hsr, fun fuel hf => ?_⟩
  obtain ⟨E, Ts, h1, _⟩ := hall fuel hf
  exact ⟨_, SolveComplete_of_search h1⟩

/-- C7, as amended.  For every well-formed matrix `Solve` returns.  When it
returns `success = false` the matrix is the one it started from.  When it
returns `success = true` the search it started is not stopped and runs on until
it blocks for good; the matrix is then the one `Solve` started from if the
solution returned is the only exact cover, whereas with more than one exact
cover the search rests in the send of its second solution: no column is in the
header ring, which held all `n` columns before the call, and the matrix is not
the one `Solve` started from. -/
theorem solve_state (n : Nat) (rows : List (List Int)) (hwf : WellFormed n rows) :
    ∃ m, build n rows = some m ∧ ∀ fuel, 2 * m.alloc ≤ fuel →
      ∃ res, Solve fuel m = some res ∧
        (res.success = false → res.m = m) ∧
        (res.success = true → (bruteForce n rows).card = 1 → res.m = m) ∧
        (res.success = true → 1 < (bruteForce n rows).card →
          headerCells res.m = [] ∧ headerCells m = List.range' 1 n ∧ res.m ≠ m) := by
  obtain ⟨m, hb, hI, _, hall⟩ := search_summary hwf
  refine ⟨m, hb, fun fuel hf => ?_⟩
  obtain ⟨E, Ts, h1, h2, h3, h4, h5⟩ := hall fuel hf
  have hlen : E.length = (bruteForce n rows).card :=
    h2.length_eq.trans (emits_length h3 h4 h5)
  have hHm : headerCells m = List.range' 1 n := by
    have hlt : (List.range' 1 n).length < m.alloc := by
      have := hI.static.alloc_gt
      simp only [List.length_range']
      omega
    show ringList m.rightPtr m.root m.alloc (m.rightPtr m.root) = _
    rw [hI.static.root_eq]
    exact hI.hring.ringList_eq hlt
  cases E with
  | nil =>
    exact ⟨_, Solve_of_search_nil h1, fun _ => rfl, fun hh => by simp at hh,
      fun hh => by simp at hh⟩
  | cons e es =>
    cases es with
    | nil =>
      refine ⟨_, Solve_of_search_cons h1, fun hh => by simp at hh, fun _ _ => rfl,
        fun _ hc => ?_⟩
      simp only [List.length_singleton] at hlen
      omega
    | cons e2 es2 =>
      obtain ⟨s2, m2⟩ := e2
      have hm2 : headerCells m2 = [] := by
        obtain ⟨t, _, _, hroot, _⟩ :=
          forall₂_mem_left h2 (List.mem_cons_of_mem e (List.mem_cons_self (s2, m2) es2))
        show ringList m2.rightPtr m2.root m2.alloc (m2.rightPtr m2.root) = []
        simp only at hroot
        rw [hroot]
        exact ringList_stop _ _ _
      refine ⟨_, Solve_of_search_cons h1, fun hh => by simp at hh, fun _ hc => ?_,
        fun _ hc => ⟨hm2, hHm, ?_⟩⟩
      · simp only [List.length_cons] at hlen
        omega
      · intro heq
        have heq' : m2 = m := heq
        rw [heq', hHm] at hm2
        have hn : n = 0 := by
          cases n with
          | zero => rfl
          | succ k => simp [List.range'] at hm2
        subst hn
        have := bruteForce_card_zero hwf
        omega

end dlx


namespace dlx

/-! ### `AddRow` on bad input, and the examples of the test file -/

/-- The loop of `AddRow` panics as soon as it meets an index below `-1` or not
below the column count. -/
theorem addRowLoop_panics {n k row : Nat} : ∀ (cs : List Int) (i : Nat) (m : matrix),
    m.columns = n + 1 → (∃ c ∈ cs, c < -1 ∨ (n : Int) ≤ c) → addRowLoop k row i cs m = none := by
  intro cs
  induction cs with
  | nil => intro i m _ h; simp at h
  | cons c cs ih =>
    intro i m hm h
    rw [addRowLoop_cons]
    by_cases hc : 0 ≤ c + 1 ∧ c + 1 < (m.columns : Int)
    · rw [if_pos hc]
      refine ih _ _ ((addRowStep_fields m _ _ _ _).2.2.2.2.2.2.2.2.2.1.trans hm) ?_
      obtain ⟨c', hc', hbad⟩ := h
      rcases List.mem_cons.1 hc' with rfl | hc'
      · rw [hm] at hc
        push_cast at hc
        omega
      · exact ⟨c', hc', hbad⟩
    · rw [if_neg hc]

/-- C10, as amended.  On a matrix with `n` columns, `AddRow` with an index
below `-1` or not below `n` panics (it returns no row index), whereas an empty
index sequence is accepted: `AddRow` returns the next row index. -/
theorem addRow_contract (n : Nat) (m : matrix) (hm : m.columns = n + 1) :
    (∀ r : List Int, (∃ c ∈ r, c < -1 ∨ (n : Int) ≤ c) → AddRow m r = none) ∧
    (AddRow m []).map Prod.snd = some m.rowCount := by
  constructor
  · intro r hr
    have := @addRowLoop_panics n r.length m.alloc r 0
      { m with alloc := m.alloc + r.length } hm hr
    simp only [AddRow, this]
  · simp [AddRow, addRowLoop]

/-- Witness of `addRow_contract` on `NewMatrix 3`. -/
theorem addRow_contract_witness :
    (NewMatrix 3).columns = 3 + 1 ∧
    ((∀ r : List Int, (∃ c ∈ r, c < -1 ∨ ((3 : Nat) : Int) ≤ c) → AddRow (NewMatrix 3) r = none) ∧
      (AddRow (NewMatrix 3) []).map Prod.snd = some (NewMatrix 3).rowCount) :=
  ⟨by decide, addRow_contract 3 (NewMatrix 3) (by decide)⟩

/-- C10 fails as stated: on `NewMatrix 3`, `AddRow` with an empty index sequence
and `AddRow` with the index `-1` both return the row index `0` instead of
failing. -/
theorem addRow_accepts_empty_and_minus_one :
    (AddRow (NewMatrix 3) []).map Prod.snd = some 0 ∧
    (AddRow (NewMatrix 3) [-1]).map Prod.snd = some 0 := by
  decide

set_option maxRecDepth 100000 in
/-- C7 fails as stated: on the example with two solutions `Solve` returns
`success = true`, and the header ring, which held the columns at the addresses
`1 .. 4` before the call, is empty both at the two sends of the search (the
first of which hands `Solve` the map it returns) and in the matrix in which the
search comes to rest after the return, where the partial solution holds
nodes of the rows 2 and 3. -/
theorem solve_leaves_header_ring_empty :
    ∃ m res st, build 4 multiRows = some m ∧ Solve 26 m = some res ∧
      search 26 m = some st ∧ res.success = true ∧
      st.emitted.map (fun e => headerCells e.2) = [[], []] ∧
      headerCells res.m = [] ∧ headerCells m = [1, 2, 3, 4] ∧
      res.m.solutionRows.map res.m.rowInd = [2, 3] ∧
      headerCells res.m ≠ headerCells m := by
  have h : ((build 4 multiRows).bind fun m => (Solve 26 m).bind fun r =>
      (search 26 m).map fun st =>
        (r.success, headerCells r.m, headerCells m,
          st.emitted.map (fun e => headerCells e.2))) =
      some (true, [], [1, 2, 3, 4], [[], []]) := by
    decide
  have h' : ((build 4 multiRows).bind fun m => (Solve 26 m).map fun r =>
      r.m.solutionRows.map r.m.rowInd) = some [2, 3] := by
    decide
  cases hb : build 4 multiRows with
  | none => rw [hb] at h; simp at h
  | some m =>
    rw [hb] at h h'
    simp only [Option.some_bind] at h h'
    cases hs : Solve 26 m with
    | none => rw [hs] at h; simp at h
    | some res =>
      rw [hs] at h h'
      simp only [Option.some_bind] at h
      simp only [Option.map_some', Option.some.injEq] at h'
      have h5 := h'
      cases hst : search 26 m with
      | none => rw [hst] at h; simp at h
      | some st =>
        rw [hst] at h
        simp only [Option.map_some', Option.some.injEq, Prod.mk.injEq] at h
        obtain ⟨h1, h2, h3, h4⟩ := h
        exact ⟨m, res, st, rfl, hs, hst, h1, h4, h2, h3, h5, by rw [h2, h3]; decide⟩

set_option maxRecDepth 100000 in
/-- On Knuth's example, which has one exact cover, the search started by
`Solve` runs to its end after the return: the matrix in which it comes to rest
has all seven columns in the header ring and an empty partial solution. -/
theorem knuth_solve_rest :
    ∃ m res, build 7 knuthRows = some m ∧ Solve 48 m = some res ∧ res.success = true ∧
      headerCells res.m = [1, 2, 3, 4, 5, 6, 7] ∧ res.m.solutionRows = [] := by
  have h : ((build 7 knuthRows).bind fun m => (Solve 48 m).map fun r =>
      (r.success, headerCells r.m, r.m.solutionRows)) =
      some (true, [1, 2, 3, 4, 5, 6, 7], []) := by
    decide
  cases hb : build 7 knuthRows with
  | none => rw [hb] at h; simp at h
  | some m =>
    rw [hb] at h
    simp only [Option.some_bind] at h
    cases hs : Solve 48 m with
    | none => rw [hs] at h; simp at h
    | some res =>
      rw [hs] at h
      simp only [Option.map_some', Option.some.injEq, Prod.mk.injEq] at h
      obtain ⟨h1, h2, h3⟩ := h
      exact ⟨m, res, rfl, hs, h1, h2, h3⟩

set_option maxRecDepth 100000 in
/-- C8 fails as stated: on Knuth's example `Solve` returns `success = true`
with a map whose keys are not the rows `{1, 3, 5}`. -/
theorem knuth_rows_not_1_3_5 :
    ∃ m res, build 7 knuthRows = some m ∧ Solve 48 m = some res ∧ res.success = true ∧
      keySet res.solution ≠ {1, 3, 5} := by
  have h : ((build 7 knuthRows).bind fun m => (Solve 48 m).map fun r =>
      (r.success, mapKeys r.solution)) = some (true, [3, 0, 4]) := by
    decide
  cases hb : build 7 knuthRows with
  | none => rw [hb] at h; simp at h
  | some m =>
    rw [hb] at h
    simp only [Option.some_bind] at h
    cases hs : Solve 48 m with
    | none => rw [hs] at h; simp at h
    | some res =>
      rw [hs] at h
      simp only [Option.map_some', Option.some.injEq, Prod.mk.injEq] at h
      obtain ⟨h1, h2⟩ := h
      exact ⟨m, res, rfl, hs, h1, by rw [keySet, h2]; decide⟩

set_option maxRecDepth 100000 in
/-- C8, as amended.  On `NewMatrix 7` with the rows `[2,4,5]`, `[0,3,6]`,
`[1,2,5]`, `[0,3]`, `[1,6]`, `[3,4,6]` added in this order, `Solve` returns
`success = true` with the map `{3: [0,3], 0: [4,5,2], 4: [1,6]}`: the selected
row indices are exactly `{0, 3, 4}`. -/
theorem knuth_rows_0_3_4 :
    ∃ m, build 7 knuthRows = some m ∧ ∀ fuel, 48 ≤ fuel →
      ∃ res, Solve fuel m = some res ∧ res.success = true ∧
        res.solution = [(3, [0, 3]), (0, [4, 5, 2]), (4, [1, 6])] ∧
        keySet res.solution = {0, 3, 4} := by
  have h : ((build 7 knuthRows).bind fun m => (Solve 48 m).map fun r =>
      (r.success, r.solution)) = some (true, [(3, [0, 3]), (0, [4, 5, 2]), (4, [1, 6])]) := by
    decide
  cases hb : build 7 knuthRows with
  | none => rw [hb] at h; simp at h
  | some m =>
    rw [hb] at h
    simp only [Option.some_bind] at h
    cases hs : Solve 48 m with
    | none => rw [hs] at h; simp at h
    | some res =>
      rw [hs] at h
      simp only [Option.map_some', Option.some.injEq, Prod.mk.injEq] at h
      obtain ⟨h1, h2⟩ := h
      refine ⟨m, rfl, fun fuel hf => ⟨res, Solve_mono hf hs, h1, h2, ?_⟩⟩
      rw [h2]
      decide

set_option maxRecDepth 100000 in
/-- C9 (emission order).  On `NewMatrix 4` with the rows `[0,1]`, `[2,3]`,
`[0,1,2]`, `[3]` added in this order, `SolveComplete` delivers exactly two
solutions, first the one selecting the rows `{0, 1}` and then the one selecting
the rows `{2, 3}`, followed by the final boolean `true`. -/
theorem multi_solution_order :
    ∃ m, build 4 multiRows = some m ∧ ∀ fuel, 26 ≤ fuel →
      ∃ mf, SolveComplete fuel m =
        some ([Event.solution [(0, [0, 1]), (1, [2, 3])],
               Event.solution [(2, [0, 1, 2]), (3, [3])],
               Event.finished true], mf) ∧
        keySet [(0, [0, 1]), (1, [2, 3])] = {0, 1} ∧
        keySet [(2, [0, 1, 2]), (3, [3])] = {2, 3} := by
  have h : ((build 4 multiRows).bind fun m => (SolveComplete 26 m).map Prod.fst) =
      some [Event.solution [(0, [0, 1]), (1, [2, 3])],
            Event.solution [(2, [0, 1, 2]), (3, [3])],
            Event.finished true] := by
    decide
  cases hb : build 4 multiRows with
  | none => rw [hb] at h; simp at h
  | some m =>
    rw [hb] at h
    simp only [Option.some_bind] at h
    cases hs : SolveComplete 26 m with
    | none => rw [hs] at h; simp at h
    | some r =>
      obtain ⟨evs, mf⟩ := r
      rw [hs] at h
      simp only [Option.map_some', Option.some.injEq] at h
      subst h
      exact ⟨m, rfl, fun fuel hf => ⟨mf, SolveComplete_mono hf hs, by decide, by decide⟩⟩

end dlx


namespace dlx

/-! ### The general theorems at the examples of the test file -/

/-- Instance of `soundness` at the example with two solutions. -/
theorem soundness_witness :
    WellFormed 4 multiRows ∧
    (∃ m, build 4 multiRows = some m ∧ ∀ fuel, 2 * m.alloc ≤ fuel →
        ∃ evs mf res, SolveComplete fuel m = some (evs, mf) ∧ Solve fuel m = some res ∧
          (∀ sol ∈ solutionsOf evs, IsExactCoverMap 4 multiRows sol) ∧
          (res.success = true → IsExactCoverMap 4 multiRows res.solution)) :=
  ⟨by decide, soundness 4 multiRows (by decide)⟩

/-- Instance of `completeness` at the example of Knuth's paper. -/
theorem completeness_witness :
    WellFormed 7 knuthRows ∧
    (∃ m, build 7 knuthRows = some m ∧ ∀ fuel, 2 * m.alloc ≤ fuel →
        ∃ evs mf, SolveComplete fuel m = some (evs, mf) ∧
          (∀ sol ∈ solutionsOf evs, (mapKeys sol).Nodup) ∧
          ((solutionsOf evs).map keySet).Nodup ∧
          ((solutionsOf evs).map keySet).toFinset =
            (bruteForce 7 knuthRows).image (fun S => S.image (fun (r : Nat) => (r : Int)))) :=
  ⟨by decide, completeness 7 knuthRows (by decide)⟩

/-- Instance of `solve_no_solution` at the example without a solution. -/
theorem solve_no_solution_witness :
    WellFormed 7 noSolutionRows ∧
    (∃ m, build 7 noSolutionRows = some m ∧ ∀ fuel, 2 * m.alloc ≤ fuel →
        ∃ res, Solve fuel m = some res ∧
          (res.success = false ↔
            ¬ ∃ S, S ⊆ Finset.range noSolutionRows.length ∧ isExactCover 7 noSolutionRows S) ∧
          (res.success = false → res.solution = [])) :=
  ⟨by decide, solve_no_solution 7 noSolutionRows (by decide)⟩

/-- Instance of `solve_first_of_complete` at the example with two solutions. -/
theorem solve_first_of_complete_witness :
    WellFormed 4 multiRows ∧
    (∃ m, build 4 multiRows = some m ∧ ∀ fuel, 2 * m.alloc ≤ fuel →
        ∃ res evs mf, Solve fuel m = some res ∧ SolveComplete fuel m = some (evs, mf) ∧
          ((∃ S, S ⊆ Finset.range multiRows.length ∧ isExactCover 4 multiRows S) →
            res.success = true ∧ (solutionsOf evs).head? = some res.solution)) :=
  ⟨by decide, solve_first_of_complete 4 multiRows (by decide)⟩

/-- Instance of `solveComplete_flag` at the example without a solution. -/
theorem solveComplete_flag_witness :
    WellFormed 7 noSolutionRows ∧
    (∃ m, build 7 noSolutionRows = some m ∧ ∀ fuel, 2 * m.alloc ≤ fuel →
        ∃ sols b mf,
          SolveComplete fuel m = some (sols.map Event.solution ++ [Event.finished b], mf) ∧
          (b = true ↔ sols ≠ []) ∧
          ((¬ ∃ S, S ⊆ Finset.range noSolutionRows.length ∧ isExactCover 7 noSolutionRows S) →
            sols = [] ∧ b = false)) :=
  ⟨by decide, solveComplete_flag 7 noSolutionRows (by decide)⟩

/-- Instance of `solveComplete_restores` at the example with two solutions. -/
theorem solveComplete_restores_witness :
    WellFormed 4 multiRows ∧
    (∃ m, build 4 multiRows = some m ∧ m.solutionRows = [] ∧ ∀ fuel, 2 * m.alloc ≤ fuel →
        ∃ evs, SolveComplete fuel m = some (evs, m)) :=
  ⟨by decide, solveComplete_restores 4 multiRows (by decide)⟩

/-- Instance of `solve_state` at the example of Knuth's paper. -/
theorem solve_state_witness :
    WellFormed 7 knuthRows ∧
    (∃ m, build 7 knuthRows = some m ∧ ∀ fuel, 2 * m.alloc ≤ fuel →
        ∃ res, Solve fuel m = some res ∧
          (res.success = false → res.m = m) ∧
          (res.success = true → (bruteForce 7 knuthRows).card = 1 → res.m = m) ∧
          (res.success = true → 1 < (bruteForce 7 knuthRows).card →
            headerCells res.m = [] ∧ headerCells m = List.range' 1 7 ∧ res.m ≠ m)) :=
  ⟨by decide, solve_state 7 knuthRows (by decide)⟩

end dlx


namespace dlx

/-! ### Row indices handed out by `AddRow` -/

/-- The loop of `AddRow` on indices for which `m.columns[c+1]` exists: it does
not panic, it stores the current row count in every new node and in no other
cell, and it leaves the counters alone. -/
theorem addRowLoop_rowInd (k base : Nat) : ∀ (cs : List Int) (i : Nat) (m : matrix),
    (∀ c ∈ cs, -1 ≤ c ∧ c + 1 < (m.columns : Int)) →
    ∃ m', addRowLoop k base i cs m = some m' ∧ m'.rowCount = m.rowCount ∧
      m'.columns = m.columns ∧ m'.alloc = m.alloc ∧
      ∀ a, m'.rowInd a =
        if base + i ≤ a ∧ a < base + i + cs.length then m.rowCount else m.rowInd a := by
  intro cs
  induction cs with
  | nil =>
    intro i m _
    refine ⟨m, rfl, rfl, rfl, rfl, fun a => ?_⟩
    rw [if_neg]
    simp
  | cons c cs ih =>
    intro i m h
    have hc := h c (List.mem_cons_self _ _)
    have hcond : 0 ≤ c + 1 ∧ c + 1 < (m.columns : Int) := ⟨by omega, hc.2⟩
    rw [addRowLoop_cons, if_pos hcond]
    obtain ⟨f1, _, _, _, _, _, _, _, _, f10, f11, f12, _⟩ :=
      addRowStep_fields m (base + i) (c + 1).toNat
        (if i = 0 then base + (k - 1) else base + (i - 1))
        (if i = k - 1 then base else base + (i + 1))
    obtain ⟨m', h1, h2, h3, h4, h5⟩ := ih (i + 1) _ (by
      intro c' hc'
      rw [f10]
      exact h c' (List.mem_cons_of_mem _ hc'))
    refine ⟨m', h1, h2.trans f12, h3.trans f10, h4.trans f11, fun a => ?_⟩
    rw [h5 a, f12, f1]
    simp only [List.length_cons, upd]
    by_cases ha : a = base + i
    · subst ha
      rw [if_neg (by omega), if_pos rfl, if_pos (by omega)]
    · rw [if_neg ha]
      by_cases hb : base + (i + 1) ≤ a ∧ a < base + (i + 1) + cs.length
      · rw [if_pos hb, if_pos (by omega)]
      · rw [if_neg hb, if_neg (by omega)]

/-- One `AddRow` call on indices for which `m.columns[c+1]` exists: it returns
the current row count, every new node carries it, and older cells keep their
row index. -/
theorem AddRow_rowInd {n : Nat} {m : matrix} (hm : m.columns = n + 1) {r : List Int}
    (hr : ∀ c ∈ r, -1 ≤ c ∧ c < (n : Int)) :
    ∃ m', AddRow m r = some (m', m.rowCount) ∧ m'.rowCount = m.rowCount + 1 ∧
      m'.columns = n + 1 ∧ m'.alloc = m.alloc + r.length ∧
      (∀ j, j < r.length → m'.rowInd (m.alloc + j) = m.rowCount) ∧
      ∀ a, a < m.alloc → m'.rowInd a = m.rowInd a := by
  obtain ⟨m1, h1, h2, h3, h4, h5⟩ := addRowLoop_rowInd r.length m.alloc r 0
    { m with alloc := m.alloc + r.length } (by
      intro c hc
      have := hr c hc
      show -1 ≤ c ∧ c + 1 < (m.columns : Int)
      rw [hm]
      push_cast
      omega)
  refine ⟨{ m1 with rowCount := m1.rowCount + 1 }, ?_, ?_, ?_, ?_, ?_, ?_⟩
  · simp only [AddRow, h1]
    rw [h2]
    simp
  · show m1.rowCount + 1 = _
    rw [h2]
  · show m1.columns = _
    rw [h3]; exact hm
  · show m1.alloc = _
    rw [h4]
  · intro j hj
    show m1.rowInd (m.alloc + j) = _
    rw [h5, if_pos (by omega)]
  · intro a ha
    show m1.rowInd a = _
    rw [h5, if_neg (by omega)]

/-- A run of `AddRow` calls on indices for which `m.columns[c+1]` exists: no
call panics, the row count grows by one per call, and the cells that existed
before keep their row index. -/
theorem addRows_rowInd {n : Nat} : ∀ (rows : List (List Int)) (m : matrix),
    m.columns = n + 1 → (∀ r ∈ rows, ∀ c ∈ r, -1 ≤ c ∧ c < (n : Int)) →
    ∃ m', rows.foldlM (fun m r => (AddRow m r).map Prod.fst) m = some m' ∧
      m'.rowCount = m.rowCount + rows.length ∧ m'.columns = n + 1 ∧ m.alloc ≤ m'.alloc ∧
      ∀ a, a < m.alloc → m'.rowInd a = m.rowInd a := by
  intro rows
  induction rows with
  | nil => intro m hm _; exact ⟨m, rfl, by simp, hm, Nat.le_refl _, fun _ _ => rfl⟩
  | cons r rs ih =>
    intro m hm h
    obtain ⟨m1, h1, h2, h3, h4, _, h6⟩ := AddRow_rowInd hm (h r (List.mem_cons_self _ _))
    obtain ⟨m', g1, g2, g3, g4, g5⟩ := ih m1 h3 (fun r' hr' => h r' (List.mem_cons_of_mem _ hr'))
    refine ⟨m', ?_, ?_, g3, by omega, fun a ha => ?_⟩
    · rw [List.foldlM_cons, h1]
      exact g1
    · rw [g2, h2, List.length_cons]
      push_cast
      ring
    · rw [g5 a (by omega), h6 a ha]

/-- C11.  On a matrix freshly created by `NewMatrix(n)`, for any run of
`AddRow` calls whose indices `c` have `m.columns[c+1]` in bounds (so that no call
panics), all calls return; the call number `k` (counting from 0, that is, the
call that comes after the `k` calls for `pre`) returns `k`, and every node it
creates carries the row index `k`, right after the call and after all later
calls. -/
theorem addRow_sequential (n : Nat) (rows : List (List Int))
    (hrows : ∀ r ∈ rows, ∀ c ∈ r, -1 ≤ c ∧ c < (n : Int)) :
    ∃ mf, build n rows = some mf ∧
      ∀ pre r post, rows = pre ++ r :: post →
        ∃ m m', build n pre = some m ∧ AddRow m r = some (m', (pre.length : Int)) ∧
          ∀ j, j < r.length →
            m'.rowInd (m.alloc + j) = (pre.length : Int) ∧
            mf.rowInd (m.alloc + j) = (pre.length : Int) := by
  have hcols : (NewMatrix n).columns = n + 1 := (NewMatrix_fields n).2.2.2.2.2.2.2.2.2.1
  have hrc : (NewMatrix n).rowCount = 0 := (NewMatrix_fields n).2.2.2.2.2.2.2.2.2.2.2.1
  obtain ⟨mf, hf, _⟩ := addRows_rowInd rows (NewMatrix n) hcols hrows
  refine ⟨mf, hf, ?_⟩
  intro pre r post hsplit
  subst hsplit
  obtain ⟨m, h1, h2, h3, _, _⟩ := addRows_rowInd pre (NewMatrix n) hcols
    (fun r' hr' => hrows r' (List.mem_append_left _ hr'))
  have hrc' : m.rowCount = (pre.length : Int) := by rw [h2, hrc]; simp
  obtain ⟨m', g1, _, g3, g4, g5, _⟩ := AddRow_rowInd h3
    (hrows r (List.mem_append_right _ (List.mem_cons_self _ _)))
  obtain ⟨mf', k1, _, _, _, k5⟩ := addRows_rowInd post m' g3
    (fun r' hr' => hrows r' (List.mem_append_right _ (List.mem_cons_of_mem _ hr')))
  have hmf : mf' = mf := by
    have : build n (pre ++ r :: post) = some mf' := by
      simp only [build] at h1 ⊢
      rw [List.foldlM_append, h1]
      simp only [Option.bind_eq_bind, Option.some_bind, List.foldlM_cons, g1, Option.map_some']
      exact k1
    exact Option.some.inj (this.symm.trans hf)
  subst hmf
  refine ⟨m, m', h1, by rw [← hrc']; exact g1, fun j hj => ?_⟩
  have := g5 j hj
  refine ⟨by rw [this, hrc'], ?_⟩
  rw [k5 _ (by rw [g4]; omega), this, hrc']

/-- Instance of `addRow_sequential` at the example of Knuth's paper. -/
theorem addRow_sequential_witness :
    (∀ r ∈ knuthRows, ∀ c ∈ r, -1 ≤ c ∧ c < ((7 : Nat) : Int)) ∧
    (∃ mf, build 7 knuthRows = some mf ∧
      ∀ pre r post, knuthRows = pre ++ r :: post →
        ∃ m m', build 7 pre = some m ∧ AddRow m r = some (m', (pre.length : Int)) ∧
          ∀ j, j < r.length →
            m'.rowInd (m.alloc + j) = (pre.length : Int) ∧
            mf.rowInd (m.alloc + j) = (pre.length : Int)) :=
  ⟨by decide, addRow_sequential 7 knuthRows (by decide)⟩

end dlx


namespace dlx

/-! ### Empty index sequences, and the matrix without columns -/

/-- `AddRow` with an empty index sequence: the loop body never runs, so only
the row count changes. -/
theorem AddRow_nil (m : matrix) :
    AddRow m [] = some ({ m with rowCount := m.rowCount + 1 }, m.rowCount) := by
  simp [AddRow, addRowLoop]

/-- A run of `AddRow` calls with empty index sequences changes the row count
only. -/
theorem addRows_nil : ∀ (rows : List (List Int)) (m : matrix), (∀ r ∈ rows, r = []) →
    rows.foldlM (fun m r => (AddRow m r).map Prod.fst) m =
      some { m with rowCount := m.rowCount + rows.length } := by
  intro rows
  induction rows with
  | nil => intro m _; simp
  | cons r rs ih =>
    intro m h
    have hr : r = [] := h r (List.mem_cons_self _ _)
    subst hr
    rw [List.foldlM_cons, AddRow_nil]
    simp only [Option.map_some', Option.bind_eq_bind, Option.some_bind]
    rw [ih _ (fun r' hr' => h r' (List.mem_cons_of_mem _ hr'))]
    simp only [List.length_cons]
    congr 2
    push_cast
    ring

/-- C20.  On a matrix created by `NewMatrix(0)`, with no rows or only empty
rows added, the header ring holds the root only; for every fuel of at least 1,
`Solve` returns `success = true` with the empty map, and `SolveComplete`
delivers exactly one solution, the empty map, followed by `true`. -/
theorem zero_columns (rows : List (List Int)) (hrows : ∀ r ∈ rows, r = []) :
    ∃ m, build 0 rows = some m ∧ headerCells m = [] ∧ m.rightPtr m.root = m.root ∧
      ∀ fuel, 1 ≤ fuel →
        Solve fuel m = some ⟨[], true, m⟩ ∧
        SolveComplete fuel m = some ([Event.solution [], Event.finished true], m) := by
  obtain ⟨hr, _, _, _, _, _, _, _, hroot, _, halloc, _, hsr⟩ := NewMatrix_fields 0
  refine ⟨_, addRows_nil rows (NewMatrix 0) hrows, ?_, ?_, ?_⟩
  · show ringList (NewMatrix 0).rightPtr (NewMatrix 0).root (NewMatrix 0).alloc
      ((NewMatrix 0).rightPtr (NewMatrix 0).root) = []
    rw [hroot, hr]
    simp [ringList_stop]
  · show (NewMatrix 0).rightPtr (NewMatrix 0).root = (NewMatrix 0).root
    rw [hroot, hr]
    simp
  · intro fuel hf
    obtain ⟨f, rfl⟩ : ∃ f, fuel = f + 1 := ⟨fuel - 1, by omega⟩
    have hs : search (f + 1) { NewMatrix 0 with rowCount := (NewMatrix 0).rowCount + rows.length } =
        some ⟨{ NewMatrix 0 with rowCount := (NewMatrix 0).rowCount + rows.length },
          [([], { NewMatrix 0 with rowCount := (NewMatrix 0).rowCount + rows.length })], true⟩ := by
      have h1 : (NewMatrix 0).rightPtr (NewMatrix 0).root = (NewMatrix 0).root := by
        rw [hroot, hr]; simp
      simp only [search, h1, if_true, getSolution, hsr, List.foldlM_nil]
    constructor
    · simp only [Solve, hs, restMatrix]
    · simp only [SolveComplete, hs]
      rfl

/-- Instance of `zero_columns` with two empty rows. -/
theorem zero_columns_witness :
    (∀ r ∈ ([[], []] : List (List Int)), r = []) ∧
    (∃ m, build 0 [[], []] = some m ∧ headerCells m = [] ∧ m.rightPtr m.root = m.root ∧
      ∀ fuel, 1 ≤ fuel →
        Solve fuel m = some ⟨[], true, m⟩ ∧
        SolveComplete fuel m = some ([Event.solution [], Event.finished true], m)) :=
  ⟨by decide, zero_columns [[], []] (by decide)⟩

end dlx


namespace dlx

/-! ### The states between two calls of `cover` / `uncover` -/

theorem WellFormed.admissible {n : Nat} {rows : List (List Int)} (h : WellFormed n rows) :
    Admissible n rows := fun r hr => (h r hr).2

theorem build_fold_adm {n : Nat} : ∀ (rows1 rows0 : List (List Int)) (m : matrix),
    Inv n rows0 m (List.range' 1 n) → Admissible n rows1 →
    ∃ m', rows1.foldlM (fun m r => (AddRow m r).map Prod.fst) m = some m' ∧
      Inv n (rows0 ++ rows1) m' (List.range' 1 n) ∧ m'.solutionRows = m.solutionRows := by
  intro rows1
  induction rows1 with
  | nil => intro rows0 m h _; exact ⟨m, rfl, by simpa using h, rfl⟩
  | cons r rs ih =>
    intro rows0 m h hwf
    obtain ⟨hnd, hrg⟩ := hwf r (List.mem_cons_self _ _)
    obtain ⟨m1, h1, h2, h3⟩ := AddRow_spec h hnd hrg
    obtain ⟨m', g1, g2, g3⟩ :=
      ih (rows0 ++ [r]) m1 h2 (fun r' hr' => hwf r' (List.mem_cons_of_mem _ hr'))
    refine ⟨m', ?_, by simpa using g2, g3.trans h3⟩
    rw [List.foldlM_cons, h1]
    exact g1

/-- A matrix built from duplicate-free, in-range rows (empty ones included)
exists and satisfies the invariant with every column uncovered. -/
theorem build_adm {n : Nat} {rows : List (List Int)} (hadm : Admissible n rows) :
    ∃ m, build n rows = some m ∧ Inv n rows m (List.range' 1 n) ∧ m.solutionRows = [] := by
  obtain ⟨h0, hs0⟩ := NewMatrix_inv n
  obtain ⟨m, h1, h2, h3⟩ := build_fold_adm rows [] (NewMatrix n) h0 hadm
  exact ⟨m, h1, by simpa using h2, h3.trans hs0⟩

/-- Under the invariant, walking right from the root lists the header ring. -/
theorem Inv.headerCells_eq {n : Nat} {rows : List (List Int)} {m : matrix} {H : List Nat}
    (h : Inv n rows m H) : headerCells m = H := by
  have hlt : H.length < m.alloc := by
    refine h.hring.length_lt ?_
    intro x hx
    exact Nat.lt_of_le_of_lt (h.header_le hx) h.static.alloc_gt
  rw [headerCells, h.static.root_eq]
  exact h.hring.ringList_eq hlt

/-- Under the invariant, walking left from the root lists the header ring
backwards. -/
theorem Inv.headerCells_left {n : Nat} {rows : List (List Int)} {m : matrix} {H : List Nat}
    (h : Inv n rows m H) : ringList m.leftPtr m.root m.alloc (m.leftPtr m.root) = H.reverse := by
  have hlt : H.reverse.length < m.alloc := by
    rw [List.length_reverse]
    refine h.hring.length_lt ?_
    intro x hx
    exact Nat.lt_of_le_of_lt (h.header_le hx) h.static.alloc_gt
  rw [h.static.root_eq]
  exact h.hring.reverse.ringList_eq hlt

/-- Under the invariant, walking down from a header lists the ring of its
column, whose length is the stored column length. -/
theorem Inv.colCells_eq {n : Nat} {rows : List (List Int)} {m : matrix} {H : List Nat}
    (h : Inv n rows m H) {c : Nat} (hc1 : 1 ≤ c) (hcn : c ≤ n) :
    Ring m.downPtr m.upPtr c (colCells m c) ∧ m.columnLen c = (colCells m c).length ∧
      ∀ x ∈ colCells m c, isNode n m x ∧ m.parentColumnPtr x = c := by
  obtain ⟨L, hL, hlen, hmem, _, _⟩ := h.cols c hc1 hcn
  have hlt : L.length < m.alloc := by
    refine hL.length_lt ?_
    intro x hx
    rcases List.mem_cons.1 hx with rfl | hx
    · exact h.static.node_lt hcn
    · exact (hmem x hx).1.2
  have : colCells m c = L := hL.ringList_eq hlt
  rw [this]
  exact ⟨hL, hlen, hmem⟩

/-- Covering distinct columns of the header ring one after the other: every
call returns, the invariant holds for the remaining header ring, and
uncovering the same columns in the reverse order restores the matrix. -/
theorem coverAll_spec {n : Nat} {rows : List (List Int)} (fuel : Nat) :
    ∀ (cs : List Nat) (m : matrix) (H : List Nat), Inv n rows m H → cs.Nodup →
      (∀ c ∈ cs, c ∈ H) → m.alloc ≤ fuel →
      ∃ t, coverAll fuel cs m = some t ∧ Inv n rows t (eraseAll H cs) ∧ Frame n m t ∧
        uncoverAll fuel cs.reverse t = some m := by
  intro cs
  induction cs with
  | nil =>
    intro m H h _ _ _
    exact ⟨m, rfl, h, Frame.refl n m, rfl⟩
  | cons c cs ih =>
    intro m H h hnd hsub hf
    have hc : c ∈ H := hsub c (List.mem_cons_self _ _)
    obtain ⟨t1, h1, hI1, hF1, hU1, _⟩ := cover_spec h hc fuel hf
    have hcs : ∀ d ∈ cs, d ∈ H.erase c := by
      intro d hd
      have hne : d ≠ c := by
        rintro rfl
        exact (List.nodup_cons.1 hnd).1 hd
      exact (List.mem_erase_of_ne hne).2 (hsub d (List.mem_cons_of_mem _ hd))
    obtain ⟨t, g1, gI, gF, gU⟩ := ih t1 (H.erase c) hI1 (List.nodup_cons.1 hnd).2 hcs
      (by rw [hF1.alloc_eq]; exact hf)
    refine ⟨t, ?_, gI, hF1.trans gF, ?_⟩
    · simp only [coverAll, List.foldlM_cons, h1, Option.bind_eq_bind, Option.some_bind]
      exact g1
    · simp only [uncoverAll, List.reverse_cons, List.foldlM_append] at gU ⊢
      rw [gU]
      simp only [Option.bind_eq_bind, Option.some_bind, List.foldlM_cons, hU1, List.foldlM_nil]
      rfl

theorem mem_eraseAll_range {n : Nat} {cs : List Nat} {z : Nat} :
    z ∈ eraseAll (List.range' 1 n) cs ↔ (1 ≤ z ∧ z ≤ n) ∧ z ∉ cs := by
  rw [mem_eraseAll _ (List.nodup_range' 1 n), List.mem_range'_1]
  constructor
  · rintro ⟨h1, h2⟩; exact ⟨⟨h1.1, by omega⟩, h2⟩
  · rintro ⟨h1, h2⟩; exact ⟨⟨h1.1, by omega⟩, h2⟩

end dlx


namespace dlx

/-! ### The column scan of `search` -/

/-- The column scan of `search` returns the leftmost column of minimum length
of the header ring. -/
theorem pickColumn_min {n : Nat} {rows : List (List Int)} {m : matrix} {H : List Nat}
    (h : Inv n rows m H) (hH : H ≠ []) (fuel : Nat) (hf : m.alloc ≤ fuel) :
    ∃ c H1 H2, pickColumn fuel m = some c ∧ H = H1 ++ c :: H2 ∧
      (∀ d ∈ H1, m.columnLen c < m.columnLen d) ∧ (∀ d ∈ H2, m.columnLen c ≤ m.columnLen d) := by
  have hlt : H.length < fuel := by
    refine Nat.lt_of_lt_of_le (h.hring.length_lt (b := m.alloc) ?_) hf
    intro x hx
    exact h.static.node_lt (h.header_le hx)
  have key := ptrLoop_rule 0 (fun (_ : Nat) x => m.rightPtr x)
    (fun currentColumn minColumn =>
      some (if m.columnLen (m.parentColumnPtr currentColumn)
                < m.columnLen (m.parentColumnPtr minColumn)
            then currentColumn else minColumn)) H
    (fun done _ s => (done = [] ∧ s = H.headD 0) ∨
      ∃ D1 D2, done = D1 ++ s :: D2 ∧
        (∀ d ∈ D1, m.columnLen (m.parentColumnPtr s) < m.columnLen (m.parentColumnPtr d)) ∧
        (∀ d ∈ D2, m.columnLen (m.parentColumnPtr s) ≤ m.columnLen (m.parentColumnPtr d)))
    ?_ H [] fuel (H.headD 0) rfl hlt (Or.inl ⟨rfl, rfl⟩)
  · obtain ⟨c, h1, h2⟩ := key
    rcases h2 with ⟨h2, _⟩ | ⟨D1, D2, h2, h3, h4⟩
    · exact absurd h2 hH
    · have hpar : ∀ d ∈ H, m.parentColumnPtr d = d :=
        fun d hd => h.static.head_par d (h.hrange d hd).2
      have hcH : c ∈ H := by rw [h2]; simp
      refine ⟨c, D1, D2, ?_, h2, ?_, ?_⟩
      · rw [pickColumn, h.static.root_eq, h.hring.next_anchor]
        exact h1
      · intro d hd
        have := h3 d hd
        rw [hpar c hcH, hpar d (by rw [h2]; simp [hd])] at this
        exact this
      · intro d hd
        have := h4 d hd
        rw [hpar c hcH, hpar d (by rw [h2]; simp [hd])] at this
        exact this
  · intro done y rem s hL hQ
    have hyH : y ∈ H := by rw [← hL]; simp
    refine ⟨?_, _, rfl, ?_, ?_⟩
    · intro hy
      have := (List.nodup_cons.1 h.hring.1).1
      exact this (hy ▸ hyH)
    · have := h.hring
      rw [← hL] at this
      exact this.next_at
    · right
      rcases hQ with ⟨hd, hs⟩ | ⟨D1, D2, hd, h3, h4⟩
      · subst hd
        have hys : s = y := by
          rw [hs, ← hL]; rfl
        subst hys
        refine ⟨[], [], ?_, by simp, by simp⟩
        simp
      · by_cases hlt' : m.columnLen (m.parentColumnPtr y) < m.columnLen (m.parentColumnPtr s)
        · refine ⟨done, [], ?_, ?_, by simp⟩
          · simp [hlt']
          · simp only [hlt', if_true]
            intro d hd'
            rw [hd] at hd'
            rcases List.mem_append.1 hd' with hd | hd
            · exact lt_trans hlt' (h3 d hd)
            · rcases List.mem_cons.1 hd with rfl | hd
              · exact hlt'
              · exact lt_of_lt_of_le hlt' (h4 d hd)
        · refine ⟨D1, D2 ++ [y], ?_, ?_, ?_⟩
          · simp [hlt', hd]
          · simpa [hlt'] using h3
          · simp only [hlt', if_false]
            intro d hd'
            rcases List.mem_append.1 hd' with hd' | hd'
            · exact h4 d hd'
            · simp at hd'
              subst hd'
              exact not_lt.1 hlt'

end dlx


namespace dlx

/-! ### The column rings through `AddRow` -/

/-- One pass of the loop of `AddRow`, seen from the ring of one column (or of
the root): the new node is appended to the ring of its own column, and every
other ring is left alone. -/
theorem Pre.link_cell_ring {n : Nat} {m : matrix} {b : Nat} (h : Pre n m b) (hb : n < b)
    {col : Nat} (hc1 : 1 ≤ col) (hcn : col ≤ n) (lv rv : Nat) {e : Nat} {L : List Nat}
    (he : e ≤ n) (hL : Ring m.downPtr m.upPtr e L)
    (hmem : ∀ z ∈ L, z < b ∧ m.parentColumnPtr z = e) :
    Ring (addRowStep m b col lv rv).downPtr (addRowStep m b col lv rv).upPtr e
        (if e = col then L ++ [b] else L) ∧
      (addRowStep m b col lv rv).columnLen e = m.columnLen e + (if e = col then 1 else 0) ∧
      ∀ z ∈ (if e = col then L ++ [b] else L),
        z < b + 1 ∧ (addRowStep m b col lv rv).parentColumnPtr z = e := by
  obtain ⟨_, f2, f3, f4, f5, _, _, _, _, _, _, _, _⟩ := addRowStep_fields m b col lv rv
  have hbL : b ∉ e :: L := by
    intro hh
    rcases List.mem_cons.1 hh with hh | hh
    · omega
    · have := (hmem b hh).1; omega
  have hpar' : ∀ z ∈ L, (addRowStep m b col lv rv).parentColumnPtr z = e := by
    intro z hz
    rw [f2, upd_other _ _ (by have := (hmem z hz).1; omega)]
    exact (hmem z hz).2
  by_cases hec : e = col
  · subst hec
    simp only [if_true]
    refine ⟨?_, ?_, ?_⟩
    · rw [f5, f4]
      exact hL.insert hbL
    · rw [f3, upd_same]
    · intro z hz
      rcases List.mem_append.1 hz with hz | hz
      · exact ⟨by have := (hmem z hz).1; omega, hpar' z hz⟩
      · simp at hz
        subst hz
        exact ⟨by omega, by rw [f2, upd_same]⟩
  · simp only [if_neg hec]
    obtain ⟨Lc, hLc, _, hmemc⟩ := h.cols col hc1 hcn
    have hparL : ∀ z ∈ e :: L, m.parentColumnPtr z = e := by
      intro z hz
      rcases List.mem_cons.1 hz with rfl | hz
      · exact h.head_par _ he
      · exact (hmem z hz).2
    have hparLc : ∀ z ∈ col :: Lc, m.parentColumnPtr z = col := by
      intro z hz
      rcases List.mem_cons.1 hz with rfl | hz
      · exact h.head_par _ hcn
      · exact ((hmemc z).1 hz).2.2
    have hup : m.upPtr col ∈ col :: Lc := hLc.prev_mem (List.mem_cons_self _ _)
    have hzb : ∀ z ∈ e :: L, z ≠ b := fun z hz hzb => hbL (hzb ▸ hz)
    refine ⟨hL.congr ?_ ?_, ?_, fun z hz => ⟨by have := (hmem z hz).1; omega, hpar' z hz⟩⟩
    · intro z hz
      rw [f5, upd_other _ _ ?_, upd_other _ _ (hzb z hz)]
      rintro rfl
      exact hec ((hparL _ hz).symm.trans (hparLc _ hup))
    · intro z hz
      rw [f4, upd_other _ _ ?_, upd_other _ _ (hzb z hz)]
      rintro rfl
      exact hec ((hparL _ hz).symm.trans (h.head_par _ hcn))
    · rw [f3, upd_other _ _ hec]
      simp

/-- The loop of `AddRow` on a duplicate-free, in-range index sequence, seen
from the ring of one column (or of the root): the node made for that column, if
there is one, is appended to the ring. -/
theorem addRowLoop_rings {n k base : Nat} (hbase : n < base) :
    ∀ (cs : List Int) (i : Nat) (m : matrix), Pre n m (base + i) → m.columns = n + 1 →
      (∀ c ∈ cs, 0 ≤ c ∧ c < (n : Int)) → cs.Nodup →
      ∀ m', addRowLoop k base i cs m = some m' →
      ∀ (e : Nat) (L : List Nat), e ≤ n → Ring m.downPtr m.upPtr e L →
        (∀ z ∈ L, z < base + i ∧ m.parentColumnPtr z = e) →
        ∃ X, Ring m'.downPtr m'.upPtr e (L ++ X) ∧ m'.columnLen e = m.columnLen e + X.length ∧
          (∀ j c, cs[j]? = some c → (c + 1).toNat = e → X = [base + i + j]) ∧
          ((∀ c ∈ cs, (c + 1).toNat ≠ e) → X = []) := by
  intro cs
  induction cs with
  | nil =>
    intro i m _ _ _ _ m' hm' e L _ hL _
    simp only [addRowLoop, Option.some.injEq] at hm'
    subst hm'
    exact ⟨[], by simpa using hL, by simp, fun j c hj => by simp at hj, fun _ => rfl⟩
  | cons c cs ih =>
    intro i m hP hcol hcs hnd m' hm' e L he hL hmem
    obtain ⟨hc0, hcn⟩ := hcs c (List.mem_cons_self _ _)
    have hcond : 0 ≤ c + 1 ∧ c + 1 < (m.columns : Int) := by
      rw [hcol]; push_cast; omega
    have hcol1 : 1 ≤ (c + 1).toNat := by omega
    have hcoln : (c + 1).toNat ≤ n := by omega
    rw [addRowLoop_cons, if_pos hcond] at hm'
    generalize (if i = 0 then base + (k - 1) else base + (i - 1)) = lv at hm'
    generalize (if i = k - 1 then base else base + (i + 1)) = rv at hm'
    have hP1 := hP.link_cell (by omega) hcol1 hcoln lv rv
    have f10 : (addRowStep m (base + i) (c + 1).toNat lv rv).columns = m.columns :=
      (addRowStep_fields m (base + i) (c + 1).toNat lv rv).2.2.2.2.2.2.2.2.2.1
    obtain ⟨r1, r2, r3⟩ := hP.link_cell_ring (by omega) hcol1 hcoln lv rv he hL hmem
    obtain ⟨X, x1, x2, x3, x4⟩ := ih (i + 1) _ hP1 (f10.trans hcol)
      (fun c' hc' => hcs c' (List.mem_cons_of_mem _ hc')) (List.nodup_cons.1 hnd).2 m' hm'
      e _ he r1 r3
    have hinj : ∀ c' ∈ cs, (c' + 1).toNat ≠ (c + 1).toNat := by
      intro c' hc' hh
      have h0 := (hcs c' (List.mem_cons_of_mem _ hc')).1
      have : c' = c := by omega
      exact (List.nodup_cons.1 hnd).1 (this ▸ hc')
    by_cases hec : e = (c + 1).toNat
    · have hX : X = [] := x4 (fun c' hc' => by rw [hec]; exact hinj c' hc')
      subst hX
      rw [if_pos hec] at x1 r2
      refine ⟨[base + i], by simpa using x1, ?_, ?_, ?_⟩
      · rw [x2, r2]; simp
      · intro j c' hj hc'
        cases j with
        | zero => rfl
        | succ j =>
          simp only [List.getElem?_cons_succ] at hj
          exact absurd (hc'.trans hec) (hinj c' (List.getElem?_mem hj))
      · intro hall
        exact absurd hec.symm (hall c (List.mem_cons_self _ _))
    · rw [if_neg hec] at x1 r2
      refine ⟨X, x1, by rw [x2, r2]; simp, ?_, ?_⟩
      · intro j c' hj hc'
        cases j with
        | zero =>
          simp only [List.getElem?_cons_zero, Option.some.injEq] at hj
          subst hj
          exact absurd hc'.symm hec
        | succ j =>
          simp only [List.getElem?_cons_succ] at hj
          rw [x3 j c' hj hc']
          congr 1
          omega
      · intro hall
        exact x4 (fun c' hc' => hall c' (List.mem_cons_of_mem _ hc'))

/-- `AddRow` on a duplicate-free, in-range index sequence, seen from the ring of
one column (or of the root). -/
theorem AddRow_rings {n : Nat} {rows : List (List Int)} {m : matrix}
    (h : Inv n rows m (List.range' 1 n)) {r : List Int} (hnd : r.Nodup)
    (hrg : ∀ c ∈ r, 0 ≤ c ∧ c < (n : Int)) {m' : matrix} {idx : Int}
    (hA : AddRow m r = some (m', idx)) {e : Nat} {L : List Nat} (he : e ≤ n)
    (hL : Ring m.downPtr m.upPtr e L) (hmem : ∀ z ∈ L, z < m.alloc ∧ m.parentColumnPtr z = e) :
    ∃ X, Ring m'.downPtr m'.upPtr e (L ++ X) ∧ m'.columnLen e = m.columnLen e + X.length ∧
      (∀ j c, r[j]? = some c → (c + 1).toNat = e → X = [m.alloc + j]) ∧
      ((∀ c ∈ r, (c + 1).toNat ≠ e) → X = []) := by
  have hs := h.static
  have hP := h.toPre
  have hP0 : Pre n { m with alloc := m.alloc + r.length } (m.alloc + 0) :=
    ⟨hP.head_par, hP.head_ind, hP.head_row, hP.hring, hP.node_par, hP.cols⟩
  simp only [AddRow] at hA
  cases hloop : addRowLoop r.length m.alloc 0 r { m with alloc := m.alloc + r.length } with
  | none => rw [hloop] at hA; simp at hA
  | some m1 =>
    rw [hloop] at hA
    simp only [Option.some.injEq, Prod.mk.injEq] at hA
    obtain ⟨hA1, _⟩ := hA
    subst hA1
    exact addRowLoop_rings (k := r.length) hs.alloc_gt r 0 _ hP0 hs.columns_eq hrg hnd m1 hloop
      e L he hL hmem

end dlx


namespace dlx

/-! ### What one `AddRow` call does to a built matrix -/

/-- The cells written by `AddRow` on a duplicate-free, in-range index
sequence: the links and tags of the new nodes, and the older cells that keep
theirs. -/
theorem AddRow_links {n : Nat} {rows : List (List Int)} {m : matrix}
    (h : Inv n rows m (List.range' 1 n)) {r : List Int}
    (hrg : ∀ c ∈ r, 0 ≤ c ∧ c < (n : Int)) {m' : matrix} {idx : Int}
    (hA : AddRow m r = some (m', idx)) :
    m'.alloc = m.alloc + r.length ∧ m'.columnInd = m.columnInd ∧
      (∀ a, a < m.alloc → m'.rowInd a = m.rowInd a ∧
        m'.parentColumnPtr a = m.parentColumnPtr a ∧ m'.leftPtr a = m.leftPtr a ∧
        m'.rightPtr a = m.rightPtr a) ∧
      ∀ j (hj : j < r.length), m'.rowInd (m.alloc + j) = (rows.length : Int) ∧
        m'.parentColumnPtr (m.alloc + j) = (r[j] + 1).toNat ∧
        m'.leftPtr (m.alloc + j) =
          (if j = 0 then m.alloc + (r.length - 1) else m.alloc + (j - 1)) ∧
        m'.rightPtr (m.alloc + j) =
          (if j = r.length - 1 then m.alloc else m.alloc + (j + 1)) := by
  have hs := h.static
  have hP := h.toPre
  have hP0 : Pre n { m with alloc := m.alloc + r.length } (m.alloc + 0) :=
    ⟨hP.head_par, hP.head_ind, hP.head_row, hP.hring, hP.node_par, hP.cols⟩
  obtain ⟨m1, h1, _, _, _, g3, g4, _, g6, g7, g8⟩ :=
    addRowLoop_spec (k := r.length) hs.alloc_gt r 0 _ hP0 hs.columns_eq hrg (by simp)
  simp only [AddRow, h1, Option.some.injEq, Prod.mk.injEq] at hA
  obtain ⟨hA1, _⟩ := hA
  subst hA1
  refine ⟨g3, g6, fun a ha => g7 a (by omega), fun j hj => ?_⟩
  have := g8 j hj
  simp only [Nat.add_zero, Nat.zero_add] at this
  exact ⟨this.1.trans hs.rowCount_eq, this.2.1, this.2.2.1, this.2.2.2⟩

/-- The ring of a column after `AddRow`, read down from its header: the ring
before the call, followed by the node made for this column if there is one. -/
theorem AddRow_colCells {n : Nat} {rows : List (List Int)} {m : matrix}
    (h : Inv n rows m (List.range' 1 n)) {r : List Int} (hnd : r.Nodup)
    (hrg : ∀ c ∈ r, 0 ≤ c ∧ c < (n : Int)) {m' : matrix} {idx : Int}
    (hA : AddRow m r = some (m', idx)) (h' : Inv n (rows ++ [r]) m' (List.range' 1 n))
    {e : Nat} (he1 : 1 ≤ e) (hen : e ≤ n) :
    ∃ X, colCells m' e = colCells m e ++ X ∧ m'.columnLen e = m.columnLen e + X.length ∧
      (∀ j c, r[j]? = some c → (c + 1).toNat = e → X = [m.alloc + j]) ∧
      ((∀ c ∈ r, (c + 1).toNat ≠ e) → X = []) := by
  obtain ⟨k1, _, k3⟩ := h.colCells_eq he1 hen
  obtain ⟨X, x1, x2, x3, x4⟩ := AddRow_rings h hnd hrg hA hen k1
    (fun z hz => ⟨(k3 z hz).1.2, (k3 z hz).2⟩)
  obtain ⟨k1', _, _⟩ := h'.colCells_eq he1 hen
  exact ⟨X, k1'.unique x1, x2, x3, x4⟩

/-- The root heads an empty column: it is its own upper and lower neighbour and
its length is zero. -/
theorem NewMatrix_root (n : Nat) :
    Ring (NewMatrix n).downPtr (NewMatrix n).upPtr 0 [] ∧ (NewMatrix n).columnLen 0 = 0 := by
  obtain ⟨_, _, hu, hd, _, _, _, hl, _⟩ := NewMatrix_fields n
  refine ⟨⟨by simp, ?_, ?_⟩, by rw [hl]⟩
  · rw [hd]; simp
  · rw [hu]; simp

/-- `AddRow` with in-range indices leaves the column of the root empty. -/
theorem AddRow_root {n : Nat} {rows : List (List Int)} {m : matrix}
    (h : Inv n rows m (List.range' 1 n)) {r : List Int} (hnd : r.Nodup)
    (hrg : ∀ c ∈ r, 0 ≤ c ∧ c < (n : Int)) {m' : matrix} {idx : Int}
    (hA : AddRow m r = some (m', idx))
    (h0 : Ring m.downPtr m.upPtr 0 [] ∧ m.columnLen 0 = 0) :
    Ring m'.downPtr m'.upPtr 0 [] ∧ m'.columnLen 0 = 0 := by
  obtain ⟨X, x1, x2, _, x4⟩ := AddRow_rings h hnd hrg hA (Nat.zero_le n) h0.1
    (fun z hz => by simp at hz)
  have hX : X = [] := x4 (fun c hc => by have := (hrg c hc).1; omega)
  subst hX
  exact ⟨by simpa using x1, by rw [x2, h0.2]; simp⟩

/-- Along a run of `AddRow` calls the column of the root stays empty, and every
column ring, read downwards, lists its nodes by increasing row index. -/
theorem addRows_cols {n : Nat} : ∀ (rows1 rows0 : List (List Int)) (m : matrix),
    Inv n rows0 m (List.range' 1 n) → Admissible n rows1 →
    (Ring m.downPtr m.upPtr 0 [] ∧ m.columnLen 0 = 0) →
    (∀ e, 1 ≤ e → e ≤ n → ((colCells m e).map m.rowInd).Pairwise (fun a b => a < b)) →
    ∀ m', rows1.foldlM (fun m r => (AddRow m r).map Prod.fst) m = some m' →
      (Ring m'.downPtr m'.upPtr 0 [] ∧ m'.columnLen 0 = 0) ∧
      ∀ e, 1 ≤ e → e ≤ n → ((colCells m' e).map m'.rowInd).Pairwise (fun a b => a < b) := by
  intro rows1
  induction rows1 with
  | nil =>
    intro rows0 m _ _ h0 hsort m' hm'
    simp only [List.foldlM_nil, Option.pure_def, Option.some.injEq] at hm'
    subst hm'
    exact ⟨h0, hsort⟩
  | cons r rs ih =>
    intro rows0 m h hadm h0 hsort m' hm'
    obtain ⟨hnd, hrg⟩ := hadm r (List.mem_cons_self _ _)
    obtain ⟨m1, h1, h2, _⟩ := AddRow_spec h hnd hrg
    rw [List.foldlM_cons, h1] at hm'
    simp only [Option.map_some', Option.bind_eq_bind, Option.some_bind] at hm'
    refine ih (rows0 ++ [r]) m1 h2 (fun r' hr' => hadm r' (List.mem_cons_of_mem _ hr'))
      (AddRow_root h hnd hrg h1 h0) ?_ m' hm'
    intro e he1 hen
    obtain ⟨_, _, l3, l4⟩ := AddRow_links h hrg h1
    obtain ⟨X, x1, _, x3, x4⟩ := AddRow_colCells h hnd hrg h1 h2 he1 hen
    obtain ⟨_, _, k3⟩ := h.colCells_eq he1 hen
    have hold : (colCells m e).map m1.rowInd = (colCells m e).map m.rowInd :=
      List.map_congr_left (fun z hz => (l3 z (k3 z hz).1.2).1)
    have hlt : ∀ z ∈ colCells m e, m.rowInd z < (rows0.length : Int) := by
      intro z hz
      obtain ⟨q1, q2, _⟩ := h.static.row_view (k3 z hz).1
      rw [q1]
      exact_mod_cast q2
    rw [x1, List.map_append, hold, List.pairwise_append]
    refine ⟨hsort e he1 hen, ?_, ?_⟩
    · by_cases htar : ∃ c ∈ r, (c + 1).toNat = e
      · obtain ⟨c, hc, hce⟩ := htar
        obtain ⟨j, hj, hjc⟩ := List.getElem_of_mem hc
        have hj' : r[j]? = some c := by rw [List.getElem?_eq_getElem hj, hjc]
        rw [x3 j c hj' hce]
        simp
      · have : X = [] := x4 (fun c hc hce => htar ⟨c, hc, hce⟩)
        rw [this]
        simp
    · intro a ha b hb
      obtain ⟨z, hz, rfl⟩ := List.mem_map.1 ha
      obtain ⟨y, hy, rfl⟩ := List.mem_map.1 hb
      by_cases htar : ∃ c ∈ r, (c + 1).toNat = e
      · obtain ⟨c, hc, hce⟩ := htar
        obtain ⟨j, hj, hjc⟩ := List.getElem_of_mem hc
        have hj' : r[j]? = some c := by rw [List.getElem?_eq_getElem hj, hjc]
        rw [x3 j c hj' hce] at hy
        simp at hy
        subst hy
        rw [(l4 j hj).1]
        exact hlt z hz
      · have : X = [] := x4 (fun c hc hce => htar ⟨c, hc, hce⟩)
        rw [this] at hy
        simp at hy

/-- In a matrix built from duplicate-free, in-range rows the column of the root
is empty, and every column ring lists its nodes by increasing row index. -/
theorem build_cols {n : Nat} {rows : List (List Int)} (hadm : Admissible n rows) {m : matrix}
    (hb : build n rows = some m) :
    (Ring m.downPtr m.upPtr 0 [] ∧ m.columnLen 0 = 0) ∧
      ∀ e, 1 ≤ e → e ≤ n → ((colCells m e).map m.rowInd).Pairwise (fun a b => a < b) := by
  obtain ⟨h0, _⟩ := NewMatrix_inv n
  refine addRows_cols rows [] (NewMatrix n) h0 hadm (NewMatrix_root n) ?_ m hb
  intro e he1 hen
  obtain ⟨_, _, k3⟩ := h0.colCells_eq he1 hen
  have : colCells (NewMatrix n) e = [] := by
    apply List.eq_nil_iff_forall_not_mem.2
    intro z hz
    have := (k3 z hz).1
    have ha : (NewMatrix n).alloc = n + 1 := (NewMatrix_fields n).2.2.2.2.2.2.2.2.2.2.1
    have h1 := this.1
    have h2 := this.2
    rw [ha] at h2
    omega
  rw [this]
  simp

end dlx


namespace dlx

theorem build_append {n : Nat} {rows : List (List Int)} {r : List Int} {m m' : matrix} {idx : Int}
    (hb : build n rows = some m) (hA : AddRow m r = some (m', idx)) :
    build n (rows ++ [r]) = some m' := by
  simp only [build] at hb ⊢
  rw [List.foldlM_append, hb]
  simp [hA]

/-- C16.  For a matrix built from well-formed rows and one more non-empty,
duplicate-free, in-range index sequence `r`, `AddRow` returns the next row
index and: the new nodes (at the addresses `m.alloc + j`) form a circular
horizontal ring in the given order, `left` being the inverse of `right`; the
node made for the index `c` belongs to the column of `c`, is the last node of
the vertical ring of that column (the ring before the call followed by the new
node, which lies immediately above the header), and the length of that column
has grown by exactly 1; every column that `r` does not name keeps its ring and
its length, and the header ring is unchanged; walking any column downwards
visits its nodes by increasing row index, that is, in insertion order. -/
theorem addRow_linking (n : Nat) (rows : List (List Int)) (r : List Int)
    (hwf : WellFormed n (rows ++ [r])) :
    ∃ m m', build n rows = some m ∧ AddRow m r = some (m', (rows.length : Int)) ∧
      build n (rows ++ [r]) = some m' ∧
      (∀ j, j < r.length →
        m'.rightPtr (m.alloc + j) = m.alloc + (j + 1) % r.length ∧
        m'.leftPtr (m.alloc + (j + 1) % r.length) = m.alloc + j) ∧
      (∀ j c, r[j]? = some c →
        colOf m' (m.alloc + j) = c ∧
        m'.parentColumnPtr (m.alloc + j) = (c + 1).toNat ∧
        colCells m' (c + 1).toNat = colCells m (c + 1).toNat ++ [m.alloc + j] ∧
        m'.upPtr (c + 1).toNat = m.alloc + j ∧
        m'.downPtr (m.alloc + j) = (c + 1).toNat ∧
        m'.columnLen (c + 1).toNat = m.columnLen (c + 1).toNat + 1) ∧
      (∀ e, 1 ≤ e → e ≤ n → (∀ c ∈ r, (c + 1).toNat ≠ e) →
        colCells m' e = colCells m e ∧ m'.columnLen e = m.columnLen e) ∧
      headerCells m' = headerCells m ∧
      (∀ e, 1 ≤ e → e ≤ n →
        ((colCells m' e).map m'.rowInd).Pairwise (fun a b => a < b)) := by
  have hwf0 : WellFormed n rows := fun r' hr' => hwf r' (List.mem_append_left _ hr')
  obtain ⟨hne, hnd, hrg⟩ := hwf r (by simp)
  obtain ⟨m, hb, hI, _⟩ := build_adm hwf0.admissible
  obtain ⟨m', hA, hI', _⟩ := AddRow_spec hI hnd hrg
  have hb' := build_append hb hA
  obtain ⟨_, l2, _, l4⟩ := AddRow_links hI hrg hA
  have hk : 0 < r.length := List.length_pos.2 hne
  refine ⟨m, m', hb, hA, hb', ?_, ?_, ?_, ?_, (build_cols hwf.admissible hb').2⟩
  · intro j hj
    obtain ⟨_, _, _, e4⟩ := l4 j hj
    by_cases hlast : j = r.length - 1
    · have hmod : (j + 1) % r.length = 0 := by
        have : j + 1 = r.length := by omega
        rw [this, Nat.mod_self]
      obtain ⟨_, _, e3, _⟩ := l4 0 hk
      rw [hmod, e4, if_pos hlast, e3, if_pos rfl, hlast]
      exact ⟨rfl, rfl⟩
    · have hj1 : j + 1 < r.length := by omega
      have hmod : (j + 1) % r.length = j + 1 := Nat.mod_eq_of_lt hj1
      obtain ⟨_, _, e3, _⟩ := l4 (j + 1) hj1
      rw [hmod, e4, if_neg hlast, e3, if_neg (by omega)]
      exact ⟨rfl, rfl⟩
  · intro j c hjc
    obtain ⟨hj, hjc'⟩ := List.getElem?_eq_some_iff.1 hjc
    obtain ⟨_, e2, _, _⟩ := l4 j hj
    rw [hjc'] at e2
    obtain ⟨hc0, hcn⟩ := hrg c (List.getElem?_mem hjc)
    have he1 : 1 ≤ (c + 1).toNat := by omega
    have hen : (c + 1).toNat ≤ n := by omega
    obtain ⟨X, x1, x2, x3, _⟩ := AddRow_colCells hI hnd hrg hA hI' he1 hen
    have hX := x3 j c hjc rfl
    subst hX
    obtain ⟨k1, _, _⟩ := hI'.colCells_eq he1 hen
    rw [x1] at k1
    refine ⟨?_, e2, x1, ?_, ?_, ?_⟩
    · rw [colOf, e2, hI'.static.head_ind _ hen]
      omega
    · rw [k1.prev_anchor]; simp
    · have := k1.next_at
      simpa using this
    · rw [x2]; simp
  · intro e he1 hen hall
    obtain ⟨X, x1, x2, _, x4⟩ := AddRow_colCells hI hnd hrg hA hI' he1 hen
    have hX := x4 hall
    subst hX
    exact ⟨by simpa using x1, by simpa using x2⟩
  · rw [hI'.headerCells_eq, hI.headerCells_eq]

/-- Instance of `addRow_linking` at the last row of the example of Knuth's
paper. -/
theorem addRow_linking_witness :
    WellFormed 7 ([[2, 4, 5], [0, 3, 6], [1, 2, 5], [0, 3], [1, 6]] ++ [[3, 4, 6]]) ∧
    (∃ m m', build 7 [[2, 4, 5], [0, 3, 6], [1, 2, 5], [0, 3], [1, 6]] = some m ∧
      AddRow m [3, 4, 6] =
        some (m', (([[2, 4, 5], [0, 3, 6], [1, 2, 5], [0, 3], [1, 6]] :
          List (List Int)).length : Int)) ∧
      build 7 ([[2, 4, 5], [0, 3, 6], [1, 2, 5], [0, 3], [1, 6]] ++ [[3, 4, 6]]) = some m' ∧
      (∀ j, j < ([3, 4, 6] : List Int).length →
        m'.rightPtr (m.alloc + j) = m.alloc + (j + 1) % ([3, 4, 6] : List Int).length ∧
        m'.leftPtr (m.alloc + (j + 1) % ([3, 4, 6] : List Int).length) = m.alloc + j) ∧
      (∀ j c, ([3, 4, 6] : List Int)[j]? = some c →
        colOf m' (m.alloc + j) = c ∧
        m'.parentColumnPtr (m.alloc + j) = (c + 1).toNat ∧
        colCells m' (c + 1).toNat = colCells m (c + 1).toNat ++ [m.alloc + j] ∧
        m'.upPtr (c + 1).toNat = m.alloc + j ∧
        m'.downPtr (m.alloc + j) = (c + 1).toNat ∧
        m'.columnLen (c + 1).toNat = m.columnLen (c + 1).toNat + 1) ∧
      (∀ e, 1 ≤ e → e ≤ 7 → (∀ c ∈ ([3, 4, 6] : List Int), (c + 1).toNat ≠ e) →
        colCells m' e = colCells m e ∧ m'.columnLen e = m.columnLen e) ∧
      headerCells m' = headerCells m ∧
      (∀ e, 1 ≤ e → e ≤ 7 →
        ((colCells m' e).map m'.rowInd).Pairwise (fun a b => a < b))) :=
  ⟨by decide, addRow_linking 7 [[2, 4, 5], [0, 3, 6], [1, 2, 5], [0, 3], [1, 6]] [3, 4, 6]
    (by decide)⟩

end dlx


namespace dlx

/-! ### Carrying a further property through the loops of `cover` -/

/-- The inner loop of `cover(c)` keeps every property that each single
unlinking step keeps. -/
theorem coverRow_mon {n : Nat} {rows : List (List Int)} {m : matrix} {H : List Nat} {c : Nat}
    {Lc Rm : List Nat} (h : CInv n rows m H c Lc Rm) {x : Nat} (hx : isNode n m x)
    (hxc : m.parentColumnPtr x = c) (hxl : Live n m H x) {R : List Nat}
    (hR : Ring m.rightPtr m.leftPtr x R)
    (hmem : ∀ y, y ∈ x :: R ↔ isNode n m y ∧ m.rowInd y = m.rowInd x)
    (hdisj : ∀ y ∈ R, y ∉ Rm) (fuel : Nat) (hf : R.length < fuel)
    {m0 : matrix} (hF0 : Frame n m0 m) (P : matrix → Prop) (hP : P m)
    (hstep : ∀ (s : matrix) (Rm' : List Nat) (y : Nat), CInv n rows s H c Lc Rm' →
      Frame n m0 s → isNode n s y → s.parentColumnPtr y ∈ H → s.parentColumnPtr y ≠ c →
      Live n s H y → y ∉ Rm' → P s → P (coverNode y s)) :
    ∃ t, coverRow fuel x m = some t ∧ P t := by
  have hRnd : R.Nodup := (List.nodup_cons.1 hR.1).2
  have hxR : x ∉ R := (List.nodup_cons.1 hR.1).1
  have key := ptrLoop_rule x (fun (m : matrix) x => m.rightPtr x)
    (fun y m => some (coverNode y m)) R
    (fun done _ t => CInv n rows t H c Lc (Rm ++ done) ∧ Frame n m t ∧ P t) ?_ R [] fuel m rfl hf
    ⟨by simpa using h, Frame.refl n m, hP⟩
  · obtain ⟨t, h1, _, _, h4⟩ := key
    refine ⟨t, ?_, h4⟩
    rw [coverRow, hR.next_anchor]; exact h1
  · intro done y rem s1 hL ⟨hC, hF, hPs⟩
    have hyR : y ∈ R := by rw [← hL]; simp
    have hym := (hmem y).1 (List.mem_cons_of_mem _ hyR)
    have hyx : y ≠ x := fun hh => hxR (hh ▸ hyR)
    have hpy : m.parentColumnPtr y ≠ c := by
      rw [← hxc]
      intro hh
      exact hyx (h.static.node_inj hx hym.1 hym.2 hh)
    have hly : Live n m H y := fun z hz hzr => hxl z hz (hzr.trans hym.2)
    have hpH : m.parentColumnPtr y ∈ H := hxl y hym.1 hym.2
    have hyRm : y ∉ Rm ++ done := by
      intro hh
      rcases List.mem_append.1 hh with hh | hh
      · exact hdisj y hyR hh
      · rw [← hL] at hRnd
        exact List.disjoint_of_nodup_append hRnd hh (List.mem_cons_self _ _)
    have e1 : isNode n s1 y := (hF.isNode y).2 hym.1
    have e2 : s1.parentColumnPtr y ∈ H := by rw [hF.parentColumnPtr_eq]; exact hpH
    have e3 : s1.parentColumnPtr y ≠ c := by rw [hF.parentColumnPtr_eq]; exact hpy
    have e4 : Live n s1 H y := (hF.live H y).2 hly
    have hstep1 := CInv.step (y := y) hC e1 e2 e3 e4 hyRm
    refine ⟨hyx, coverNode y s1, rfl, ?_, ⟨?_, hF.trans (Frame.coverNode n y s1), ?_⟩⟩
    · show s1.rightPtr y = _
      rw [hF.right_eq y hym.1.1]
      subst hL
      exact hR.next_at
    · simpa using hstep1.1
    · exact hstep s1 _ y hC (hF0.trans hF) e1 e2 e3 e4 hyRm hPs

/-- `cover(c)` keeps every property that bypassing the header keeps vacuously
and that each single unlinking step keeps. -/
theorem cover_mon {n : Nat} {rows : List (List Int)} {m : matrix} {H : List Nat}
    (h : Inv n rows m H) {c : Nat} (hc : c ∈ H) (fuel : Nat) (hf : m.alloc ≤ fuel)
    (P : matrix → Prop) (hP : P (coverHeader c m))
    (hstep : ∀ (Lc : List Nat) (s : matrix) (Rm' : List Nat) (y : Nat),
      CInv n rows s H c Lc Rm' → Frame n m s → isNode n s y → s.parentColumnPtr y ∈ H →
      s.parentColumnPtr y ≠ c → Live n s H y → y ∉ Rm' → P s → P (coverNode y s)) :
    ∃ t, cover fuel c m = some t ∧ P t := by
  obtain ⟨Lc, hC0, hF0, _⟩ := h.coverHeader hc
  have hcn : c ≤ n := (h.hrange c hc).2
  have hLc_lt : Lc.length < fuel := by
    refine Nat.lt_of_lt_of_le (hC0.cring.length_lt (b := m.alloc) ?_) hf
    intro x hx
    rcases List.mem_cons.1 hx with rfl | hx
    · exact h.static.node_lt hcn
    · exact ((hC0.cmem x).1 hx).1.2
  have key := ptrLoop_rule c (fun (m : matrix) x => m.downPtr x)
    (fun x m => coverRow fuel x m) Lc
    (fun done _ t => (∃ Rm, CInv n rows t H c Lc Rm ∧ Frame n m t ∧
      (∀ y ∈ Rm, ∃ x ∈ done, m.rowInd y = m.rowInd x) ∧
      (∀ x ∈ done, ∀ y, isNode n m y → m.rowInd y = m.rowInd x → y ≠ x → y ∈ Rm)) ∧ P t)
    ?_ Lc [] fuel (coverHeader c m) rfl hLc_lt ⟨⟨[], hC0, hF0, by simp, by simp⟩, hP⟩
  · obtain ⟨t, h1, _, h3⟩ := key
    refine ⟨t, ?_, h3⟩
    rw [cover]
    have : (coverHeader c m).downPtr c = Lc.headD c := hC0.cring.next_anchor
    simp only [this]
    exact h1
  · intro done x rem s1 hL ⟨⟨Rm, hC, hF, ha, hb⟩, hPs⟩
    have hxLc : x ∈ Lc := by rw [← hL]; simp
    obtain ⟨hxn, hxp, hxl⟩ := (hC.cmem x).1 hxLc
    have hxc : x ≠ c := by
      intro hh
      have := (List.nodup_cons.1 hC.cring.1).1
      exact this (hh ▸ hxLc)
    have hLnd : Lc.Nodup := (List.nodup_cons.1 hC.cring.1).2
    have hxdone : x ∉ done := by
      intro hh
      rw [← hL] at hLnd
      exact List.disjoint_of_nodup_append hLnd hh (List.mem_cons_self _ _)
    obtain ⟨R, hR, hmem, hpar⟩ := hC.static.row_of hxn
    have hdisj : ∀ y ∈ R, y ∉ Rm := by
      intro y hyR hyRm
      obtain ⟨x', hx', hr'⟩ := ha y hyRm
      have hx'Lc : x' ∈ Lc := by rw [← hL]; simp [hx']
      obtain ⟨hx'n, hx'p, _⟩ := (hC.cmem x').1 hx'Lc
      have hyr := ((hmem y).1 (List.mem_cons_of_mem _ hyR)).2
      have : x' = x := by
        refine hC.static.node_inj hxn hx'n ?_ (hx'p.trans hxp.symm)
        rw [hF.rowInd_eq] at hyr ⊢
        rw [← hr', hyr]
      exact hxdone (this ▸ hx')
    have hRlt : R.length < fuel := by
      refine Nat.lt_of_lt_of_le (hR.length_lt (b := m.alloc) ?_) hf
      intro z hz
      have := ((hmem z).1 hz).1.2
      rw [hF.alloc_eq] at this
      exact this
    obtain ⟨t', h1, hC', hF', _⟩ := coverRow_spec hC hxn hxp hxl hR hmem hpar hdisj fuel hRlt
    obtain ⟨t'', h1', hP'⟩ := coverRow_mon hC hxn hxp hxl hR hmem hdisj fuel hRlt hF P hPs
      (hstep Lc)
    have htt : t'' = t' := Option.some.inj (h1'.symm.trans h1)
    subst htt
    refine ⟨hxc, t'', h1, ?_, ⟨Rm ++ R, hC', hF.trans hF', ?_, ?_⟩, hP'⟩
    · have := hC'.cring
      rw [← hL] at this
      exact this.next_at
    · intro y hy
      rcases List.mem_append.1 hy with hy | hy
      · obtain ⟨x', hx', hr'⟩ := ha y hy
        exact ⟨x', by simp [hx'], hr'⟩
      · refine ⟨x, by simp, ?_⟩
        have := ((hmem y).1 (List.mem_cons_of_mem _ hy)).2
        rw [hF.rowInd_eq] at this
        exact this
    · intro x' hx' y hy hr hyx
      rcases List.mem_append.1 hx' with hx' | hx'
      · exact List.mem_append_left _ (hb x' hx' y hy hr hyx)
      · simp at hx'
        subst hx'
        have : y ∈ x' :: R := (hmem y).2 ⟨(hF.isNode y).2 hy, by rw [hF.rowInd_eq]; exact hr⟩
        rcases List.mem_cons.1 this with hh | hh
        · exact absurd hh hyx
        · exact List.mem_append_right _ hh

end dlx


namespace dlx

/-! ### What `cover` does to the rings of the other columns -/

/-- `cover(c)` only removes cells from the rings of the columns of the header
ring, keeping the order of the others; the ring and the length of a column
outside the header ring, and of the root, are not touched. -/
theorem cover_rings {n : Nat} {rows : List (List Int)} {m : matrix} {H : List Nat}
    (h : Inv n rows m H) {c : Nat} (hc : c ∈ H) (fuel : Nat) (hf : m.alloc ≤ fuel) :
    ∃ t, cover fuel c m = some t ∧
      ∀ e, e ≤ n → ∀ L, Ring m.downPtr m.upPtr e L →
        (∀ z ∈ L, m.parentColumnPtr z = e) →
        ∃ L', Ring t.downPtr t.upPtr e L' ∧ L'.Sublist L ∧
          (e ∉ H ∨ e = c → L' = L ∧ t.columnLen e = m.columnLen e) := by
  refine cover_mon h hc fuel hf
    (fun s => ∀ e, e ≤ n → ∀ L, Ring m.downPtr m.upPtr e L →
      (∀ z ∈ L, m.parentColumnPtr z = e) →
      ∃ L', Ring s.downPtr s.upPtr e L' ∧ L'.Sublist L ∧
        (e ∉ H ∨ e = c → L' = L ∧ s.columnLen e = m.columnLen e)) ?_ ?_
  · intro e _ L hL _
    exact ⟨L, hL, List.Sublist.refl L, fun _ => ⟨rfl, rfl⟩⟩
  · intro Lc s Rm' y hC hF hy hd hdc hl hr hPs e he L hL hmemL
    obtain ⟨L', r', hsub, hnot⟩ := hPs e he L hL hmemL
    obtain ⟨hd1, hdn⟩ := hC.hrange _ hd
    obtain ⟨Ld, hring, _, hmemd, hcomp, _⟩ := hC.cols _ hd1 hdn hdc
    have hyL : y ∈ Ld := hcomp hd y hy rfl hl hr
    by_cases hed : e = s.parentColumnPtr y
    · subst hed
      have hLL : L' = Ld := r'.unique hring
      subst hLL
      obtain ⟨L1, L2, rfl⟩ := List.append_of_mem hyL
      refine ⟨L1 ++ L2, hring.remove, ?_, fun hh => ?_⟩
      · exact (List.Sublist.append_left (List.sublist_cons_self y L2) L1).trans hsub
      · rcases hh with hh | hh
        · exact absurd hd hh
        · exact absurd hh hdc
    · have hup : s.upPtr y ∈ s.parentColumnPtr y :: Ld :=
        hring.prev_mem (List.mem_cons_of_mem _ hyL)
      have hdown : s.downPtr y ∈ s.parentColumnPtr y :: Ld :=
        hring.next_mem (List.mem_cons_of_mem _ hyL)
      have hpar : ∀ z ∈ s.parentColumnPtr y :: Ld,
          s.parentColumnPtr z = s.parentColumnPtr y := by
        intro z hz
        rcases List.mem_cons.1 hz with rfl | hz
        · exact hC.static.head_par _ hdn
        · exact (hmemd z hz).2
      have hpe : ∀ z ∈ e :: L', s.parentColumnPtr z = e := by
        intro z hz
        rcases List.mem_cons.1 hz with rfl | hz
        · exact hC.static.head_par _ he
        · rw [hF.parentColumnPtr_eq]
          exact hmemL z (hsub.subset hz)
      refine ⟨L', r'.congr ?_ ?_, hsub, fun hh => ⟨(hnot hh).1, ?_⟩⟩
      · intro z hz
        simp only [coverNode_downPtr]
        apply upd_other
        rintro rfl
        exact hed ((hpe _ hz).symm.trans (hpar _ hup))
      · intro z hz
        simp only [coverNode_upPtr]
        apply upd_other
        rintro rfl
        exact hed ((hpe _ hz).symm.trans (hpar _ hdown))
      · simp only [coverNode_columnLen]
        rw [upd_other _ _ hed]
        exact (hnot hh).2

end dlx


namespace dlx

theorem sublist_eq_filter {L L' : List Nat} (p : Nat → Bool) (hsub : L'.Sublist L)
    (hnd : L.Nodup) (hmem : ∀ y ∈ L, y ∈ L' ↔ p y = true) : L' = L.filter p := by
  have hnd' : L'.Nodup := hnd.sublist hsub
  have hall : L'.filter p = L' := by
    rw [List.filter_eq_self]
    intro y hy
    exact (hmem y (hsub.subset hy)).1 hy
  have hsub' : L'.Sublist (L.filter p) := by
    rw [← hall]
    exact hsub.filter p
  have hperm : L'.Perm (L.filter p) := by
    rw [List.perm_ext_iff_of_nodup hnd' (hnd.filter p)]
    intro y
    rw [List.mem_filter]
    constructor
    · intro hy
      exact ⟨hsub.subset hy, (hmem y (hsub.subset hy)).1 hy⟩
    · rintro ⟨h1, h2⟩
      exact (hmem y h1).2 h2
  exact hsub'.eq_of_length hperm.length_eq

/-- The ring of the root, read downwards, is empty. -/
theorem colCells_root {m : matrix} (h0 : Ring m.downPtr m.upPtr 0 []) (ha : 0 < m.alloc) :
    colCells m 0 = [] := h0.ringList_eq ha

/-- The effect of `cover(c)` on a state between two calls, for a column `c` of
the header ring. -/
theorem cover_effect {n : Nat} {rows : List (List Int)} {m : matrix} {H : List Nat}
    (h : Inv n rows m H) (h0 : Ring m.downPtr m.upPtr 0 [] ∧ m.columnLen 0 = 0) {c : Nat}
    (hc : c ∈ H) (fuel : Nat) (hf : m.alloc ≤ fuel) :
    ∃ t, cover fuel c m = some t ∧ Inv n rows t (H.erase c) ∧ Frame n m t ∧
      uncover fuel c t = some m ∧
      (Ring t.downPtr t.upPtr 0 [] ∧ t.columnLen 0 = 0) ∧
      (colCells t c = colCells m c ∧ t.columnLen c = m.columnLen c) ∧
      ∀ e, 1 ≤ e → e ≤ n → e ≠ c →
        colCells t e =
          (colCells m e).filter (fun y => decide (m.rowInd y ∉ (colCells m c).map m.rowInd)) ∧
        t.columnLen e = m.columnLen e -
          ((colCells m e).filter
            (fun y => decide (m.rowInd y ∈ (colCells m c).map m.rowInd))).length := by
  obtain ⟨t, hcov, hI1, hF, hunc, _⟩ := cover_spec h hc fuel hf
  obtain ⟨t', hcov', hrings⟩ := cover_rings h hc fuel hf
  have htt : t' = t := Option.some.inj (hcov'.symm.trans hcov)
  subst htt
  obtain ⟨hc1, hcn⟩ := h.hrange c hc
  have hHnd := h.hnodup
  refine ⟨t', hcov, hI1, hF, hunc, ?_, ?_, ?_⟩
  · obtain ⟨L', r', hsub, hnot⟩ := hrings 0 (Nat.zero_le n) [] h0.1 (by simp)
    have h0H : 0 ∉ H := fun hh => by have := (h.hrange 0 hh).1; omega
    obtain ⟨e1, e2⟩ := hnot (Or.inl h0H)
    subst e1
    exact ⟨r', e2.trans h0.2⟩
  · obtain ⟨k1, _, k3⟩ := h.colCells_eq hc1 hcn
    obtain ⟨L', r', _, hnot⟩ := hrings c hcn _ k1 (fun z hz => (k3 z hz).2)
    obtain ⟨e1, e2⟩ := hnot (Or.inr rfl)
    subst e1
    obtain ⟨k1', _, _⟩ := hI1.colCells_eq hc1 hcn
    exact ⟨k1'.unique r', e2⟩
  · intro e he1 hen hec
    obtain ⟨kc1, _, kc3⟩ := h.colCells_eq hc1 hcn
    obtain ⟨k1, k2, k3⟩ := h.colCells_eq he1 hen
    obtain ⟨k1', k2', _⟩ := hI1.colCells_eq he1 hen
    obtain ⟨L', r', hsub, hnot⟩ := hrings e hen _ k1 (fun z hz => (k3 z hz).2)
    have hLL : colCells t' e = L' := k1'.unique r'
    -- the cells of column `c` are the live nodes of that column
    obtain ⟨Lc, hLc, _, hLcsub, hLccomp, hLcsound⟩ := h.cols c hc1 hcn
    have hLcc : Lc = colCells m c := hLc.unique kc1
    subst hLcc
    have hnd : (colCells m e).Nodup := (List.nodup_cons.1 k1.1).2
    have hfilter : colCells t' e = (colCells m e).filter
        (fun y => decide (m.rowInd y ∉ (colCells m c).map m.rowInd)) := by
      rw [hLL]
      refine sublist_eq_filter _ hsub hnd ?_
      intro y hy
      simp only [decide_eq_true_eq]
      obtain ⟨hyn, hyp⟩ := k3 y hy
      by_cases heH : e ∈ H
      · obtain ⟨Le, hLe, _, _, hcompe, hsounde⟩ := h.cols e he1 hen
        have hLee : Le = colCells m e := hLe.unique k1
        subst hLee
        have heH' : e ∈ H.erase c := (List.mem_erase_of_ne hec).2 heH
        obtain ⟨Le', hLe', _, _, hcompe', hsounde'⟩ := hI1.cols e he1 hen
        have hLee' : Le' = L' := hLe'.unique r'
        subst hLee'
        constructor
        · intro hyL' hrow
          obtain ⟨x, hx, hxr⟩ := List.mem_map.1 hrow
          have hlive := (hF.live (H.erase c) y).1 (hsounde' heH' y hyL')
          have := hlive x (hLcsub x hx).1 hxr
          rw [(hLcsub x hx).2] at this
          exact (List.Nodup.not_mem_erase hHnd) this
        · intro hrow
          have hlive : Live n m H y := hsounde heH y hy
          refine hcompe' heH' y ((hF.isNode y).2 hyn) (by rw [hF.parentColumnPtr_eq]; exact hyp)
            ((hF.live _ y).2 ?_)
          intro z hz hzr
          have hzH : m.parentColumnPtr z ∈ H := hlive z hz hzr
          refine (List.mem_erase_of_ne ?_).2 hzH
          intro hzc
          apply hrow
          have hzl : Live n m H z := fun w hw hwr => hlive w hw (hwr.trans hzr)
          have hzLc : z ∈ colCells m c := hLccomp hc z hz hzc hzl
          exact List.mem_map.2 ⟨z, hzLc, hzr⟩
      · obtain ⟨e1, _⟩ := hnot (Or.inl heH)
        subst e1
        constructor
        · intro _ hrow
          obtain ⟨x, hx, hxr⟩ := List.mem_map.1 hrow
          have hxl : Live n m H x := hLcsound hc x hx
          have := hxl y hyn hxr.symm
          rw [hyp] at this
          exact heH this
        · intro _; exact hy
    refine ⟨hfilter, ?_⟩
    rw [k2', k2, hfilter]
    have hlen := List.length_eq_length_filter_add (l := colCells m e)
      (fun y => decide (m.rowInd y ∉ (colCells m c).map m.rowInd))
    have hcongr : (colCells m e).filter
        (fun y => !decide (m.rowInd y ∉ (colCells m c).map m.rowInd)) =
        (colCells m e).filter (fun y => decide (m.rowInd y ∈ (colCells m c).map m.rowInd)) := by
      apply List.filter_congr
      intro y _
      by_cases hA : m.rowInd y ∈ (colCells m c).map m.rowInd <;> simp [hA]
    rw [hcongr] at hlen
    rw [hlen]
    push_cast
    ring

end dlx


namespace dlx

/-! ### The states reached from a built matrix by covering columns -/

/-- Covering distinct columns of the header ring one after the other, with the
column of the root staying empty. -/
theorem coverAll_cols {n : Nat} {rows : List (List Int)} (fuel : Nat) :
    ∀ (cs : List Nat) (m : matrix) (H : List Nat), Inv n rows m H →
      (Ring m.downPtr m.upPtr 0 [] ∧ m.columnLen 0 = 0) → cs.Nodup →
      (∀ c ∈ cs, c ∈ H) → m.alloc ≤ fuel →
      ∃ t, coverAll fuel cs m = some t ∧ Inv n rows t (eraseAll H cs) ∧ Frame n m t ∧
        uncoverAll fuel cs.reverse t = some m ∧
        (Ring t.downPtr t.upPtr 0 [] ∧ t.columnLen 0 = 0) := by
  intro cs
  induction cs with
  | nil =>
    intro m H h h0 _ _ _
    exact ⟨m, rfl, h, Frame.refl n m, rfl, h0⟩
  | cons c cs ih =>
    intro m H h h0 hnd hsub hf
    have hc : c ∈ H := hsub c (List.mem_cons_self _ _)
    obtain ⟨t1, h1, hI1, hF1, hU1, h01, _⟩ := cover_effect h h0 hc fuel hf
    have hcs : ∀ d ∈ cs, d ∈ H.erase c := by
      intro d hd
      have hne : d ≠ c := by
        rintro rfl
        exact (List.nodup_cons.1 hnd).1 hd
      exact (List.mem_erase_of_ne hne).2 (hsub d (List.mem_cons_of_mem _ hd))
    obtain ⟨t, g1, gI, gF, gU, g0⟩ := ih t1 (H.erase c) hI1 h01 (List.nodup_cons.1 hnd).2 hcs
      (by rw [hF1.alloc_eq]; exact hf)
    refine ⟨t, ?_, gI, hF1.trans gF, ?_, g0⟩
    · simp only [coverAll, List.foldlM_cons, h1, Option.bind_eq_bind, Option.some_bind]
      exact g1
    · simp only [uncoverAll, List.reverse_cons, List.foldlM_append] at gU ⊢
      rw [gU]
      simp only [Option.bind_eq_bind, Option.some_bind, List.foldlM_cons, hU1, List.foldlM_nil]
      rfl

/-- The states that the claims about `cover` range over: a matrix built from
duplicate-free, in-range rows, after any number of covers of distinct columns. -/
theorem reach {n : Nat} {rows : List (List Int)} (hadm : Admissible n rows) :
    ∃ m, build n rows = some m ∧ Inv n rows m (List.range' 1 n) ∧ m.solutionRows = [] ∧
      headerCells m = List.range' 1 n ∧
      ∀ fuel, m.alloc ≤ fuel → ∀ cs : List Nat, cs.Nodup → (∀ c ∈ cs, c ∈ headerCells m) →
        ∃ t, coverAll fuel cs m = some t ∧ Inv n rows t (eraseAll (List.range' 1 n) cs) ∧
          Frame n m t ∧ uncoverAll fuel cs.reverse t = some m ∧
          (Ring t.downPtr t.upPtr 0 [] ∧ t.columnLen 0 = 0) := by
  obtain ⟨m, hb, hI, hsr⟩ := build_adm hadm
  refine ⟨m, hb, hI, hsr, hI.headerCells_eq, ?_⟩
  intro fuel hf cs hnd hsub
  rw [hI.headerCells_eq] at hsub
  exact coverAll_cols fuel cs m _ hI (build_cols hadm hb).1 hnd hsub hf

end dlx


namespace dlx

/-! ### Termination, round trip, column lengths, branching and the effect of `cover` -/

/-- C12 (termination).  For every matrix built from well-formed rows, `search`
returns for every fuel above `m.alloc + n`: no loop inside it runs for more than
`m.alloc` steps and the recursion is at most `n + 1` deep (a loop or a level that
ran out of fuel would make the result `none`); so do `Solve` and
`SolveComplete`.  The recursion is well-founded because, in every state reached
by covering distinct columns in which the header ring is not empty, the column
scan returns a column of the header ring, `cover` of it returns, and the header
ring is strictly shorter afterwards. -/
theorem search_terminates (n : Nat) (rows : List (List Int)) (hwf : WellFormed n rows) :
    ∃ m, build n rows = some m ∧
      (∀ fuel, m.alloc + n < fuel →
        (∃ st, search fuel m = some st) ∧ (∃ res, Solve fuel m = some res) ∧
        (∃ out, SolveComplete fuel m = some out)) ∧
      (∀ fuel, m.alloc ≤ fuel → ∀ cs : List Nat, cs.Nodup → (∀ c ∈ cs, c ∈ headerCells m) →
        ∃ t, coverAll fuel cs m = some t ∧
          (headerCells t ≠ [] →
            ∃ c u, pickColumn fuel t = some c ∧ c ∈ headerCells t ∧
              cover fuel (t.parentColumnPtr c) t = some u ∧
              uncover fuel (t.parentColumnPtr c) u = some t ∧
              (headerCells u).length < (headerCells t).length)) := by
  obtain ⟨m, hb, hI, hsr, _, hreach⟩ := reach hwf.admissible
  refine ⟨m, hb, ?_, ?_⟩
  · intro fuel hf
    obtain ⟨E, Ts, h1, _, _⟩ := search_spec fuel m _ hI
      (by intro z hz; rw [hsr] at hz; simp at hz) (by rw [hsr]; simp)
      (by simpa using hf)
    refine ⟨⟨_, h1⟩, ?_, ⟨_, SolveComplete_of_search h1⟩⟩
    cases E with
    | nil => exact ⟨_, Solve_of_search_nil h1⟩
    | cons e es => exact ⟨_, Solve_of_search_cons h1⟩
  · intro fuel hf cs hnd hsub
    obtain ⟨t, h1, hIt, hF, _, _⟩ := hreach fuel hf cs hnd hsub
    refine ⟨t, h1, fun hne => ?_⟩
    rw [hIt.headerCells_eq] at hne ⊢
    have hft : t.alloc ≤ fuel := by rw [hF.alloc_eq]; exact hf
    obtain ⟨c, hpick, hc⟩ := pickColumn_spec hIt hne fuel hft
    have hpc : t.parentColumnPtr c = c := hIt.static.head_par c (hIt.hrange c hc).2
    obtain ⟨u, hcov, hIu, _, hunc, _⟩ := cover_spec hIt hc fuel hft
    refine ⟨c, u, hpick, hc, by rw [hpc]; exact hcov, by rw [hpc]; exact hunc, ?_⟩
    rw [hIu.headerCells_eq, List.length_erase_of_mem hc]
    have := List.length_pos_of_mem hc
    omega

/-- Instance of `search_terminates` at the example of Knuth's paper. -/
theorem search_terminates_witness :
    WellFormed 7 knuthRows ∧
    (∃ m, build 7 knuthRows = some m ∧
      (∀ fuel, m.alloc + 7 < fuel →
        (∃ st, search fuel m = some st) ∧ (∃ res, Solve fuel m = some res) ∧
        (∃ out, SolveComplete fuel m = some out)) ∧
      (∀ fuel, m.alloc ≤ fuel → ∀ cs : List Nat, cs.Nodup → (∀ c ∈ cs, c ∈ headerCells m) →
        ∃ t, coverAll fuel cs m = some t ∧
          (headerCells t ≠ [] →
            ∃ c u, pickColumn fuel t = some c ∧ c ∈ headerCells t ∧
              cover fuel (t.parentColumnPtr c) t = some u ∧
              uncover fuel (t.parentColumnPtr c) u = some t ∧
              (headerCells u).length < (headerCells t).length))) :=
  ⟨by decide, search_terminates 7 knuthRows (by decide)⟩

/-- C13 (cover/uncover round trip).  Take a matrix built from well-formed rows
and cover any distinct columns `cs` of its header ring, one after the other.
Every call returns; in the state reached, for every column `c` still in the
header ring, `cover(c)` followed immediately by `uncover(c)` yields exactly the
same state (the whole matrix: every link and every column length); and
uncovering `cs` in the reverse order restores the matrix that was built. -/
theorem cover_uncover_round_trip (n : Nat) (rows : List (List Int))
    (hwf : WellFormed n rows) :
    ∃ m, build n rows = some m ∧ headerCells m = List.range' 1 n ∧
      ∀ fuel, m.alloc ≤ fuel → ∀ cs : List Nat, cs.Nodup → (∀ c ∈ cs, c ∈ headerCells m) →
        ∃ t, coverAll fuel cs m = some t ∧
          (∀ c ∈ headerCells t, ∃ u, cover fuel c t = some u ∧ uncover fuel c u = some t) ∧
          uncoverAll fuel cs.reverse t = some m := by
  obtain ⟨m, hb, _, _, hH, hreach⟩ := reach hwf.admissible
  refine ⟨m, hb, hH, ?_⟩
  intro fuel hf cs hnd hsub
  obtain ⟨t, h1, hIt, hF, hU, _⟩ := hreach fuel hf cs hnd hsub
  refine ⟨t, h1, ?_, hU⟩
  intro c hc
  rw [hIt.headerCells_eq] at hc
  obtain ⟨u, hcov, _, _, hunc, _⟩ := cover_spec hIt hc fuel (by rw [hF.alloc_eq]; exact hf)
  exact ⟨u, hcov, hunc⟩

/-- Instance of `cover_uncover_round_trip` at the example with two solutions. -/
theorem cover_uncover_round_trip_witness :
    WellFormed 4 multiRows ∧
    (∃ m, build 4 multiRows = some m ∧ headerCells m = List.range' 1 4 ∧
      ∀ fuel, m.alloc ≤ fuel → ∀ cs : List Nat, cs.Nodup → (∀ c ∈ cs, c ∈ headerCells m) →
        ∃ t, coverAll fuel cs m = some t ∧
          (∀ c ∈ headerCells t, ∃ u, cover fuel c t = some u ∧ uncover fuel c u = some t) ∧
          uncoverAll fuel cs.reverse t = some m) :=
  ⟨by decide, cover_uncover_round_trip 4 multiRows (by decide)⟩

/-- C14 (column length invariant).  Take a matrix built by `NewMatrix(n)` and
`AddRow` calls with duplicate-free, in-range index sequences (so also every
state between two `AddRow` calls), and cover any distinct columns of its header
ring; `uncover` leads back to those same states.  In every such state the
length stored in each column header, and in the root, equals the number of
nodes met by walking its vertical ring downward from the header back to the
header. -/
theorem column_length_invariant (n : Nat) (rows : List (List Int))
    (hadm : Admissible n rows) :
    ∃ m, build n rows = some m ∧
      ∀ fuel, m.alloc ≤ fuel → ∀ cs : List Nat, cs.Nodup → (∀ c ∈ cs, c ∈ headerCells m) →
        ∃ t, coverAll fuel cs m = some t ∧
          ∀ c, c ≤ n → t.columnLen c = ((colCells t c).length : Int) := by
  obtain ⟨m, hb, _, _, _, hreach⟩ := reach hadm
  refine ⟨m, hb, ?_⟩
  intro fuel hf cs hnd hsub
  obtain ⟨t, h1, hIt, _, _, h0⟩ := hreach fuel hf cs hnd hsub
  refine ⟨t, h1, ?_⟩
  intro c hcn
  by_cases hc0 : c = 0
  · subst hc0
    rw [colCells_root h0.1 (Nat.lt_of_le_of_lt (Nat.zero_le n) hIt.static.alloc_gt), h0.2]
    rfl
  · exact (hIt.colCells_eq (by omega) hcn).2.1

/-- Instance of `column_length_invariant` at the rows of
`TestSolveCompleteNoSolutions`. -/
theorem column_length_invariant_witness :
    Admissible 4 nilRows ∧
    (∃ m, build 4 nilRows = some m ∧
      ∀ fuel, m.alloc ≤ fuel → ∀ cs : List Nat, cs.Nodup → (∀ c ∈ cs, c ∈ headerCells m) →
        ∃ t, coverAll fuel cs m = some t ∧
          ∀ c, c ≤ 4 → t.columnLen c = ((colCells t c).length : Int)) :=
  ⟨by decide, column_length_invariant 4 nilRows (by decide)⟩

/-- C15 (branch selection).  In every state reached from a matrix built from
well-formed rows by covering distinct columns, if the header ring holds at
least one column, then the column scan of `search` (whose result `search`
passes to `cover`) returns a column `c` of the header ring that is its own
`parentColumn`, whose length is at most the length of every column of the
header ring and strictly less than the length of every column that precedes it
in ring order from the root. -/
theorem branch_selection (n : Nat) (rows : List (List Int)) (hwf : WellFormed n rows) :
    ∃ m, build n rows = some m ∧
      ∀ fuel, m.alloc ≤ fuel → ∀ cs : List Nat, cs.Nodup → (∀ c ∈ cs, c ∈ headerCells m) →
        ∃ t, coverAll fuel cs m = some t ∧
          (headerCells t ≠ [] →
            ∃ c H1 H2, pickColumn fuel t = some c ∧ t.parentColumnPtr c = c ∧
              headerCells t = H1 ++ c :: H2 ∧
              (∀ d ∈ headerCells t, t.columnLen c ≤ t.columnLen d) ∧
              (∀ d ∈ H1, t.columnLen c < t.columnLen d)) := by
  obtain ⟨m, hb, _, _, _, hreach⟩ := reach hwf.admissible
  refine ⟨m, hb, ?_⟩
  intro fuel hf cs hnd hsub
  obtain ⟨t, h1, hIt, hF, _, _⟩ := hreach fuel hf cs hnd hsub
  refine ⟨t, h1, fun hne => ?_⟩
  rw [hIt.headerCells_eq] at hne ⊢
  obtain ⟨c, H1, H2, hpick, hH, hlt, hle⟩ :=
    pickColumn_min hIt hne fuel (by rw [hF.alloc_eq]; exact hf)
  have hc : c ∈ eraseAll (List.range' 1 n) cs := by rw [hH]; simp
  refine ⟨c, H1, H2, hpick, hIt.static.head_par c (hIt.hrange c hc).2, hH, ?_, hlt⟩
  intro d hd
  rw [hH] at hd
  rcases List.mem_append.1 hd with hd | hd
  · exact le_of_lt (hlt d hd)
  · rcases List.mem_cons.1 hd with rfl | hd
    · exact le_refl _
    · exact hle d hd

/-- Instance of `branch_selection` at the example of Knuth's paper. -/
theorem branch_selection_witness :
    WellFormed 7 knuthRows ∧
    (∃ m, build 7 knuthRows = some m ∧
      ∀ fuel, m.alloc ≤ fuel → ∀ cs : List Nat, cs.Nodup → (∀ c ∈ cs, c ∈ headerCells m) →
        ∃ t, coverAll fuel cs m = some t ∧
          (headerCells t ≠ [] →
            ∃ c H1 H2, pickColumn fuel t = some c ∧ t.parentColumnPtr c = c ∧
              headerCells t = H1 ++ c :: H2 ∧
              (∀ d ∈ headerCells t, t.columnLen c ≤ t.columnLen d) ∧
              (∀ d ∈ H1, t.columnLen c < t.columnLen d))) :=
  ⟨by decide, branch_selection 7 knuthRows (by decide)⟩

/-- C18 (effect of `cover`).  In every state `m` reached from a matrix built
from well-formed rows by covering distinct columns, and for every column `c` of
the header ring of `m`, `cover(c)` returns a state `t` in which: the header
ring, read rightwards or leftwards from the root, is the one of `m` without
`c`, the other headers in the same order; the ring of `c` itself is unchanged;
and the ring of every other column `e`, read downwards, is the ring it had in
`m` without the nodes whose row has a node in the ring of `c` (so such a row is
no longer met in any other column, and every other row is still met wherever it
was), the length of `e` having decreased by exactly the number of those
nodes. -/
theorem cover_effect_on_columns (n : Nat) (rows : List (List Int))
    (hwf : WellFormed n rows) :
    ∃ m0, build n rows = some m0 ∧
      ∀ fuel, m0.alloc ≤ fuel → ∀ cs : List Nat, cs.Nodup → (∀ c ∈ cs, c ∈ headerCells m0) →
        ∃ m, coverAll fuel cs m0 = some m ∧
          ∀ c ∈ headerCells m, ∃ t, cover fuel c m = some t ∧
            c ∉ headerCells t ∧ headerCells t = (headerCells m).erase c ∧
            headerCellsLeft m = (headerCells m).reverse ∧
            headerCellsLeft t = ((headerCells m).erase c).reverse ∧
            colCells t c = colCells m c ∧
            ∀ e, 1 ≤ e → e ≤ n → e ≠ c →
              colCells t e = (colCells m e).filter
                (fun y => decide (m.rowInd y ∉ (colCells m c).map m.rowInd)) ∧
              t.columnLen e = m.columnLen e -
                ((colCells m e).filter
                  (fun y => decide (m.rowInd y ∈ (colCells m c).map m.rowInd))).length := by
  obtain ⟨m0, hb, _, _, _, hreach⟩ := reach hwf.admissible
  refine ⟨m0, hb, ?_⟩
  intro fuel hf cs hnd hsub
  obtain ⟨m, h1, hIm, hF, _, h0⟩ := hreach fuel hf cs hnd hsub
  refine ⟨m, h1, ?_⟩
  intro c hc
  rw [hIm.headerCells_eq] at hc ⊢
  obtain ⟨t, hcov, hIt, _, _, _, hcc, hcols⟩ :=
    cover_effect hIm h0 hc fuel (by rw [hF.alloc_eq]; exact hf)
  refine ⟨t, hcov, ?_, hIt.headerCells_eq, hIm.headerCells_left, hIt.headerCells_left, hcc.1,
    hcols⟩
  rw [hIt.headerCells_eq]
  exact List.Nodup.not_mem_erase hIm.hnodup

/-- Instance of `cover_effect_on_columns` at the example of Knuth's paper. -/
theorem cover_effect_on_columns_witness :
    WellFormed 7 knuthRows ∧
    (∃ m0, build 7 knuthRows = some m0 ∧
      ∀ fuel, m0.alloc ≤ fuel → ∀ cs : List Nat, cs.Nodup → (∀ c ∈ cs, c ∈ headerCells m0) →
        ∃ m, coverAll fuel cs m0 = some m ∧
          ∀ c ∈ headerCells m, ∃ t, cover fuel c m = some t ∧
            c ∉ headerCells t ∧ headerCells t = (headerCells m).erase c ∧
            headerCellsLeft m = (headerCells m).reverse ∧
            headerCellsLeft t = ((headerCells m).erase c).reverse ∧
            colCells t c = colCells m c ∧
            ∀ e, 1 ≤ e → e ≤ 7 → e ≠ c →
              colCells t e = (colCells m e).filter
                (fun y => decide (m.rowInd y ∉ (colCells m c).map m.rowInd)) ∧
              t.columnLen e = m.columnLen e -
                ((colCells m e).filter
                  (fun y => decide (m.rowInd y ∈ (colCells m c).map m.rowInd))).length) :=
  ⟨by decide, cover_effect_on_columns 7 knuthRows (by decide)⟩

end dlx


namespace dlx

/-! ### The path of `search` to an emitted solution -/

/-- The descent of `search` into the candidate row of the node `x` of the
column `c` just covered: the loop covering the other columns of the row returns
a state that meets the hypotheses of the specification of `search`, and the
matching loop of `uncover` calls leads back. -/
theorem searchRow_setup {n : Nat} {rows : List (List Int)} {m t1 : matrix} {H : List Nat}
    {c x : Nat} (hI : Inv n rows m H) (hc : c ∈ H) (hI1 : Inv n rows t1 (H.erase c))
    (hF1 : Frame n m t1) (hx : isNode n m x) (hxp : m.parentColumnPtr x = c)
    (hxl : Live n m H x)
    (hsel : ∀ z ∈ m.solutionRows, isNode n m z ∧ m.parentColumnPtr z ∉ H)
    (hnd : (m.solutionRows.map m.rowInd).Nodup) (f : Nat) (hf : m.alloc ≤ f) :
    ∃ t2 H2, coverRowColumns f x { t1 with solutionRows := t1.solutionRows ++ [x] } = some t2 ∧
      uncoverRowColumns f x t2 = some { t1 with solutionRows := t1.solutionRows ++ [x] } ∧
      Inv n rows t2 H2 ∧ H2.length + 1 ≤ H.length ∧
      (∀ z ∈ t2.solutionRows, isNode n t2 z ∧ t2.parentColumnPtr z ∉ H2) ∧
      (t2.solutionRows.map t2.rowInd).Nodup ∧
      t2.alloc = m.alloc ∧ t2.parentColumnPtr = m.parentColumnPtr ∧
      t2.solutionRows = m.solutionRows ++ [x] := by
  have hHnd := hI.hnodup
  have hI2 : Inv n rows { t1 with solutionRows := t1.solutionRows ++ [x] } (H.erase c) :=
    hI1.setSolutionRows _
  generalize hm2 : ({ t1 with solutionRows := t1.solutionRows ++ [x] } : matrix) = m2 at hI2
  have halloc2 : m2.alloc = m.alloc := by rw [← hm2]; exact hF1.alloc_eq
  have hpar2 : m2.parentColumnPtr = m.parentColumnPtr := by
    rw [← hm2]; exact hF1.parentColumnPtr_eq
  have hrow2 : m2.rowInd = m.rowInd := by rw [← hm2]; exact hF1.rowInd_eq
  have hsr2 : m2.solutionRows = m.solutionRows ++ [x] := by
    rw [← hm2, ← hF1.solutionRows_eq]
  have hnode2 : ∀ z, isNode n m2 z ↔ isNode n m z := by
    intro z; simp [isNode, halloc2]
  have hx2 : isNode n m2 x := (hnode2 x).2 hx
  obtain ⟨R, hR, hmem, hpar⟩ := hI2.static.row_of hx2
  have hnodeR : ∀ y ∈ R, isNode n m2 y :=
    fun y hy => ((hmem y).1 (List.mem_cons_of_mem _ hy)).1
  have hparR : (R.map m2.parentColumnPtr).Nodup := by
    rw [List.map_cons] at hpar
    exact (List.nodup_cons.1 hpar).2
  have hxnotR : m2.parentColumnPtr x ∉ R.map m2.parentColumnPtr := by
    rw [List.map_cons] at hpar
    exact (List.nodup_cons.1 hpar).1
  have hRrow : ∀ y ∈ R, isNode n m y ∧ m.rowInd y = m.rowInd x := by
    intro y hy
    obtain ⟨h1, h2⟩ := (hmem y).1 (List.mem_cons_of_mem _ hy)
    rw [hrow2] at h2
    exact ⟨(hnode2 y).1 h1, h2⟩
  have hin : ∀ y ∈ R, m2.parentColumnPtr y ∈ H.erase c := by
    intro y hy
    obtain ⟨h1, h2⟩ := hRrow y hy
    have hH : m.parentColumnPtr y ∈ H := hxl y h1 h2
    have hne : m2.parentColumnPtr y ≠ c := by
      intro hh
      apply hxnotR
      have hxy : m2.parentColumnPtr x = m2.parentColumnPtr y := by rw [hh, hpar2, hxp]
      rw [hxy]
      exact List.mem_map_of_mem _ hy
    rw [hpar2] at hne ⊢
    exact (List.mem_erase_of_ne hne).2 hH
  have hfa : m2.alloc ≤ f := by rw [halloc2]; exact hf
  obtain ⟨t2, hc2, hI3, hF2, hU2⟩ := coverRowColumns_spec hI2 hx2 hR hnodeR hparR hin f hfa
  have halloc3 : t2.alloc = m.alloc := hF2.alloc_eq.trans halloc2
  have hpar3 : t2.parentColumnPtr = m.parentColumnPtr := hF2.parentColumnPtr_eq.trans hpar2
  have hrow3 : t2.rowInd = m.rowInd := hF2.rowInd_eq.trans hrow2
  have hsr3 : t2.solutionRows = m.solutionRows ++ [x] := hF2.solutionRows_eq.trans hsr2
  have hnode3 : ∀ z, isNode n t2 z ↔ isNode n m z := by
    intro z; simp [isNode, halloc3]
  have hH2 : ∀ z, z ∈ eraseAll (H.erase c) (R.map m2.parentColumnPtr) ↔
      z ∈ H ∧ z ≠ c ∧ z ∉ R.map m.parentColumnPtr := by
    intro z
    rw [mem_eraseAll _ (hHnd.erase c), hHnd.mem_erase_iff, hpar2]
    tauto
  refine ⟨t2, eraseAll (H.erase c) (R.map m2.parentColumnPtr), hc2, hU2, hI3, ?_, ?_, ?_,
    halloc3, hpar3, hsr3⟩
  · have h1 := eraseAll_length_le (H.erase c) (R.map m2.parentColumnPtr)
    have h2 : (H.erase c).length = H.length - 1 := List.length_erase_of_mem hc
    have h3 : 0 < H.length := List.length_pos_of_mem hc
    omega
  · intro z hz
    rw [hsr3] at hz
    rw [hnode3, hpar3, hH2]
    rcases List.mem_append.1 hz with hz | hz
    · exact ⟨(hsel z hz).1, fun hh => (hsel z hz).2 hh.1⟩
    · simp at hz
      subst hz
      exact ⟨hx, fun hh => hh.2.1 hxp⟩
  · rw [hsr3, hrow3, List.map_append, List.map_cons, List.map_nil]
    refine List.Nodup.append hnd (List.nodup_singleton _) ?_
    intro k hk hk'
    simp at hk'
    subst hk'
    obtain ⟨z, hz, hzr⟩ := List.mem_map.1 hk
    exact (hsel z hz).2 (hxl z (hsel z hz).1 hzr)

/-- Every solution that `search` sends was sent at the end of its own path:
the matrix at the send is the one reached by descending along the nodes pushed,
each of which is a node of the column picked at its level. -/
theorem search_trace {n : Nat} {rows : List (List Int)} :
    ∀ (fuel : Nat) (m : matrix) (H : List Nat), Inv n rows m H →
      (∀ z ∈ m.solutionRows, isNode n m z ∧ m.parentColumnPtr z ∉ H) →
      (m.solutionRows.map m.rowInd).Nodup → m.alloc + H.length < fuel →
      ∀ st, search fuel m = some st → ∀ e ∈ st.emitted, Traced m e := by
  intro fuel
  induction fuel with
  | zero => intro m H _ _ _ hf; simp at hf
  | succ f ih =>
    intro m H hI hsel hnd hf st hst
    have hs := hI.static
    have hfa : m.alloc ≤ f := by omega
    by_cases hroot : m.rightPtr m.root = m.root
    · have hH : H = [] := hI.right_root.1 hroot
      subst hH
      have hg := getSolution_spec hs (fun x hx => (hsel x hx).1) hnd f hfa
      simp only [search, hroot, if_true, hg, Option.some.injEq] at hst
      subst hst
      intro e he
      simp only [List.mem_singleton] at he
      subst he
      exact ⟨[], [], by simp, List.Forall₂.nil, rfl⟩
    · have hH : H ≠ [] := fun hh => hroot (hI.right_root.2 hh)
      obtain ⟨c, hpick, hc⟩ := pickColumn_spec hI hH f hfa
      obtain ⟨hc1, hcn⟩ := hI.hrange c hc
      have hpc : m.parentColumnPtr c = c := hs.head_par c hcn
      obtain ⟨t1, hcov, hI1, hF1, hunc, Lc, hLc, _, hLcmem⟩ := cover_spec hI hc f hfa
      -- the same two steps with the fuel of `descend`
      have hpick0 : pickColumn m.alloc m = some c := by
        obtain ⟨c', h1, _⟩ := pickColumn_spec hI hH m.alloc (Nat.le_refl _)
        have := pickColumn_mono hfa h1
        rw [hpick] at this
        rw [h1, Option.some.inj this]
      have hcov0 : cover m.alloc c m = some t1 := by
        obtain ⟨t', h1, _⟩ := cover_spec hI hc m.alloc (Nat.le_refl _)
        have := cover_mono hfa h1
        rw [hcov] at this
        rw [h1, Option.some.inj this]
      have hLclt : Lc.length < f := by
        refine Nat.lt_of_lt_of_le (hLc.length_lt (b := m.alloc) ?_) hfa
        intro x hx
        rcases List.mem_cons.1 hx with rfl | hx
        · exact hs.node_lt hcn
        · exact ((hLcmem x).1 hx).1.2
      have key := ptrLoop_rule c (fun (st : SearchState) x => st.m.downPtr x)
        (searchRow f (search f)) Lc
        (fun _ _ st => st.m = t1 ∧ ∀ e ∈ st.emitted, Traced m e)
        ?_ Lc [] f ⟨t1, [], false⟩ rfl hLclt ⟨rfl, by simp⟩
      · obtain ⟨st', hloop, hst1, hst2⟩ := key
        have hd : t1.downPtr c = Lc.headD c := hLc.next_anchor
        have hpc1 : t1.parentColumnPtr c = c := by rw [hF1.parentColumnPtr_eq]; exact hpc
        rw [← hd] at hloop
        simp only [search, hroot, if_false, hpick, hpc, hcov, hloop, hst1, hpc1, hunc,
          Option.some.injEq] at hst
        subst hst
        exact hst2
      · intro done x rem st0 hL ⟨hm1, htr⟩
        have hxLc : x ∈ Lc := by rw [← hL]; simp
        obtain ⟨hxn, hxp, hxl⟩ := (hLcmem x).1 hxLc
        have hxc : x ≠ c := by
          intro hh
          exact (List.nodup_cons.1 hLc.1).1 (hh ▸ hxLc)
        obtain ⟨sm, se, sf⟩ := st0
        simp only at hm1 htr
        subst hm1
        obtain ⟨t2, H2, hc2, hU2, hI3, hlen, hsel2, hnd2, halloc3, hpar3, hsr3⟩ :=
          searchRow_setup hI hc hI1 hF1 hxn hxp hxl hsel hnd f hfa
        have hfuel2 : t2.alloc + H2.length < f := by rw [halloc3]; omega
        obtain ⟨E1, Ts1, hch, _, _⟩ := search_spec f t2 H2 hI3 hsel2 hnd2 hfuel2
        have htr1 := ih t2 H2 hI3 hsel2 hnd2 hfuel2 _ hch
        have hc20 : coverRowColumns m.alloc x
            { sm with solutionRows := sm.solutionRows ++ [x] } = some t2 := by
          obtain ⟨t', _, h1, _⟩ :=
            searchRow_setup hI hc hI1 hF1 hxn hxp hxl hsel hnd m.alloc (Nat.le_refl _)
          have := coverRowColumns_mono hfa h1
          rw [hc2] at this
          rw [h1, Option.some.inj this]
        have hpop : ({ ({ sm with solutionRows := sm.solutionRows ++ [x] } : matrix) with
            solutionRows := ({ sm with solutionRows := sm.solutionRows ++ [x] } :
              matrix).solutionRows.dropLast } : matrix) = sm := dropLast_pop sm x
        have hrow : searchRow f (search f) x ⟨sm, se, sf⟩ =
            some ⟨sm, se ++ E1, if (!E1.isEmpty) = true then true else sf⟩ := by
          simp only [searchRow, hc2, hch, hU2, hpop]
        refine ⟨hxc, _, hrow, ?_, rfl, ?_⟩
        · show sm.downPtr x = _
          subst hL
          exact hLc.next_at
        · intro e he
          rcases List.mem_append.1 he with he | he
          · exact htr e he
          · obtain ⟨sel', cols', q1, q2, q3⟩ := htr1 e he
            refine ⟨x :: sel', c :: cols', ?_, ?_, ?_⟩
            · rw [q1, hsr3, List.append_assoc]; rfl
            · refine List.Forall₂.cons hxp ?_
              rw [hpar3] at q2
              exact q2
            · rw [halloc3] at q3
              simp only [descend, descendStep, hpick0, hpc, hcov0, hc20, q3]

end dlx


namespace dlx

theorem descendStep_mono {f f1 : Nat} (hle : f ≤ f1) {x : Nat} {m : matrix} {r : Nat × matrix}
    (h : descendStep f x m = some r) : descendStep f1 x m = some r := by
  simp only [descendStep] at h ⊢
  cases hp : pickColumn f m with
  | none => rw [hp] at h; simp at h
  | some c =>
    rw [hp] at h
    simp only at h
    rw [pickColumn_mono hle hp]
    simp only
    cases hc : cover f (m.parentColumnPtr c) m with
    | none => rw [hc] at h; simp at h
    | some m1 =>
      rw [hc] at h
      simp only at h
      rw [cover_mono hle hc]
      simp only
      cases hr : coverRowColumns f x { m1 with solutionRows := m1.solutionRows ++ [x] } with
      | none => rw [hr] at h; simp at h
      | some m2 =>
        rw [hr] at h
        rw [coverRowColumns_mono hle hr]
        exact h

theorem descend_mono {f f1 : Nat} (hle : f ≤ f1) : ∀ (sel : List Nat) (m : matrix)
    (r : List Nat × matrix), descend f sel m = some r → descend f1 sel m = some r := by
  intro sel
  induction sel with
  | nil => intro m r h; exact h
  | cons x xs ih =>
    intro m r h
    simp only [descend] at h ⊢
    cases hs : descendStep f x m with
    | none => rw [hs] at h; simp at h
    | some p =>
      obtain ⟨c, m2⟩ := p
      rw [hs] at h
      simp only at h
      rw [descendStep_mono hle hs]
      simp only
      cases hd : descend f xs m2 with
      | none => rw [hd] at h; simp at h
      | some q =>
        rw [hd] at h
        rw [ih m2 q hd]
        exact h

theorem forall₂_and_left {α β : Type} {R : α → β → Prop} {Q : α → Prop} {l1 : List α}
    {l2 : List β} (h : List.Forall₂ R l1 l2) (hq : ∀ a ∈ l1, Q a) :
    List.Forall₂ (fun a b => Q a ∧ R a b) l1 l2 := by
  induction h with
  | nil => exact List.Forall₂.nil
  | cons hab _ ih =>
    exact List.Forall₂.cons ⟨hq _ (List.mem_cons_self _ _), hab⟩
      (ih (fun a ha => hq a (List.mem_cons_of_mem _ ha)))

/-- C17 (solution content).  On a matrix built from well-formed rows, with
enough fuel, every solution that `search` sends (these are the solutions that
`SolveComplete` delivers, and the first of them is the one `Solve` returns) was
sent in the matrix `e.2` reached by the path of `search` along the
representative nodes `e.2.solutionRows`, and the map sent holds, for each
representative node `x` in the order of the pushes, the row index of `x` as the
key and, as the value, the column indices of the row read around its horizontal
ring from `x`.  That value is a cyclic rotation of the index sequence passed to
the `AddRow` call that returned the key, and its first entry is the index of the
column `c` that `search` picked for branching when `x` was pushed. -/
theorem solution_content (n : Nat) (rows : List (List Int)) (hwf : WellFormed n rows) :
    ∃ m, build n rows = some m ∧ ∀ fuel, 2 * m.alloc ≤ fuel →
      ∃ st, search fuel m = some st ∧
        SolveComplete fuel m =
          some (st.emitted.map (fun e => Event.solution e.1) ++ [Event.finished st.found],
            st.m) ∧
        (∃ res, Solve fuel m = some res ∧
          (res.success = true → st.emitted.head?.map Prod.fst = some res.solution)) ∧
        ∀ e ∈ st.emitted,
          e.1 = e.2.solutionRows.map (fun x => (m.rowInd x, (rowCells m x).map (colOf m))) ∧
          ∃ cols, descend fuel e.2.solutionRows m = some (cols, e.2) ∧
            List.Forall₂ (fun (x c : Nat) =>
              isNode n m x ∧ m.parentColumnPtr x = c ∧
              ((rowCells m x).map (colOf m)).head? = some ((c : Int) - 1) ∧
              ∃ i, (rowCells m x).map (colOf m) = (rowAt rows (m.rowInd x).toNat).rotate i)
              e.2.solutionRows cols := by
  obtain ⟨m, hb, hI, hsr⟩ := build_adm hwf.admissible
  refine ⟨m, hb, fun fuel hf => ?_⟩
  have hs := hI.static
  have hfuel : m.alloc + (List.range' 1 n).length < fuel := by
    have := hs.alloc_gt
    simp only [List.length_range']
    omega
  have hsel : ∀ z ∈ m.solutionRows, isNode n m z ∧ m.parentColumnPtr z ∉ List.range' 1 n := by
    intro z hz; rw [hsr] at hz; simp at hz
  have hnd : (m.solutionRows.map m.rowInd).Nodup := by rw [hsr]; simp
  obtain ⟨E, Ts, h1, _, h3⟩ := search_spec fuel m _ hI hsel hnd hfuel
  have htr := search_trace fuel m _ hI hsel hnd hfuel _ h1
  refine ⟨_, h1, by simp only [SolveComplete, h1], ?_, ?_⟩
  · cases E with
    | nil => exact ⟨_, Solve_of_search_nil h1, fun hh => by simp at hh⟩
    | cons e es => exact ⟨_, Solve_of_search_cons h1, fun _ => rfl⟩
  · intro e he
    obtain ⟨t, _, hem⟩ := forall₂_mem_left h3 he
    obtain ⟨_, sel, q1, _, q3, q4⟩ := hem
    obtain ⟨sel', cols, p1, p2, p3⟩ := htr e he
    rw [hsr, List.nil_append] at q1 p1 q4
    have hss : sel' = sel := by rw [← p1, q1]
    subst hss
    rw [p1]
    refine ⟨q4, cols, descend_mono (by omega) _ _ _ p3, ?_⟩
    refine (forall₂_and_left p2 q3).imp ?_
    intro x c ⟨hx, hxc⟩
    refine ⟨hx, hxc, ?_, hs.row_value hx⟩
    simp only [rowCells, List.map_cons, List.head?_cons, colOf, hxc]
    rw [hs.head_ind c (by have := hs.node_par x hx; rw [hxc] at this; exact this.2)]

/-- Instance of `solution_content` at the example with two solutions. -/
theorem solution_content_witness :
    WellFormed 4 multiRows ∧
    (∃ m, build 4 multiRows = some m ∧ ∀ fuel, 2 * m.alloc ≤ fuel →
      ∃ st, search fuel m = some st ∧
        SolveComplete fuel m =
          some (st.emitted.map (fun e => Event.solution e.1) ++ [Event.finished st.found],
            st.m) ∧
        (∃ res, Solve fuel m = some res ∧
          (res.success = true → st.emitted.head?.map Prod.fst = some res.solution)) ∧
        ∀ e ∈ st.emitted,
          e.1 = e.2.solutionRows.map (fun x => (m.rowInd x, (rowCells m x).map (colOf m))) ∧
          ∃ cols, descend fuel e.2.solutionRows m = some (cols, e.2) ∧
            List.Forall₂ (fun (x c : Nat) =>
              isNode 4 m x ∧ m.parentColumnPtr x = c ∧
              ((rowCells m x).map (colOf m)).head? = some ((c : Int) - 1) ∧
              ∃ i, (rowCells m x).map (colOf m) = (rowAt multiRows (m.rowInd x).toNat).rotate i)
              e.2.solutionRows cols) :=
  ⟨by decide, solution_content 4 multiRows (by decide)⟩

end dlx


namespace dlx

/-! ### Empty rows -/

theorem patchRows_length (rows : List (List Int)) : (patchRows rows).length = rows.length := by
  simp [patchRows]

theorem rowAt_patch (rows : List (List Int)) (r : Nat) :
    rowAt (patchRows rows) r =
      if r < rows.length ∧ rowAt rows r = [] then [-1] else rowAt rows r := by
  by_cases hr : r < rows.length
  · have h1 : rowAt rows r = rows[r] := by
      simp [rowAt, List.getD, List.getElem?_eq_getElem hr]
    have h2 : rowAt (patchRows rows) r = if rows[r] = [] then [-1] else rows[r] := by
      simp [rowAt, List.getD, patchRows, List.getElem?_eq_getElem hr]
    rw [h2, h1]
    by_cases he : rows[r] = []
    · rw [if_pos he, if_pos ⟨hr, he⟩]
    · rw [if_neg he, if_neg (fun hh => he hh.2)]
  · rw [rowAt_nil (by rw [patchRows_length]; omega), rowAt_nil (by omega), if_neg (fun hh => hr hh.1)]

theorem patchRows_ne (rows : List (List Int)) : ∀ row ∈ patchRows rows, row ≠ [] := by
  intro row hrow
  simp only [patchRows, List.mem_map] at hrow
  obtain ⟨r, _, rfl⟩ := hrow
  by_cases he : r = []
  · simp [he]
  · simp [he]

/-- Among non-negative column indices a row and its patched version have the
same members. -/
theorem mem_rowAt_patch {rows : List (List Int)} {r : Nat} {j : Int} (hj : 0 ≤ j) :
    j ∈ rowAt (patchRows rows) r ↔ j ∈ rowAt rows r := by
  rw [rowAt_patch]
  by_cases he : r < rows.length ∧ rowAt rows r = []
  · rw [if_pos he, he.2]
    simp only [List.mem_singleton, List.not_mem_nil, iff_false]
    omega
  · rw [if_neg he]

/-- A row lies inside a set of non-negative column indices exactly when its
patched version does and the row is not an empty one. -/
theorem rowAt_patch_subset {rows : List (List Int)} {r : Nat} {A : List Int}
    (hA : ∀ j ∈ A, 0 ≤ j) (hr : r < rows.length) :
    (∀ j ∈ rowAt (patchRows rows) r, j ∈ A) ↔
      (∀ j ∈ rowAt rows r, j ∈ A) ∧ rowAt rows r ≠ [] := by
  rw [rowAt_patch]
  by_cases he : rowAt rows r = []
  · rw [if_pos ⟨hr, he⟩, he]
    simp only [List.mem_singleton, forall_eq, List.not_mem_nil, false_implies, implies_true,
      ne_eq, not_true_eq_false, and_false, iff_false]
    intro hh
    have := hA _ hh
    omega
  · rw [if_neg (fun hh => he hh.2)]
    exact ⟨fun h => ⟨h, he⟩, fun h => h.1⟩

/-- Algorithm X does not see the difference between an empty row and a row that
cannot be selected. -/
theorem Emits.patch {rows : List (List Int)} :
    ∀ {A : List Int} {o : Option (List Nat)} {E : List (List Nat)}, Emits rows A o E →
      (∀ j ∈ A, 0 ≤ j) → Emits (patchRows rows) A o E := by
  intro A o E h
  induction h with
  | done => intro _; exact Emits.done
  | branch A c L E hc hnd hL _ ih =>
    intro hA
    refine Emits.branch A c L E hc hnd ?_ (ih hA)
    intro r
    rw [hL r, patchRows_length]
    constructor
    · rintro ⟨h1, h2, h3⟩
      have hne : rowAt rows r ≠ [] := fun hh => by rw [hh] at h2; simp at h2
      exact ⟨h1, (mem_rowAt_patch (hA c hc)).2 h2, (rowAt_patch_subset hA h1).2 ⟨h3, hne⟩⟩
    · rintro ⟨h1, h2, h3⟩
      exact ⟨h1, (mem_rowAt_patch (hA c hc)).1 h2, ((rowAt_patch_subset hA h1).1 h3).1⟩
  | nil A => intro _; exact Emits.nil A
  | snoc A A1 L E r E1 _ hA1 _ ih1 ih2 =>
    intro hA
    have hA1' : ∀ j ∈ A1, 0 ≤ j := fun j hj => hA j ((hA1 j).1 hj).1
    refine Emits.snoc A A1 L E r E1 (ih1 hA) ?_ (ih2 hA1')
    intro j
    rw [hA1 j]
    constructor
    · rintro ⟨h1, h2⟩
      exact ⟨h1, fun hh => h2 ((mem_rowAt_patch (hA j h1)).1 hh)⟩
    · rintro ⟨h1, h2⟩
      exact ⟨h1, fun hh => h2 ((mem_rowAt_patch (hA j h1)).2 hh)⟩

/-- The exact covers by patched rows are the exact covers that use no empty
row. -/
theorem cover_patch {rows : List (List Int)} {A : List Int} (hA : ∀ j ∈ A, 0 ≤ j)
    (T : Finset Nat) :
    Cover (patchRows rows) A T ↔ Cover rows A T ∧ ∀ r ∈ T, rowAt rows r ≠ [] := by
  constructor
  · rintro ⟨h1, h2⟩
    have hT : ∀ r ∈ T, r < rows.length ∧ (∀ j ∈ rowAt rows r, j ∈ A) ∧ rowAt rows r ≠ [] := by
      intro r hr
      have hlt : r < rows.length := by
        have := (h1 r hr).1
        rwa [patchRows_length] at this
      exact ⟨hlt, (rowAt_patch_subset hA hlt).1 (h1 r hr).2⟩
    refine ⟨⟨fun r hr => ⟨(hT r hr).1, (hT r hr).2.1⟩, ?_⟩, fun r hr => (hT r hr).2.2⟩
    intro j hj
    obtain ⟨r, ⟨hr, hjr⟩, huniq⟩ := h2 j hj
    refine ⟨r, ⟨hr, (mem_rowAt_patch (hA j hj)).1 hjr⟩, ?_⟩
    rintro r' ⟨hr', hjr'⟩
    exact huniq r' ⟨hr', (mem_rowAt_patch (hA j hj)).2 hjr'⟩
  · rintro ⟨⟨h1, h2⟩, h3⟩
    refine ⟨fun r hr => ⟨by rw [patchRows_length]; exact (h1 r hr).1,
      (rowAt_patch_subset hA (h1 r hr).1).2 ⟨(h1 r hr).2, h3 r hr⟩⟩, ?_⟩
    intro j hj
    obtain ⟨r, ⟨hr, hjr⟩, huniq⟩ := h2 j hj
    refine ⟨r, ⟨hr, (mem_rowAt_patch (hA j hj)).2 hjr⟩, ?_⟩
    rintro r' ⟨hr', hjr'⟩
    exact huniq r' ⟨hr', (mem_rowAt_patch (hA j hj)).1 hjr'⟩

/-- On the full column set, the exact covers of the search are the ones found
by brute-force enumeration, also when some rows are empty. -/
theorem cover_iff_bruteForce_adm {n : Nat} {rows : List (List Int)} (hadm : Admissible n rows)
    (T : Finset Nat) : Cover rows (colsOf (List.range' 1 n)) T ↔ T ∈ bruteForce n rows := by
  simp only [bruteForce, Finset.mem_filter, Finset.mem_powerset]
  constructor
  · rintro ⟨h1, h2⟩
    refine ⟨fun r hr => Finset.mem_range.2 (h1 r hr).1, ?_⟩
    intro j hj
    obtain ⟨r, ⟨hr, hjr⟩, huniq⟩ := h2 (j : Int) (mem_colsOf_all.2 ⟨by omega, by
      have := Finset.mem_range.1 hj; omega⟩)
    rw [Finset.card_eq_one]
    refine ⟨r, ?_⟩
    ext r'
    simp only [Finset.mem_filter, Finset.mem_singleton]
    constructor
    · intro hr'; exact huniq r' hr'
    · rintro rfl; exact ⟨hr, hjr⟩
  · rintro ⟨h1, h2⟩
    refine ⟨?_, ?_⟩
    · intro r hr
      have hlt : r < rows.length := Finset.mem_range.1 (h1 hr)
      refine ⟨hlt, fun j hj => mem_colsOf_all.2 ((hadm _ (rowAt_mem hlt)).2 j hj)⟩
    · intro j hj
      obtain ⟨hj0, hjn⟩ := mem_colsOf_all.1 hj
      have hjj : ((j.toNat : Nat) : Int) = j := by omega
      have := h2 j.toNat (Finset.mem_range.2 (by omega))
      rw [hjj, Finset.card_eq_one] at this
      obtain ⟨r, hr⟩ := this
      have hmem : ∀ r', r' ∈ T ∧ j ∈ rowAt rows r' ↔ r' = r := by
        intro r'
        have := Finset.ext_iff.1 hr r'
        simpa using this
      exact ⟨r, (hmem r).2 rfl, fun r' hr' => (hmem r').1 hr'⟩

/-- Everything the search does on a matrix built from duplicate-free, in-range
rows, some of which may be empty. -/
theorem search_summary_adm {n : Nat} {rows : List (List Int)} (hadm : Admissible n rows) :
    ∃ m, build n rows = some m ∧
      ∀ fuel, 2 * m.alloc ≤ fuel → ∃ E Ts, search fuel m = some ⟨m, E, !E.isEmpty⟩ ∧
        List.Forall₂ (fun (e : Solution × matrix) (t : List Nat) =>
          mapKeys e.1 = t.map (fun (r : Nat) => (r : Int))) E Ts ∧
        (∀ t ∈ Ts, t.Nodup ∧ t.toFinset ∈ bruteForce n rows ∧ ∀ r ∈ t, rowAt rows r ≠ []) ∧
        (∀ T ∈ bruteForce n rows, (∀ r ∈ T, rowAt rows r ≠ []) → ∃ t ∈ Ts, t.toFinset = T) ∧
        Ts.Pairwise (fun t t' => t.toFinset ≠ t'.toFinset) := by
  obtain ⟨m, hb, hI, hsr⟩ := build_adm hadm
  refine ⟨m, hb, ?_⟩
  intro fuel hf
  obtain ⟨E, Ts, h1, h2, h3⟩ := search_built hI hsr fuel hf
  have hA : ∀ j ∈ colsOf (List.range' 1 n), (0 : Int) ≤ j :=
    fun j hj => (mem_colsOf_all.1 hj).1
  obtain ⟨k1, k2, k3⟩ := (Emits.spec (patchRows_ne rows) (h2.patch hA)).1 rfl
  refine ⟨E, Ts, h1, h3.imp (fun e t h => (h.keys hI.static hsr).1), ?_, ?_, k3⟩
  · intro t ht
    obtain ⟨q1, q2⟩ := (cover_patch hA _).1 (k1 t ht).2
    exact ⟨(k1 t ht).1, (cover_iff_bruteForce_adm hadm _).1 q1,
      fun r hr => q2 r (List.mem_toFinset.2 hr)⟩
  · intro T hT hne
    exact k2 T ((cover_patch hA _).2 ⟨(cover_iff_bruteForce_adm hadm _).2 hT, hne⟩)

end dlx


namespace dlx

/-- C19 (empty rows are inert).  For every matrix, `AddRow` with an empty index
sequence does not panic, returns the next row index and changes nothing but the
row count: no link and no column length.  And on a matrix built from
duplicate-free, in-range rows, any of which may be empty, the index of an empty
row is never a key of a solution delivered by `SolveComplete` or returned by
`Solve`; the solutions delivered are, each exactly once, the exact covers that
use no empty row. -/
theorem empty_rows_inert (n : Nat) (rows : List (List Int)) (hadm : Admissible n rows) :
    (∀ m : matrix, AddRow m [] = some ({ m with rowCount := m.rowCount + 1 }, m.rowCount)) ∧
    ∃ m, build n rows = some m ∧ ∀ fuel, 2 * m.alloc ≤ fuel →
      ∃ evs mf res, SolveComplete fuel m = some (evs, mf) ∧ Solve fuel m = some res ∧
        (∀ sol ∈ solutionsOf evs, ∀ k ∈ mapKeys sol, rowAt rows k.toNat ≠ []) ∧
        (∀ k ∈ mapKeys res.solution, rowAt rows k.toNat ≠ []) ∧
        ((solutionsOf evs).map keySet).Nodup ∧
        ((solutionsOf evs).map keySet).toFinset =
          ((bruteForce n rows).filter (fun S => ∀ r ∈ S, rowAt rows r ≠ [])).image
            (fun S => S.image (fun (r : Nat) => (r : Int))) := by
  refine ⟨AddRow_nil, ?_⟩
  obtain ⟨m, hb, hall⟩ := search_summary_adm hadm
  refine ⟨m, hb, fun fuel hf => ?_⟩
  obtain ⟨E, Ts, h1, h2, h3, h4, h5⟩ := hall fuel hf
  have hkeys : (E.map Prod.fst).map keySet =
      Ts.map (fun t => t.toFinset.image (fun (r : Nat) => (r : Int))) := by
    rw [List.map_map]
    refine forall₂_map_eq (h2.imp ?_)
    intro e t he
    simp only [Function.comp, keySet, he, toFinset_map_cast]
  have hne : ∀ e ∈ E, ∀ k ∈ mapKeys e.1, rowAt rows k.toNat ≠ [] := by
    intro e he k hk
    obtain ⟨t, ht, hkt⟩ := forall₂_mem_left h2 he
    rw [hkt] at hk
    obtain ⟨r, hr, rfl⟩ := List.mem_map.1 hk
    rw [Int.toNat_natCast]
    exact (h3 t ht).2.2 r hr
  have hsolve : ∃ res, Solve fuel m = some res ∧
      ∀ k ∈ mapKeys res.solution, rowAt rows k.toNat ≠ [] := by
    cases E with
    | nil => exact ⟨_, Solve_of_search_nil h1, fun k hk => by simp [mapKeys] at hk⟩
    | cons e es => exact ⟨_, Solve_of_search_cons h1, hne e (List.mem_cons_self _ _)⟩
  obtain ⟨res, hres, hresk⟩ := hsolve
  refine ⟨_, _, res, SolveComplete_of_search h1, hres, ?_, hresk, ?_, ?_⟩
  · intro sol hsol
    rw [solutionsOf_map] at hsol
    obtain ⟨e, he, rfl⟩ := List.mem_map.1 hsol
    exact hne e he
  · rw [solutionsOf_map, hkeys, List.Nodup, List.pairwise_map]
    refine h5.imp ?_
    intro t t' hne' heq
    exact hne' (Finset.image_injective cast_injective heq)
  · rw [solutionsOf_map, hkeys]
    ext S
    simp only [List.mem_toFinset, List.mem_map, Finset.mem_image, Finset.mem_filter]
    constructor
    · rintro ⟨t, ht, rfl⟩
      exact ⟨t.toFinset, ⟨(h3 t ht).2.1, fun r hr => (h3 t ht).2.2 r (List.mem_toFinset.1 hr)⟩,
        rfl⟩
    · rintro ⟨T, ⟨hT, hTne⟩, rfl⟩
      obtain ⟨t, ht, rfl⟩ := h4 T hT hTne
      exact ⟨t, ht, rfl⟩

/-- Instance of `empty_rows_inert` at the rows of `TestSolveCompleteNoSolutions`. -/
theorem empty_rows_inert_witness :
    Admissible 4 nilRows ∧
    ((∀ m : matrix, AddRow m [] = some ({ m with rowCount := m.rowCount + 1 }, m.rowCount)) ∧
    ∃ m, build 4 nilRows = some m ∧ ∀ fuel, 2 * m.alloc ≤ fuel →
      ∃ evs mf res, SolveComplete fuel m = some (evs, mf) ∧ Solve fuel m = some res ∧
        (∀ sol ∈ solutionsOf evs, ∀ k ∈ mapKeys sol, rowAt nilRows k.toNat ≠ []) ∧
        (∀ k ∈ mapKeys res.solution, rowAt nilRows k.toNat ≠ []) ∧
        ((solutionsOf evs).map keySet).Nodup ∧
        ((solutionsOf evs).map keySet).toFinset =
          ((bruteForce 4 nilRows).filter (fun S => ∀ r ∈ S, rowAt nilRows r ≠ [])).image
            (fun S => S.image (fun (r : Nat) => (r : Int)))) :=
  ⟨by decide, empty_rows_inert 4 nilRows (by decide)⟩

end dlx
